import Mathlib

/-! Real-filesystem VFS backend: the native handle cache.

A shallow embedding of `core/file_sys/vfs_real.cpp`: the two intrusive
recency lists of `RealVfsFilesystem`, its open-handle counter, and the file
objects (`RealVfsFile`) that reach the cache through `RefreshReference` and
`DropReference`.

Conventions of the embedding

* A `FileReference` object is named by its identity (`RefId`); the field
  `file` of every such object is kept in the map `RealVfsFilesystem.file`.
* The intrusive lists are lists of identities, front of the list first.
  `erase(iterator_to(reference))` is `List.erase`. Where the C++ would erase
  a reference from a list it is not linked into (undefined behaviour, in no
  reachable state), `List.erase` leaves the list as it is.
* `num_open_files` is a `size_t`: increments and decrements wrap modulo `2^64`.
* Host primitives that the translation unit only calls (`FS::FileOpen`, the
  `IOFile` methods, the path helpers) are parameters of the operations.
-/

/-! # Definitions -/

namespace FileSys

/-! ## Constants and machine arithmetic -/

/-- The constant `MaxOpenFiles` of the anonymous namespace. -/
def MaxOpenFiles : Nat := 512

/-- The modulus of `size_t` arithmetic. -/
def SizeMod : Nat := 2 ^ 64

/-- The statement `num_open_files++` on a `size_t`. -/
def sizeInc (n : Nat) : Nat := (n + 1) % SizeMod

/-- The statement `num_open_files--` on a `size_t`. -/
def sizeDec (n : Nat) : Nat := (n + (SizeMod - 1)) % SizeMod

/-! ## Modes and host handles -/

/-- Modelled from the spec: the enumeration `Mode` (declared in a header that is
not part of the sources at hand), an access mode made of read / write / append
flags stored in a `u32`; the flags take the bits 0, 1 and 2, as those of
`OpenMode` in `fs_filesystem.h`. -/
structure Mode where
  raw : Nat
deriving DecidableEq, Repr

namespace Mode

def Read : Mode := ⟨1⟩
def Write : Mode := ⟨2⟩
def ReadWrite : Mode := ⟨3⟩
def Append : Mode := ⟨4⟩
def ReadAppend : Mode := ⟨5⟩
def WriteAppend : Mode := ⟨6⟩
def All : Mode := ⟨7⟩

end Mode

/-- Modelled from the spec: the host access modes `FS::FileAccessMode` that the
translation unit names (`Read`, `Write`, `ReadWrite`), together with the
value-initialised mode `{}` returned by the `default` branch of
`ModeFlagsToFileAccessMode`. -/
inductive FileAccessMode where
  | Read
  | Write
  | ReadWrite
  | Unset
deriving DecidableEq, Repr

/-- Modelled from the spec: `FS::FileType`; only `BinaryFile` is used. -/
inductive FileType where
  | BinaryFile
  | TextFile
deriving DecidableEq, Repr

/-- The function `ModeFlagsToFileAccessMode`. -/
def ModeFlagsToFileAccessMode (mode : Mode) : FileAccessMode :=
  if mode = Mode.Read then FileAccessMode.Read
  else if mode = Mode.Write ∨ mode = Mode.ReadWrite ∨ mode = Mode.Append ∨
      mode = Mode.ReadAppend ∨ mode = Mode.WriteAppend ∨ mode = Mode.All then
    FileAccessMode.ReadWrite
  else FileAccessMode.Unset

/-- Modelled from the spec: a host file handle (`FS::IOFile`), "one native OS file
descriptor/handle bound to a path and access mode". -/
structure IOFile where
  path : String
  access : FileAccessMode
  type : FileType
deriving DecidableEq, Repr

/-- The signature of `FS::FileOpen`: the handle the host returns for a path, an
access mode and a file type, or nothing when the native open fails. -/
abbrev HostOpen := String → FileAccessMode → FileType → Option IOFile

/-- The host path helpers the translation unit calls. -/
structure HostPaths where
  SanitizePath : String → String
  GetParentPath : String → String
  SplitPathComponents : String → List String

/-! ## The handle cache -/

/-- Identity of a `FileReference` object. -/
abbrev RefId := Nat

/-- The state of a `RealVfsFilesystem` together with the `file` field of every
`FileReference` object. -/
structure RealVfsFilesystem where
  open_references : List RefId
  closed_references : List RefId
  num_open_files : Nat
  file : RefId → Option IOFile

namespace RealVfsFilesystem

/-- The state of a freshly constructed `RealVfsFilesystem`. -/
def empty : RealVfsFilesystem :=
  { open_references := [], closed_references := [], num_open_files := 0,
    file := fun _ => none }

/-- The method `InsertReferenceIntoList`. -/
def InsertReferenceIntoList (s : RealVfsFilesystem) (reference : RefId) :
    RealVfsFilesystem :=
  if (s.file reference).isSome then
    { s with open_references := reference :: s.open_references }
  else
    { s with closed_references := reference :: s.closed_references }

/-- The method `RemoveReferenceFromList`. -/
def RemoveReferenceFromList (s : RealVfsFilesystem) (reference : RefId) :
    RealVfsFilesystem :=
  if (s.file reference).isSome then
    { s with open_references := s.open_references.erase reference }
  else
    { s with closed_references := s.closed_references.erase reference }

/-- The block `if (reference.file) { reference.file.reset(); num_open_files--; }`
shared by `EvictSingleReference` and `DropReference`. -/
def closeFile (s : RealVfsFilesystem) (reference : RefId) : RealVfsFilesystem :=
  if (s.file reference).isSome then
    { s with file := Function.update s.file reference none,
             num_open_files := sizeDec s.num_open_files }
  else s

/-- The method `EvictSingleReference`. -/
def EvictSingleReference (s : RealVfsFilesystem) : RealVfsFilesystem :=
  if s.num_open_files < MaxOpenFiles ∨ s.open_references.isEmpty then s
  else
    match s.open_references.getLast? with
    | none => s
    | some reference =>
      InsertReferenceIntoList (closeFile (RemoveReferenceFromList s reference) reference)
        reference

/-- The method `RefreshReference`; `FileOpen` is the host primitive. -/
def RefreshReference (FileOpen : HostOpen) (s : RealVfsFilesystem) (path : String)
    (perms : Mode) (reference : RefId) : RealVfsFilesystem :=
  let s1 := RemoveReferenceFromList s reference
  let s2 :=
    if (s1.file reference).isSome then s1
    else
      let s3 := EvictSingleReference s1
      let opened := FileOpen path (ModeFlagsToFileAccessMode perms) FileType.BinaryFile
      let s4 := { s3 with file := Function.update s3.file reference opened }
      if opened.isSome then { s4 with num_open_files := sizeInc s4.num_open_files }
      else s4
  InsertReferenceIntoList s2 reference

/-- The method `DropReference`. -/
def DropReference (s : RealVfsFilesystem) (reference : RefId) : RealVfsFilesystem :=
  closeFile (RemoveReferenceFromList s reference) reference

end RealVfsFilesystem

/-! ## File objects -/

/-- The data members of a `RealVfsFile` (the back pointer `base` is the cache
the operations are applied to). -/
structure RealVfsFile where
  reference : RefId
  path : String
  parent_path : String
  path_components : List String
  perms : Mode
deriving DecidableEq, Repr

/-- The constructor of `RealVfsFile`. -/
def RealVfsFile.construct (P : HostPaths) (reference : RefId) (path : String) (perms : Mode) :
    RealVfsFile :=
  { reference := reference, path := path, parent_path := P.GetParentPath path,
    path_components := P.SplitPathComponents path, perms := perms }

/-- The method `RealVfsFilesystem::OpenFile`. The argument `reference` is the
identity of the object `std::make_unique<FileReference>()` creates; its `file`
field starts out empty. The result is the new cache state and the returned
`VirtualFile` (a nullable pointer). -/
def RealVfsFilesystem.OpenFile (P : HostPaths) (s : RealVfsFilesystem) (reference : RefId)
    (path_ : String) (perms : Mode) : RealVfsFilesystem × Option RealVfsFile :=
  let path := P.SanitizePath path_
  let s1 := { s with file := Function.update s.file reference none }
  (s1.InsertReferenceIntoList reference, some (RealVfsFile.construct P reference path perms))

/-- The host operations on an open handle that the data accessors call:
`IOFile::GetSize`, `IOFile::SetSize`, `IOFile::Seek`, and the byte counts
returned by `IOFile::ReadSpan` / `IOFile::WriteSpan` for a span of the given
length after a seek to the given offset. -/
structure HostIO where
  GetSize : IOFile → Nat
  SetSize : IOFile → Nat → Bool
  Seek : IOFile → Int → Bool
  ReadSpan : IOFile → Nat → Int → Nat
  WriteSpan : IOFile → Nat → Int → Nat

/-- The conversion `static_cast<s64>(offset)` of a `size_t`. -/
def toS64 (offset : Nat) : Int :=
  let o := offset % SizeMod
  if o < 2 ^ 63 then (o : Int) else (o : Int) - (2 ^ 64 : Int)

namespace RealVfsFile

/-- The method `RealVfsFile::GetSize`. -/
def GetSize (FileOpen : HostOpen) (io : HostIO) (base : RealVfsFilesystem) (f : RealVfsFile) :
    RealVfsFilesystem × Nat :=
  let base1 := base.RefreshReference FileOpen f.path f.perms f.reference
  match base1.file f.reference with
  | some h => (base1, io.GetSize h)
  | none => (base1, 0)

/-- The method `RealVfsFile::Resize`. -/
def Resize (FileOpen : HostOpen) (io : HostIO) (base : RealVfsFilesystem) (f : RealVfsFile)
    (new_size : Nat) : RealVfsFilesystem × Bool :=
  let base1 := base.RefreshReference FileOpen f.path f.perms f.reference
  match base1.file f.reference with
  | some h => (base1, io.SetSize h new_size)
  | none => (base1, false)

/-- The method `RealVfsFile::Read`; the result is the returned byte count. -/
def Read (FileOpen : HostOpen) (io : HostIO) (base : RealVfsFilesystem) (f : RealVfsFile)
    (length offset : Nat) : RealVfsFilesystem × Nat :=
  let base1 := base.RefreshReference FileOpen f.path f.perms f.reference
  match base1.file f.reference with
  | none => (base1, 0)
  | some h =>
    if !(io.Seek h (toS64 offset)) then (base1, 0)
    else (base1, io.ReadSpan h length (toS64 offset))

/-- The method `RealVfsFile::Write`; the result is the returned byte count. -/
def Write (FileOpen : HostOpen) (io : HostIO) (base : RealVfsFilesystem) (f : RealVfsFile)
    (length offset : Nat) : RealVfsFilesystem × Nat :=
  let base1 := base.RefreshReference FileOpen f.path f.perms f.reference
  match base1.file f.reference with
  | none => (base1, 0)
  | some h =>
    if !(io.Seek h (toS64 offset)) then (base1, 0)
    else (base1, io.WriteSpan h length (toS64 offset))

end RealVfsFile

/-! ## The cache together with its clients -/

/-- A cache, the `RealVfsFile` objects alive on it, and the number of
`FileReference` objects created so far (the next fresh identity). -/
structure System where
  base : RealVfsFilesystem
  files : List RealVfsFile
  allocated : Nat

namespace System

/-- A new filesystem without clients. -/
def init : System := { base := RealVfsFilesystem.empty, files := [], allocated := 0 }

/-- A client calls `OpenFile` and keeps the returned object. -/
def openFile (P : HostPaths) (w : System) (path_ : String) (perms : Mode) : System :=
  match RealVfsFilesystem.OpenFile P w.base w.allocated path_ perms with
  | (base, some f) => { base := base, files := f :: w.files, allocated := w.allocated + 1 }
  | (base, none) => { w with base := base, allocated := w.allocated + 1 }

/-- A client calls `GetSize`, `Resize`, `Read` or `Write` on `f`: the cache goes
through `RefreshReference` with the members of `f`. -/
def access (FileOpen : HostOpen) (w : System) (f : RealVfsFile) : System :=
  { w with base := w.base.RefreshReference FileOpen f.path f.perms f.reference }

/-- The destructor of `f` runs: `DropReference`, then the object is gone. -/
def destroy (w : System) (f : RealVfsFile) : System :=
  { w with base := w.base.DropReference f.reference, files := w.files.erase f }

end System

/-- The states a filesystem and its clients can be in: a new filesystem, then
any sequence of `OpenFile`, data accesses on living file objects (whatever the
host answers to the native open) and destructions of living file objects. -/
inductive Reachable (P : HostPaths) : System → Prop
  | init : Reachable P System.init
  | openFile (w : System) (path_ : String) (perms : Mode) :
      Reachable P w → Reachable P (w.openFile P path_ perms)
  | access (w : System) (FileOpen : HostOpen) (f : RealVfsFile) :
      Reachable P w → f ∈ w.files → Reachable P (w.access FileOpen f)
  | destroy (w : System) (f : RealVfsFile) :
      Reachable P w → f ∈ w.files → Reachable P (w.destroy f)

namespace RealVfsFilesystem

/-! ## Invariants -/

/-- The cache is well formed: no reference is linked twice, the open list holds
exactly the references that own a handle, closed references own none, the
counter is the length of the open list and is within the cap. -/
structure WF (s : RealVfsFilesystem) : Prop where
  nodup_open : s.open_references.Nodup
  nodup_closed : s.closed_references.Nodup
  open_iff : ∀ r, r ∈ s.open_references ↔ (s.file r).isSome = true
  closed_file : ∀ r, r ∈ s.closed_references → s.file r = none
  counter : s.num_open_files = s.open_references.length
  cap : s.num_open_files ≤ MaxOpenFiles

/-- A reference is linked into one of the two lists. -/
def listed (s : RealVfsFilesystem) (x : RefId) : Prop :=
  x ∈ s.open_references ∨ x ∈ s.closed_references

end RealVfsFilesystem

/-- The references owned by the living file objects. -/
def System.live (w : System) : List RefId := w.files.map RealVfsFile.reference

/-- The invariant of the reachable states: the cache is well formed, the
living file objects own pairwise distinct references that were handed out by
the allocator, and the linked references are exactly the living ones. -/
structure Inv (w : System) : Prop where
  wf : w.base.WF
  live_nodup : w.live.Nodup
  live_lt : ∀ r, r ∈ w.live → r < w.allocated
  listed_iff : ∀ r, w.base.listed r ↔ r ∈ w.live

/-! ## Scenarios and sample states -/

/-- A host whose path helpers do nothing to a path. -/
def samplePaths : HostPaths :=
  { SanitizePath := fun p => p, GetParentPath := fun _ => "", SplitPathComponents := fun p => [p] }

/-- A host on which every native open succeeds. -/
def openAlways : HostOpen := fun path access type => some ⟨path, access, type⟩

/-- A host on which every native open fails. -/
def openNever : HostOpen := fun _ _ _ => none

/-- The file object the `n`-th call of `OpenFile` returns on `samplePaths`. -/
def sampleFile (n : Nat) (path : String) (perms : Mode) : RealVfsFile :=
  RealVfsFile.construct samplePaths n path perms

/-- Two files opened, the first one read once. -/
def sampleTwo : System :=
  ((System.init.openFile samplePaths "a" Mode.Read).openFile samplePaths "b" Mode.Write).access
    openAlways (sampleFile 0 "a" Mode.Read)

/-- The first `n` calls of `OpenFile`, with paths `paths 0`, `paths 1`, ... -/
def openMany (P : HostPaths) (paths : Nat → String) (perms : Nat → Mode) (w : System) :
    Nat → System
  | 0 => w
  | n + 1 => (openMany P paths perms w n).openFile P (paths n) (perms n)

/-- The file objects `hs 0`, ..., `hs (k - 1)` are accessed once each, in this
order; `FileOpen i` is the host at the time of the `i`-th access. -/
def accessMany (FileOpen : Nat → HostOpen) (hs : Nat → RealVfsFile) (w : System) :
    Nat → System
  | 0 => w
  | k + 1 => (accessMany FileOpen hs w k).access (FileOpen k) (hs k)

/-- The file object the `i`-th call of `OpenFile` returns on a new filesystem. -/
def handle (P : HostPaths) (paths : Nat → String) (perms : Nat → Mode) (i : Nat) :
    RealVfsFile :=
  RealVfsFile.construct P i (P.SanitizePath (paths i)) (perms i)

/-- The answer of the host `FileOpen` to the native open of a file object. -/
def nativeOpen (FileOpen : HostOpen) (f : RealVfsFile) : Option IOFile :=
  FileOpen f.path (ModeFlagsToFileAccessMode f.perms) FileType.BinaryFile

/-- Sample paths `"0"`, `"1"`, ... -/
def samplePathOf (i : Nat) : String := toString i

/-- Every sample file is opened for reading. -/
def sampleModeOf (_ : Nat) : Mode := Mode.Read

/-- Every native open succeeds, at every time. -/
def alwaysHost (_ : Nat) : HostOpen := openAlways

/-- A full cache: 512 references that own handles, none closed. -/
def fullCache : RealVfsFilesystem :=
  { open_references := (List.range' 0 MaxOpenFiles).reverse,
    closed_references := [],
    num_open_files := MaxOpenFiles,
    file := fun i =>
      if i < MaxOpenFiles then some ⟨"f", FileAccessMode.Read, FileType.BinaryFile⟩ else none }

/-- The references whose order a refresh of `r` must keep: all but `r` and the
evicted reference `ev`, if there is one. -/
def keeps (r : RefId) (ev : Option RefId) (x : RefId) : Bool :=
  x != r && ev != some x

/-- The state in which `RefreshReference` performs the native open of a
handle-less reference: unlinked, and after the eviction step. -/
def beforeOpen (s : RealVfsFilesystem) (r : RefId) : RealVfsFilesystem :=
  (s.RemoveReferenceFromList r).EvictSingleReference

/-- A host on which every open handle reports ten bytes and transfers whatever
is asked for. -/
def sampleIO : HostIO :=
  { GetSize := fun _ => 10, SetSize := fun _ _ => true, Seek := fun _ o => decide (0 ≤ o),
    ReadSpan := fun _ len _ => len, WriteSpan := fun _ len _ => len }

/-- What a client does with a living file object: a data access (with the host
of that moment) or its destruction. -/
inductive Cmd where
  | access (f : RealVfsFile) (FileOpen : HostOpen)
  | destroy (f : RealVfsFile)

/-- The file object a command acts on. -/
def Cmd.file : Cmd → RealVfsFile
  | Cmd.access f _ => f
  | Cmd.destroy f => f

/-- One command. -/
def System.step (w : System) : Cmd → System
  | Cmd.access f FileOpen => w.access FileOpen f
  | Cmd.destroy f => w.destroy f

/-- A sequence of commands, first to last. -/
def System.run (w : System) : List Cmd → System
  | [] => w
  | c :: cs => (w.step c).run cs

/-- Every command acts on a file object that is alive when the command runs and
whose reference was created at or after the allocation count `a0`. -/
def validFrom (a0 : Nat) : System → List Cmd → Prop
  | _, [] => True
  | w, c :: cs => (c.file ∈ w.files ∧ a0 ≤ c.file.reference) ∧ validFrom a0 (w.step c) cs

/-- The reference was created at or after the allocation count `a0`. -/
def isNew (a0 : Nat) (x : RefId) : Bool := decide (a0 ≤ x)

/-- The number of references with a handle plus the number of new references
without one. -/
def pressure (a0 : Nat) (s : RealVfsFilesystem) : Nat :=
  s.open_references.length + (s.closed_references.filter (isNew a0)).length

/-- One more file object on `sampleTwo`, read once and destroyed. -/
def sampleCmds : List Cmd :=
  [Cmd.access (sampleFile 2 "0" Mode.Read) openAlways, Cmd.destroy (sampleFile 2 "0" Mode.Read)]

/-- The system with `MaxOpenFiles` file objects, each accessed once with
success: the cache is full. -/
def fullSystem : System :=
  accessMany alwaysHost (handle samplePaths samplePathOf sampleModeOf)
    (openMany samplePaths samplePathOf sampleModeOf System.init MaxOpenFiles) MaxOpenFiles

/-- The file object created next on `fullSystem`. -/
def overflowFile : RealVfsFile :=
  RealVfsFile.construct samplePaths MaxOpenFiles (samplePaths.SanitizePath "extra") Mode.Read

/-- The new file object is read once and destroyed. -/
def overflowCmds : List Cmd :=
  [Cmd.access overflowFile openAlways, Cmd.destroy overflowFile]

/-! ## Hosts that hand out the handle they were asked for -/

/-- The host hands out the handle it was asked for: a handle returned by the
native open is bound to the path, access mode and file type of the request. -/
def faithful (FileOpen : HostOpen) : Prop :=
  ∀ path access type h, FileOpen path access type = some h → h = ⟨path, access, type⟩

/-- The handle a file object asks the host for. -/
def RealVfsFile.requested (f : RealVfsFile) : IOFile :=
  ⟨f.path, ModeFlagsToFileAccessMode f.perms, FileType.BinaryFile⟩

/-- The reachable states when every host met along the way is faithful. -/
inductive ReachableFaithful (P : HostPaths) : System → Prop
  | start : ReachableFaithful P System.init
  | opened (w : System) (path_ : String) (perms : Mode) :
      ReachableFaithful P w → ReachableFaithful P (w.openFile P path_ perms)
  | accessed (w : System) (FileOpen : HostOpen) (f : RealVfsFile) :
      ReachableFaithful P w → faithful FileOpen → f ∈ w.files →
      ReachableFaithful P (w.access FileOpen f)
  | destroyed (w : System) (f : RealVfsFile) :
      ReachableFaithful P w → f ∈ w.files → ReachableFaithful P (w.destroy f)

/-- Every handle in the cache is the one its file object asks for. -/
def Bound (w : System) : Prop :=
  ∀ f, f ∈ w.files → ∀ h, w.base.file f.reference = some h → h = f.requested

/-- Two files opened, none accessed yet. -/
def sampleOpened : System :=
  (System.init.openFile samplePaths "a" Mode.Read).openFile samplePaths "b" Mode.Write

/-! ## Schedules that open files and access them in the order of creation -/

/-- A step of a client that opens files and accesses them in the order of their
creation: open one more file, or access the oldest file not accessed yet. -/
inductive LruStep where
  | openNext
  | accessNext
deriving DecidableEq, Repr

/-- The run of a schedule on a system on which `k` files were accessed so far.
The `i`-th `OpenFile` uses `paths i` and `perms i` (on a new filesystem it
returns `handle P paths perms i`); `FileOpen j` is the host at the time of the
`j`-th access. -/
def runSchedule (P : HostPaths) (paths : Nat → String) (perms : Nat → Mode)
    (FileOpen : Nat → HostOpen) : System → Nat → List LruStep → System
  | w, _, [] => w
  | w, k, LruStep.openNext :: rest =>
    runSchedule P paths perms FileOpen (w.openFile P (paths w.allocated) (perms w.allocated))
      k rest
  | w, k, LruStep.accessNext :: rest =>
    runSchedule P paths perms FileOpen (w.access (FileOpen k) (handle P paths perms k))
      (k + 1) rest

/-- With `a` files opened and `k` of them accessed, every access of the schedule
is to a file that was opened before. -/
def validSchedule : Nat → Nat → List LruStep → Prop
  | _, _, [] => True
  | a, k, LruStep.openNext :: rest => validSchedule (a + 1) k rest
  | a, k, LruStep.accessNext :: rest => k < a ∧ validSchedule a (k + 1) rest

/-- The handles of the first `k` files, each as the host returned it at the
file's access. -/
def firstHandles (P : HostPaths) (paths : Nat → String) (perms : Nat → Mode)
    (FileOpen : Nat → HostOpen) (k : Nat) : RefId → Option IOFile :=
  fun i => if i < k then nativeOpen (FileOpen i) (handle P paths perms i) else none

/-- The cache while it fills: the first `k` files were accessed, most recent
first in the open list; the files opened and not accessed are closed. -/
def LruFilling (P : HostPaths) (paths : Nat → String) (perms : Nat → Mode)
    (FileOpen : Nat → HostOpen) (w : System) (k : Nat) : Prop :=
  k ≤ MaxOpenFiles ∧ k ≤ w.allocated ∧
  w.base.open_references = (List.range' 0 k).reverse ∧
  w.base.num_open_files = k ∧
  w.base.file = firstHandles P paths perms FileOpen k ∧
  w.base.closed_references.Nodup ∧
  ∀ x, x ∈ w.base.closed_references ↔ k ≤ x ∧ x < w.allocated

/-- The cache after `MaxOpenFiles + 1` files were accessed: the first one was
evicted. -/
def LruFull (P : HostPaths) (paths : Nat → String) (perms : Nat → Mode)
    (FileOpen : Nat → HostOpen) (w : System) : Prop :=
  MaxOpenFiles + 1 ≤ w.allocated ∧
  w.base.open_references = (List.range' 1 MaxOpenFiles).reverse ∧
  w.base.num_open_files = MaxOpenFiles ∧
  (∃ h, w.base.file = Function.update (Function.update
    (firstHandles P paths perms FileOpen MaxOpenFiles) 0 none) MaxOpenFiles (some h)) ∧
  0 ∈ w.base.closed_references

/-- What holds along a schedule: the files returned by `OpenFile` are alive, and
the cache is filling or has just gone one past the cap. -/
def LruInv (P : HostPaths) (paths : Nat → String) (perms : Nat → Mode)
    (FileOpen : Nat → HostOpen) (w : System) (k : Nat) : Prop :=
  (∀ i, i < w.allocated → handle P paths perms i ∈ w.files) ∧
  (LruFilling P paths perms FileOpen w k ∨
    (k = MaxOpenFiles + 1 ∧ LruFull P paths perms FileOpen w))

/-- All files are opened first, then each is accessed once. -/
@[irreducible]
def twoPhase (n : Nat) : List LruStep :=
  List.replicate n LruStep.openNext ++ List.replicate n LruStep.accessNext

/-! ## Flags, directory objects and the host filesystem -/

/-- The test `True(perms & flag)` on the flag enumeration `Mode`. -/
def Mode.has (perms flag : Mode) : Bool := (perms.raw &&& flag.raw) != 0

/-- Modelled from the spec: the entry types `VfsEntryType` the translation unit
names. -/
inductive VfsEntryType where
  | None
  | File
  | Directory
deriving DecidableEq, Repr

/-- Modelled from the spec: the filters `FS::DirEntryFilter` of a directory
iteration (`All` when no filter is given). -/
inductive DirEntryFilter where
  | File
  | Directory
  | All
deriving DecidableEq, Repr

/-- The host filesystem primitives the translation unit calls, over a host
state `σ`: two more path helpers, the queries, the mutations (new state and
result), the construction of an `IOFile` (new state and `IsOpen()`), the
entries `FS::IterateDirEntries` visits (as UTF-8 strings, in the order of the
visit), and the host as seen by `FS::FileOpen` and by the handles. -/
structure HostFs (σ : Type) where
  RemoveTrailingSlash : String → String
  Filename : String → String
  Exists : σ → String → Bool
  IsDir : σ → String → Bool
  IsFile : σ → String → Bool
  CreateDirs : σ → String → σ × Bool
  NewFile : σ → String → σ × Bool
  RenameFile : σ → String → String → σ × Bool
  IOFileOpen : σ → String → FileAccessMode → FileType → σ × Bool
  IterateDirEntries : σ → String → DirEntryFilter → List String
  FileOpen : σ → HostOpen
  io : σ → HostIO

/-- The method `RealVfsFile::GetName`: `path_components.back()`. On an empty
vector `back()` has no defined result: `none`. -/
def RealVfsFile.GetName (f : RealVfsFile) : Option String := f.path_components.getLast?

/-- The method `RealVfsFile::IsWritable`. -/
def RealVfsFile.IsWritable (f : RealVfsFile) : Bool := f.perms.has Mode.Write

/-- The method `RealVfsFile::IsReadable`. -/
def RealVfsFile.IsReadable (f : RealVfsFile) : Bool := f.perms.has Mode.Read

/-- The data members of a `RealVfsDirectory`. -/
structure RealVfsDirectory where
  path : String
  parent_path : String
  path_components : List String
  perms : Mode
deriving DecidableEq, Repr

/-- The constructor of `RealVfsDirectory`: the members, and the host after the
body `if (!FS::Exists(path) && True(perms & Mode::Write)) FS::CreateDirs(path)`. -/
def RealVfsDirectory.construct {σ : Type} (P : HostPaths) (H : HostFs σ) (st : σ)
    (path_ : String) (perms : Mode) : σ × RealVfsDirectory :=
  let path := H.RemoveTrailingSlash path_
  let d : RealVfsDirectory :=
    { path := path, parent_path := P.GetParentPath path,
      path_components := P.SplitPathComponents path, perms := perms }
  if !(H.Exists st path) && perms.has Mode.Write then ((H.CreateDirs st path).1, d)
  else (st, d)

/-- The method `RealVfsFilesystem::OpenDirectory`: the cache (which the method
does not touch), the host and the returned `VirtualDir`. -/
def RealVfsFilesystem.OpenDirectory {σ : Type} (P : HostPaths) (H : HostFs σ) (st : σ)
    (s : RealVfsFilesystem) (path_ : String) (perms : Mode) :
    RealVfsFilesystem × σ × Option RealVfsDirectory :=
  let path := P.SanitizePath path_
  let r := RealVfsDirectory.construct P H st path perms
  (s, r.1, some r.2)

/-- The method `RealVfsFile::GetContainingDirectory`. -/
def RealVfsFile.GetContainingDirectory {σ : Type} (P : HostPaths) (H : HostFs σ) (st : σ)
    (base : RealVfsFilesystem) (f : RealVfsFile) :
    RealVfsFilesystem × σ × Option RealVfsDirectory :=
  base.OpenDirectory P H st f.parent_path f.perms

/-- The method `RealVfsFilesystem::MoveFile`; `reference` is the identity of the
`FileReference` that `OpenFile` creates when the host rename succeeds. -/
def RealVfsFilesystem.MoveFile {σ : Type} (P : HostPaths) (H : HostFs σ) (st : σ)
    (s : RealVfsFilesystem) (reference : RefId) (old_path_ new_path_ : String) :
    σ × RealVfsFilesystem × Option RealVfsFile :=
  let old_path := P.SanitizePath old_path_
  let new_path := P.SanitizePath new_path_
  let r := H.RenameFile st old_path new_path
  if !r.2 then (r.1, s, none)
  else
    let o := RealVfsFilesystem.OpenFile P s reference new_path Mode.ReadWrite
    (r.1, o.1, o.2)

/-- The method `RealVfsFile::Rename`: the comparison of the result of `MoveFile`
with `nullptr`, and the destruction of the temporary `VirtualFile` at the end
of the statement (its destructor calls `DropReference`). -/
def RealVfsFile.Rename {σ : Type} (P : HostPaths) (H : HostFs σ) (st : σ)
    (base : RealVfsFilesystem) (reference : RefId) (f : RealVfsFile) (name : String) :
    σ × RealVfsFilesystem × Bool :=
  let r := base.MoveFile P H st reference f.path (f.parent_path ++ "/" ++ name)
  match r.2.2 with
  | none => (r.1, r.2.1, false)
  | some tmp => (r.1, r.2.1.DropReference tmp.reference, true)

/-- The method `RealVfsFilesystem::CreateFile`; `reference` is the identity of
the `FileReference` that `OpenFile` creates. The temporary `IOFile` is opened
for `Write` and closed again. -/
def RealVfsFilesystem.CreateFile {σ : Type} (P : HostPaths) (H : HostFs σ) (st : σ)
    (s : RealVfsFilesystem) (reference : RefId) (path_ : String) (perms : Mode) :
    σ × RealVfsFilesystem × Option RealVfsFile :=
  let path := P.SanitizePath path_
  if H.IsFile st path then
    let temp := H.IOFileOpen st path FileAccessMode.Write FileType.BinaryFile
    if !temp.2 then (temp.1, s, none)
    else
      let o := RealVfsFilesystem.OpenFile P s reference path perms
      (temp.1, o.1, o.2)
  else
    let n := H.NewFile st path
    if !n.2 then (n.1, s, none)
    else
      let o := RealVfsFilesystem.OpenFile P s reference path perms
      (n.1, o.1, o.2)

/-- The callback of `IterateEntries<RealVfsFile, VfsFile>` applied to the visited
entries: every entry is opened with `OpenFile` and the result is appended to
`out`. -/
def System.openEach (P : HostPaths) (perms : Mode) : System → List String →
    System × List (Option RealVfsFile)
  | w, [] => (w, [])
  | w, p :: ps =>
    let o := RealVfsFilesystem.OpenFile P w.base w.allocated p perms
    let r := System.openEach P perms (w.openFile P p perms) ps
    (r.1, o.2 :: r.2)

/-- The callback of `IterateEntries<RealVfsDirectory, VfsDirectory>` applied to
the visited entries: every entry is opened with `OpenDirectory`. -/
def RealVfsFilesystem.openEachDirectory {σ : Type} (P : HostPaths) (H : HostFs σ)
    (perms : Mode) : σ → RealVfsFilesystem → List String →
    RealVfsFilesystem × σ × List (Option RealVfsDirectory)
  | st, s, [] => (s, st, [])
  | st, s, p :: ps =>
    let o := s.OpenDirectory P H st p perms
    let r := RealVfsFilesystem.openEachDirectory P H perms o.2.1 o.1 ps
    (r.1, r.2.1, o.2.2 :: r.2.2)

/-- The method `std::map::insert_or_assign` on a map kept as an association list
with one entry for a key (the order of the keys is not modelled). -/
def insert_or_assign (out : List (String × VfsEntryType)) (key : String)
    (value : VfsEntryType) : List (String × VfsEntryType) :=
  if out.any (fun e => e.1 == key) then
    out.map (fun e => if e.1 == key then (key, value) else e)
  else out ++ [(key, value)]

namespace RealVfsDirectory

/-- The specialisation `IterateEntries<RealVfsFile, VfsFile>`; the entries are
those the host visits at the time of the call. -/
def IterateEntries_RealVfsFile {σ : Type} (P : HostPaths) (H : HostFs σ) (st : σ)
    (w : System) (d : RealVfsDirectory) : System × List (Option RealVfsFile) :=
  if d.perms = Mode.Append then (w, [])
  else System.openEach P d.perms w (H.IterateDirEntries st d.path DirEntryFilter.File)

/-- The specialisation `IterateEntries<RealVfsDirectory, VfsDirectory>`. -/
def IterateEntries_RealVfsDirectory {σ : Type} (P : HostPaths) (H : HostFs σ) (st : σ)
    (s : RealVfsFilesystem) (d : RealVfsDirectory) :
    RealVfsFilesystem × σ × List (Option RealVfsDirectory) :=
  if d.perms = Mode.Append then (s, st, [])
  else
    RealVfsFilesystem.openEachDirectory P H d.perms st s
      (H.IterateDirEntries st d.path DirEntryFilter.Directory)

/-- The method `RealVfsDirectory::GetFiles`. -/
def GetFiles {σ : Type} (P : HostPaths) (H : HostFs σ) (st : σ) (w : System)
    (d : RealVfsDirectory) : System × List (Option RealVfsFile) :=
  d.IterateEntries_RealVfsFile P H st w

/-- The method `RealVfsDirectory::GetSubdirectories`. -/
def GetSubdirectories {σ : Type} (P : HostPaths) (H : HostFs σ) (st : σ)
    (s : RealVfsFilesystem) (d : RealVfsDirectory) :
    RealVfsFilesystem × σ × List (Option RealVfsDirectory) :=
  d.IterateEntries_RealVfsDirectory P H st s

/-- The method `RealVfsDirectory::GetEntries`. -/
def GetEntries {σ : Type} (H : HostFs σ) (st : σ) (d : RealVfsDirectory) :
    List (String × VfsEntryType) :=
  if d.perms = Mode.Append then []
  else
    (H.IterateDirEntries st d.path DirEntryFilter.All).foldl
      (fun out full_path =>
        insert_or_assign out (H.Filename full_path)
          (if H.IsDir st full_path then VfsEntryType.Directory else VfsEntryType.File))
      []

end RealVfsDirectory

/-- A client calls `Rename` on the file object `f`: `MoveFile` registers a
temporary file object when the host rename succeeds, and the temporary is
destroyed before the call returns. -/
def System.rename {σ : Type} (P : HostPaths) (H : HostFs σ) (st : σ) (w : System)
    (f : RealVfsFile) (name : String) : σ × System × Bool :=
  let r := w.base.MoveFile P H st w.allocated f.path (f.parent_path ++ "/" ++ name)
  match r.2.2 with
  | none => (r.1, { w with base := r.2.1 }, false)
  | some tmp =>
    (r.1, System.destroy
      { base := r.2.1, files := tmp :: w.files, allocated := w.allocated + 1 } tmp, true)

/-- Modelled from the spec: a host filesystem as far as the backend observes
it: the bytes of every regular file, the directories, the entries a directory
iteration visits, and the paths the host refuses to create or to open for
writing. -/
structure SimpleHost where
  content : String → Option (List Nat)
  dirs : List String
  entries : String → List String
  refuses : String → Bool

/-- Modelled from the spec: the handle operations on a `SimpleHost`: the size is
the number of bytes of the file, a seek to an offset that is not negative
succeeds, a read transfers the bytes between the offset and the end of the
file up to the length asked for, a write transfers all the bytes asked for
(extending the file if need be). -/
def SimpleHost.io (st : SimpleHost) : HostIO :=
  { GetSize := fun h => ((st.content h.path).getD []).length,
    SetSize := fun h _ => h.access == FileAccessMode.ReadWrite || h.access == FileAccessMode.Write,
    Seek := fun _ o => decide (0 ≤ o),
    ReadSpan := fun h len o =>
      if h.access == FileAccessMode.Read || h.access == FileAccessMode.ReadWrite then
        min len (((st.content h.path).getD []).length - o.toNat)
      else 0,
    WriteSpan := fun h len _ =>
      if h.access == FileAccessMode.ReadWrite || h.access == FileAccessMode.Write then len
      else 0 }

/-- Modelled from the spec: `FS::FileOpen` on a `SimpleHost`, for the accesses a
refresh asks for: an existing file opens for reading, and for reading and
writing unless the host refuses; the handle is bound to the request. -/
def SimpleHost.FileOpen (st : SimpleHost) : HostOpen :=
  fun path access type =>
    match access with
    | FileAccessMode.Read =>
      if (st.content path).isSome then some ⟨path, access, type⟩ else none
    | FileAccessMode.ReadWrite =>
      if (st.content path).isSome && !st.refuses path then some ⟨path, access, type⟩
      else none
    | _ => none

/-- Modelled from the spec: the primitives of the host filesystem on a
`SimpleHost`. Opening an `IOFile` for `Write` creates the file or discards its
content, unless the host refuses; `NewFile` creates an empty file where
nothing exists; `RenameFile` moves the content of a file. -/
def simpleFs : HostFs SimpleHost :=
  { RemoveTrailingSlash := fun p => p,
    Filename := fun p => p,
    Exists := fun st p => (st.content p).isSome || st.dirs.contains p,
    IsDir := fun st p => st.dirs.contains p,
    IsFile := fun st p => (st.content p).isSome,
    CreateDirs := fun st p =>
      if st.refuses p then (st, false) else ({ st with dirs := p :: st.dirs }, true),
    NewFile := fun st p =>
      if st.refuses p || (st.content p).isSome || st.dirs.contains p then (st, false)
      else ({ st with content := Function.update st.content p (some []) }, true),
    RenameFile := fun st a b =>
      match st.content a with
      | none => (st, false)
      | some c =>
        if st.refuses b then (st, false)
        else
          ({ st with content :=
              Function.update (Function.update st.content a none) b (some c) }, true),
    IOFileOpen := fun st p access _ =>
      match access with
      | FileAccessMode.Write =>
        if st.refuses p || st.dirs.contains p then (st, false)
        else ({ st with content := Function.update st.content p (some []) }, true)
      | FileAccessMode.Read => (st, (st.content p).isSome)
      | FileAccessMode.ReadWrite => (st, (st.content p).isSome && !st.refuses p)
      | FileAccessMode.Unset => (st, false),
    IterateDirEntries := fun st p filter =>
      (st.entries p).filter fun e =>
        match filter with
        | DirEntryFilter.File => (st.content e).isSome
        | DirEntryFilter.Directory => st.dirs.contains e
        | DirEntryFilter.All => true,
    FileOpen := SimpleHost.FileOpen,
    io := SimpleHost.io }

/-- One file more than the cap was opened, and all but the last one were
accessed with success: the cache is full and the last reference is closed. -/
def fullAndOne : System :=
  accessMany alwaysHost (handle samplePaths samplePathOf sampleModeOf)
    (openMany samplePaths samplePathOf sampleModeOf System.init (MaxOpenFiles + 1)) MaxOpenFiles

/-- A host with the directory `d`, which holds the file `d/a` of three bytes and
the directory `d/sub`, and with the file `a` of two bytes; nothing is
refused. -/
def sampleHost : SimpleHost :=
  { content := fun p => if p = "d/a" then some [1, 2, 3] else if p = "a" then some [7, 8] else none,
    dirs := ["d", "d/sub"],
    entries := fun p => if p = "d" then ["d/a", "d/sub"] else [],
    refuses := fun _ => false }

/-- A host without any file or directory. -/
def emptyHost : SimpleHost :=
  { content := fun _ => none, dirs := [], entries := fun _ => [], refuses := fun _ => false }

/-- The directory object for `d`, opened in the mode `perms`. -/
def sampleDir (perms : Mode) : RealVfsDirectory :=
  (RealVfsDirectory.construct samplePaths simpleFs sampleHost "d" perms).2

/-- A host without any file or directory that refuses to create anything. -/
def refusingHost : SimpleHost :=
  { content := fun _ => none, dirs := [], entries := fun _ => [], refuses := fun _ => true }

end FileSys

/-! # Theorems -/

namespace FileSys

/-! ## Machine arithmetic within range -/

theorem sizeInc_eq (n : Nat) (h : n ≤ MaxOpenFiles) : sizeInc n = n + 1 := by
  unfold sizeInc SizeMod
  unfold MaxOpenFiles at h
  omega

theorem sizeDec_eq (n : Nat) (h0 : 0 < n) (h : n ≤ MaxOpenFiles) : sizeDec n = n - 1 := by
  unfold sizeDec SizeMod
  unfold MaxOpenFiles at h
  omega

theorem sizeDec_eq_of_lt (n : Nat) (h0 : 0 < n) (h : n < SizeMod) : sizeDec n = n - 1 := by
  unfold sizeDec
  unfold SizeMod at *
  omega

/-! ## Lists without repetition -/

theorem erase_getLast_eq_dropLast {l : List RefId} {e : RefId} (hn : l.Nodup)
    (he : l.getLast? = some e) : l.erase e = l.dropLast := by
  have hl : l.dropLast ++ [e] = l := List.dropLast_append_getLast? e he
  have hn2 : (l.dropLast ++ [e]).Nodup := by rw [hl]; exact hn
  have hnot : e ∉ l.dropLast := by
    intro hmem
    have := (List.nodup_append.mp hn2).2.2
    exact this hmem (List.mem_singleton_self e)
  conv_lhs => rw [← hl]
  rw [List.erase_append_right _ hnot]
  simp

theorem update_none_self (f : RefId → Option IOFile) (r : RefId) (h : f r = none) :
    Function.update f r none = f :=
  Function.update_eq_self_iff.mpr h.symm

theorem mem_of_getLast_eq {l : List RefId} {e : RefId} (he : l.getLast? = some e) : e ∈ l := by
  have hl : l.dropLast ++ [e] = l := List.dropLast_append_getLast? e he
  rw [← hl]
  simp

namespace RealVfsFilesystem

/-! ## What each cache operation does -/

/-- Eviction below the cap, or with nothing open, is the identity. -/
theorem EvictSingleReference_noop (s : RealVfsFilesystem)
    (h : s.num_open_files < MaxOpenFiles ∨ s.open_references = []) :
    s.EvictSingleReference = s := by
  unfold EvictSingleReference
  rw [if_pos]
  rcases h with h | h
  · exact Or.inl h
  · right; simp [h]

/-- Eviction at the cap: the back of the open list is closed and moved to the
front of the closed list. -/
theorem EvictSingleReference_evict (s : RealVfsFilesystem) (e : RefId)
    (hcap : MaxOpenFiles ≤ s.num_open_files)
    (hlast : s.open_references.getLast? = some e)
    (hfile : (s.file e).isSome) (hn : s.open_references.Nodup) :
    s.EvictSingleReference =
      { open_references := s.open_references.dropLast,
        closed_references := e :: s.closed_references,
        num_open_files := sizeDec s.num_open_files,
        file := Function.update s.file e none } := by
  have hne : s.open_references ≠ [] := by
    intro h; rw [h] at hlast; simp at hlast
  unfold EvictSingleReference
  rw [if_neg]
  · rw [hlast]
    simp only [RemoveReferenceFromList, hfile, if_true, closeFile, InsertReferenceIntoList,
      Function.update_same, Option.isSome_none, Bool.false_eq_true, if_false]
    rw [erase_getLast_eq_dropLast hn hlast]
  · intro h
    rcases h with h | h
    · omega
    · exact hne (by simpa using h)

/-- Refreshing a reference that owns a handle only moves it to the front of
the open list. -/
theorem RefreshReference_of_open (FileOpen : HostOpen) (s : RealVfsFilesystem)
    (path : String) (perms : Mode) (r : RefId) (hfile : (s.file r).isSome) :
    s.RefreshReference FileOpen path perms r =
      { s with open_references := r :: s.open_references.erase r } := by
  simp [RefreshReference, RemoveReferenceFromList, InsertReferenceIntoList, hfile]

/-- Refreshing a handle-less reference, seen as eviction followed by the native
open. -/
theorem RefreshReference_of_closed (FileOpen : HostOpen) (s : RealVfsFilesystem)
    (path : String) (perms : Mode) (r : RefId) (hfile : s.file r = none) :
    s.RefreshReference FileOpen path perms r =
      match FileOpen path (ModeFlagsToFileAccessMode perms) FileType.BinaryFile with
      | some h =>
        let s3 := EvictSingleReference
          { s with closed_references := s.closed_references.erase r }
        { s3 with open_references := r :: s3.open_references,
                  num_open_files := sizeInc s3.num_open_files,
                  file := Function.update s3.file r (some h) }
      | none =>
        let s3 := EvictSingleReference
          { s with closed_references := s.closed_references.erase r }
        { s3 with closed_references := r :: s3.closed_references,
                  file := Function.update s3.file r none } := by
  cases hO : FileOpen path (ModeFlagsToFileAccessMode perms) FileType.BinaryFile <;>
    simp [RefreshReference, RemoveReferenceFromList, InsertReferenceIntoList, hfile, hO]

/-- Dropping a reference that owns a handle. -/
theorem DropReference_of_open (s : RealVfsFilesystem) (r : RefId)
    (hfile : (s.file r).isSome) :
    s.DropReference r =
      { s with open_references := s.open_references.erase r,
               num_open_files := sizeDec s.num_open_files,
               file := Function.update s.file r none } := by
  simp [DropReference, RemoveReferenceFromList, closeFile, hfile]

/-- Dropping a handle-less reference. -/
theorem DropReference_of_closed (s : RealVfsFilesystem) (r : RefId)
    (hfile : s.file r = none) :
    s.DropReference r = { s with closed_references := s.closed_references.erase r } := by
  simp [DropReference, RemoveReferenceFromList, closeFile, hfile]

/-! ## Well-formed caches -/

theorem WF_empty : WF empty := by
  constructor <;> simp [empty]

theorem WF.open_ne_nil_of_full {s : RealVfsFilesystem} (hw : WF s)
    (hfull : MaxOpenFiles ≤ s.num_open_files) : s.open_references ≠ [] := by
  intro h
  have := hw.counter
  rw [h] at this
  simp at this
  unfold MaxOpenFiles at hfull
  omega

theorem WF.exists_last_of_full {s : RealVfsFilesystem} (hw : WF s)
    (hfull : MaxOpenFiles ≤ s.num_open_files) :
    ∃ e, s.open_references.getLast? = some e := by
  cases h : s.open_references.getLast? with
  | none => exact absurd (List.getLast?_eq_none_iff.mp h) (hw.open_ne_nil_of_full hfull)
  | some e => exact ⟨e, rfl⟩

/-- Refreshing a closed reference below the cap: no eviction. -/
theorem RefreshReference_closed_below (FileOpen : HostOpen) (s : RealVfsFilesystem)
    (path : String) (perms : Mode) (r : RefId) (hfile : s.file r = none)
    (hlt : s.num_open_files < MaxOpenFiles) :
    s.RefreshReference FileOpen path perms r =
      match FileOpen path (ModeFlagsToFileAccessMode perms) FileType.BinaryFile with
      | some h =>
        { open_references := r :: s.open_references,
          closed_references := s.closed_references.erase r,
          num_open_files := sizeInc s.num_open_files,
          file := Function.update s.file r (some h) }
      | none => { s with closed_references := r :: s.closed_references.erase r } := by
  rw [RefreshReference_of_closed FileOpen s path perms r hfile]
  rw [EvictSingleReference_noop
    { s with closed_references := s.closed_references.erase r } (Or.inl hlt)]
  cases FileOpen path (ModeFlagsToFileAccessMode perms) FileType.BinaryFile with
  | some h => rfl
  | none =>
    simp only
    congr
    exact Function.update_eq_self_iff.mpr hfile.symm

/-- Refreshing a closed reference at the cap: the back of the open list is
evicted first. -/
theorem RefreshReference_closed_full (FileOpen : HostOpen) (s : RealVfsFilesystem)
    (path : String) (perms : Mode) (r e : RefId) (hn : s.open_references.Nodup)
    (hfile : s.file r = none) (hfull : MaxOpenFiles ≤ s.num_open_files)
    (hlast : s.open_references.getLast? = some e) (hefile : (s.file e).isSome = true) :
    s.RefreshReference FileOpen path perms r =
      match FileOpen path (ModeFlagsToFileAccessMode perms) FileType.BinaryFile with
      | some h =>
        { open_references := r :: s.open_references.dropLast,
          closed_references := e :: s.closed_references.erase r,
          num_open_files := sizeInc (sizeDec s.num_open_files),
          file := Function.update (Function.update s.file e none) r (some h) }
      | none =>
        { open_references := s.open_references.dropLast,
          closed_references := r :: e :: s.closed_references.erase r,
          num_open_files := sizeDec s.num_open_files,
          file := Function.update s.file e none } := by
  have hne : r ≠ e := by
    intro h; rw [h] at hfile; rw [hfile] at hefile; simp at hefile
  rw [RefreshReference_of_closed FileOpen s path perms r hfile]
  rw [EvictSingleReference_evict
    { s with closed_references := s.closed_references.erase r } e hfull hlast hefile hn]
  cases FileOpen path (ModeFlagsToFileAccessMode perms) FileType.BinaryFile with
  | some h => rfl
  | none =>
    simp only
    congr
    apply Function.update_eq_self_iff.mpr
    rw [Function.update_noteq hne, hfile]

theorem WF.not_mem_open {s : RealVfsFilesystem} (hw : WF s) {r : RefId}
    (hfile : s.file r = none) : r ∉ s.open_references := by
  intro h
  have := (hw.open_iff r).mp h
  rw [hfile] at this
  simp at this

theorem WF.not_mem_closed {s : RealVfsFilesystem} (hw : WF s) {r : RefId}
    (hfile : (s.file r).isSome = true) : r ∉ s.closed_references := by
  intro h
  rw [hw.closed_file r h] at hfile
  simp at hfile

theorem WF.refresh_open {s : RealVfsFilesystem} (hw : WF s) (r : RefId)
    (hfile : (s.file r).isSome = true) :
    WF { s with open_references := r :: s.open_references.erase r } := by
  have hmem : r ∈ s.open_references := (hw.open_iff r).mpr hfile
  refine ⟨?_, hw.nodup_closed, ?_, hw.closed_file, ?_, hw.cap⟩
  · exact List.nodup_cons.mpr ⟨hw.nodup_open.not_mem_erase, hw.nodup_open.erase r⟩
  · intro x
    simp only [List.mem_cons, hw.nodup_open.mem_erase_iff, ← hw.open_iff]
    constructor
    · rintro (h | h)
      · rw [h]; exact hmem
      · exact h.2
    · intro h
      by_cases hx : x = r
      · exact Or.inl hx
      · exact Or.inr ⟨hx, h⟩
  · have hpos : 0 < s.open_references.length := List.length_pos_of_mem hmem
    simp only [List.length_cons, List.length_erase_of_mem hmem]
    rw [hw.counter]
    omega

theorem WF.detach_closed {s : RealVfsFilesystem} (hw : WF s) (r : RefId) :
    WF { s with closed_references := s.closed_references.erase r } :=
  ⟨hw.nodup_open, hw.nodup_closed.erase r, hw.open_iff,
    fun x hx => hw.closed_file x (List.mem_of_mem_erase hx), hw.counter, hw.cap⟩

theorem WF.attach_closed {s : RealVfsFilesystem} (hw : WF s) (r : RefId)
    (hfile : s.file r = none) (hnot : r ∉ s.closed_references) :
    WF { s with closed_references := r :: s.closed_references } := by
  refine ⟨hw.nodup_open, List.nodup_cons.mpr ⟨hnot, hw.nodup_closed⟩, hw.open_iff, ?_,
    hw.counter, hw.cap⟩
  intro x hx
  rcases List.mem_cons.mp hx with h | h
  · rw [h]; exact hfile
  · exact hw.closed_file x h

theorem WF.attach_open {s : RealVfsFilesystem} (hw : WF s) (r : RefId)
    (h : IOFile) (hfile : s.file r = none) (hnot : r ∉ s.closed_references)
    (hlt : s.num_open_files < MaxOpenFiles) :
    WF { s with open_references := r :: s.open_references,
                num_open_files := sizeInc s.num_open_files,
                file := Function.update s.file r (some h) } := by
  refine ⟨?_, hw.nodup_closed, ?_, ?_, ?_, ?_⟩
  · exact List.nodup_cons.mpr ⟨hw.not_mem_open hfile, hw.nodup_open⟩
  · intro x
    by_cases hx : x = r
    · subst hx; simp
    · simp [hx, Function.update_noteq hx, hw.open_iff]
  · intro x hx
    have hxr : x ≠ r := by
      intro hh; rw [hh] at hx; exact hnot hx
    simp only [Function.update_noteq hxr]
    exact hw.closed_file x hx
  · simp only [List.length_cons]
    rw [sizeInc_eq _ (Nat.le_of_lt hlt), hw.counter]
  · simp only
    rw [sizeInc_eq _ (Nat.le_of_lt hlt)]
    omega

/-- Closing the back of a full open list keeps the cache well formed. -/
theorem WF.evicted {s : RealVfsFilesystem} (hw : WF s) (e : RefId)
    (hfull : MaxOpenFiles ≤ s.num_open_files)
    (hlast : s.open_references.getLast? = some e) :
    WF { open_references := s.open_references.dropLast,
         closed_references := e :: s.closed_references,
         num_open_files := sizeDec s.num_open_files,
         file := Function.update s.file e none } := by
  have hmem : e ∈ s.open_references := mem_of_getLast_eq hlast
  have hefile : (s.file e).isSome = true := (hw.open_iff e).mp hmem
  have hdl : s.open_references.dropLast = s.open_references.erase e :=
    (erase_getLast_eq_dropLast hw.nodup_open hlast).symm
  have hpos : 0 < s.num_open_files := by unfold MaxOpenFiles at hfull; omega
  refine ⟨?_, ?_, ?_, ?_, ?_, ?_⟩
  · simp only [hdl]; exact hw.nodup_open.erase e
  · exact List.nodup_cons.mpr ⟨hw.not_mem_closed hefile, hw.nodup_closed⟩
  · intro x
    simp only [hdl, hw.nodup_open.mem_erase_iff]
    by_cases hx : x = e
    · subst hx; simp
    · simp [hx, Function.update_noteq hx, hw.open_iff]
  · intro x hx
    by_cases hxe : x = e
    · subst hxe; simp
    · simp only [Function.update_noteq hxe]
      rcases List.mem_cons.mp hx with h | h
      · exact absurd h hxe
      · exact hw.closed_file x h
  · simp only [hdl, List.length_erase_of_mem hmem]
    rw [sizeDec_eq _ hpos hw.cap, hw.counter]
  · simp only
    rw [sizeDec_eq _ hpos hw.cap]
    have := hw.cap
    omega

/-- What eviction guarantees on a well-formed cache: the cache stays well
formed, there is room for one more handle, and nothing but the open list's
former back changes. -/
theorem WF.evict {s : RealVfsFilesystem} (hw : WF s) :
    WF s.EvictSingleReference ∧
    s.EvictSingleReference.num_open_files < MaxOpenFiles ∧
    (∀ x, s.file x = none → s.EvictSingleReference.file x = none) ∧
    (∀ x, x ∈ s.EvictSingleReference.closed_references →
      x ∈ s.closed_references ∨ (s.file x).isSome = true) := by
  by_cases hlt : s.num_open_files < MaxOpenFiles
  · rw [EvictSingleReference_noop s (Or.inl hlt)]
    exact ⟨hw, hlt, fun _ h => h, fun _ h => Or.inl h⟩
  · have hfull : MaxOpenFiles ≤ s.num_open_files := Nat.le_of_not_lt hlt
    obtain ⟨e, hlast⟩ := hw.exists_last_of_full hfull
    have hmem : e ∈ s.open_references := mem_of_getLast_eq hlast
    have hefile : (s.file e).isSome = true := (hw.open_iff e).mp hmem
    have hpos : 0 < s.num_open_files := by unfold MaxOpenFiles at hfull; omega
    rw [EvictSingleReference_evict s e hfull hlast hefile hw.nodup_open]
    refine ⟨hw.evicted e hfull hlast, ?_, ?_, ?_⟩
    · simp only
      rw [sizeDec_eq _ hpos hw.cap]
      have := hw.cap
      omega
    · intro x hx
      by_cases hxe : x = e
      · subst hxe; simp
      · simp only [Function.update_noteq hxe]; exact hx
    · intro x hx
      rcases List.mem_cons.mp hx with h | h
      · right; rw [h]; exact hefile
      · left; exact h

/-- `RefreshReference` keeps the cache well formed, for every reference and
every answer of the host. -/
theorem WF.refresh {s : RealVfsFilesystem} (hw : WF s) (FileOpen : HostOpen)
    (path : String) (perms : Mode) (r : RefId) :
    WF (s.RefreshReference FileOpen path perms r) := by
  cases hfile : s.file r with
  | some h0 =>
    have hs : (s.file r).isSome = true := by rw [hfile]; rfl
    rw [RefreshReference_of_open FileOpen s path perms r hs]
    exact hw.refresh_open r hs
  | none =>
    rw [RefreshReference_of_closed FileOpen s path perms r hfile]
    have hw1 := hw.detach_closed r
    obtain ⟨hw3, hlt3, hfile3, hclosed3⟩ := hw1.evict
    have hr3 : r ∉ (EvictSingleReference
        { s with closed_references := s.closed_references.erase r }).closed_references := by
      intro hmem
      rcases hclosed3 r hmem with h | h
      · exact hw.nodup_closed.not_mem_erase h
      · simp [hfile] at h
    have hf3 := hfile3 r hfile
    cases FileOpen path (ModeFlagsToFileAccessMode perms) FileType.BinaryFile with
    | some h => exact hw3.attach_open r h hf3 hr3 hlt3
    | none =>
      simp only
      rw [update_none_self _ r hf3]
      exact hw3.attach_closed r hf3 hr3

/-- `DropReference` keeps the cache well formed. -/
theorem WF.drop {s : RealVfsFilesystem} (hw : WF s) (r : RefId) :
    WF (s.DropReference r) := by
  cases hfile : s.file r with
  | some h0 =>
    have hs : (s.file r).isSome = true := by rw [hfile]; rfl
    have hmem : r ∈ s.open_references := (hw.open_iff r).mpr hs
    have hpos : 0 < s.num_open_files := by
      rw [hw.counter]; exact List.length_pos_of_mem hmem
    rw [DropReference_of_open s r hs]
    refine ⟨hw.nodup_open.erase r, hw.nodup_closed, ?_, ?_, ?_, ?_⟩
    · intro x
      simp only [hw.nodup_open.mem_erase_iff]
      by_cases hx : x = r
      · subst hx; simp
      · simp [hx, Function.update_noteq hx, hw.open_iff]
    · intro x hx
      by_cases hxr : x = r
      · subst hxr; simp
      · simp only [Function.update_noteq hxr]; exact hw.closed_file x hx
    · simp only [List.length_erase_of_mem hmem]
      rw [sizeDec_eq _ hpos hw.cap, hw.counter]
    · simp only
      rw [sizeDec_eq _ hpos hw.cap]
      have := hw.cap
      omega
  | none =>
    rw [DropReference_of_closed s r hfile]
    exact hw.detach_closed r

/-- `OpenFile` with the identity of a reference that is linked nowhere keeps the
cache well formed. -/
theorem WF.after_open {s : RealVfsFilesystem} (hw : WF s) (P : HostPaths) (r : RefId)
    (path_ : String) (perms : Mode) (hfile : s.file r = none)
    (hnot : r ∉ s.closed_references) :
    WF (RealVfsFilesystem.OpenFile P s r path_ perms).1 := by
  have hu : Function.update s.file r none = s.file :=
    Function.update_eq_self_iff.mpr hfile.symm
  simp only [RealVfsFilesystem.OpenFile, InsertReferenceIntoList, hu, hfile]
  exact hw.attach_closed r hfile hnot

/-- Eviction links and unlinks nobody. -/
theorem WF.evict_listed {s : RealVfsFilesystem} (hw : WF s) (x : RefId) :
    s.EvictSingleReference.listed x ↔ s.listed x := by
  by_cases hlt : s.num_open_files < MaxOpenFiles
  · rw [EvictSingleReference_noop s (Or.inl hlt)]
  · have hfull : MaxOpenFiles ≤ s.num_open_files := Nat.le_of_not_lt hlt
    obtain ⟨e, hlast⟩ := hw.exists_last_of_full hfull
    have hmem : e ∈ s.open_references := mem_of_getLast_eq hlast
    have hefile : (s.file e).isSome = true := (hw.open_iff e).mp hmem
    have hdl : s.open_references.dropLast = s.open_references.erase e :=
      (erase_getLast_eq_dropLast hw.nodup_open hlast).symm
    rw [EvictSingleReference_evict s e hfull hlast hefile hw.nodup_open]
    simp only [listed, hdl, hw.nodup_open.mem_erase_iff, List.mem_cons]
    by_cases hx : x = e
    · subst hx; simp [hmem]
    · simp [hx]

/-- After a refresh the linked references are the former ones and the refreshed
one. -/
theorem WF.refresh_listed {s : RealVfsFilesystem} (hw : WF s) (FileOpen : HostOpen)
    (path : String) (perms : Mode) (r x : RefId) :
    (s.RefreshReference FileOpen path perms r).listed x ↔ (s.listed x ∨ x = r) := by
  cases hfile : s.file r with
  | some h0 =>
    have hs : (s.file r).isSome = true := by rw [hfile]; rfl
    have hmem : r ∈ s.open_references := (hw.open_iff r).mpr hs
    rw [RefreshReference_of_open FileOpen s path perms r hs]
    simp only [listed, List.mem_cons, hw.nodup_open.mem_erase_iff]
    by_cases hx : x = r
    · subst hx; simp
    · simp [hx]
  | none =>
    rw [RefreshReference_of_closed FileOpen s path perms r hfile]
    have hw1 := hw.detach_closed r
    have hl := hw1.evict_listed x
    simp only [listed] at hl
    cases FileOpen path (ModeFlagsToFileAccessMode perms) FileType.BinaryFile with
    | some h =>
      simp only [listed, List.mem_cons]
      rw [or_assoc, hl]
      simp only [hw.nodup_closed.mem_erase_iff]
      by_cases hx : x = r
      · subst hx; simp
      · simp [hx]
    | none =>
      simp only [listed, List.mem_cons]
      rw [← or_assoc, or_comm (a := x ∈ _) (b := x = r), or_assoc, hl]
      simp only [hw.nodup_closed.mem_erase_iff]
      by_cases hx : x = r
      · subst hx; simp
      · simp [hx]

/-- After a drop the dropped reference is linked nowhere; the others are linked
as before. -/
theorem WF.drop_listed {s : RealVfsFilesystem} (hw : WF s) (r x : RefId) :
    (s.DropReference r).listed x ↔ (s.listed x ∧ x ≠ r) := by
  cases hfile : s.file r with
  | some h0 =>
    have hs : (s.file r).isSome = true := by rw [hfile]; rfl
    rw [DropReference_of_open s r hs]
    simp only [listed, hw.nodup_open.mem_erase_iff]
    have := hw.not_mem_closed hs
    by_cases hx : x = r
    · subst hx; simp [this]
    · simp [hx]
  | none =>
    rw [DropReference_of_closed s r hfile]
    simp only [listed, hw.nodup_closed.mem_erase_iff]
    have := hw.not_mem_open hfile
    by_cases hx : x = r
    · subst hx; simp [this]
    · simp [hx]

end RealVfsFilesystem

/-! ## The invariant of the reachable states -/

theorem map_reference_erase (l : List RealVfsFile) (f : RealVfsFile)
    (hn : (l.map RealVfsFile.reference).Nodup) (hf : f ∈ l) :
    (l.erase f).map RealVfsFile.reference =
      (l.map RealVfsFile.reference).erase f.reference := by
  induction l with
  | nil => simp at hf
  | cons a t ih =>
    simp only [List.map_cons, List.nodup_cons] at hn
    by_cases ha : a = f
    · subst ha; simp
    · have hft : f ∈ t := by
        rcases List.mem_cons.mp hf with h | h
        · exact absurd h.symm ha
        · exact h
      have hne : a.reference ≠ f.reference := by
        intro h
        exact hn.1 (h ▸ List.mem_map_of_mem RealVfsFile.reference hft)
      rw [List.erase_cons_tail (by simpa using ha), List.map_cons, List.map_cons,
        List.erase_cons_tail (by simpa using hne), ih hn.2 hft]

theorem Inv.file_of_dead {w : System} (hi : Inv w) {r : RefId} (hr : r ∉ w.live) :
    w.base.file r = none := by
  cases h : w.base.file r with
  | none => rfl
  | some h0 =>
    have hs : (w.base.file r).isSome = true := by rw [h]; rfl
    exact absurd ((hi.listed_iff r).mp (Or.inl ((hi.wf.open_iff r).mpr hs))) hr

theorem Inv.at_init : Inv System.init := by
  refine ⟨RealVfsFilesystem.WF_empty, ?_, ?_, ?_⟩
  · simp [System.live, System.init]
  · simp [System.live, System.init]
  · intro r
    simp [System.live, System.init, RealVfsFilesystem.listed, RealVfsFilesystem.empty]

theorem System.openFile_eq (P : HostPaths) (w : System) (path_ : String) (perms : Mode) :
    w.openFile P path_ perms =
      { base := (RealVfsFilesystem.OpenFile P w.base w.allocated path_ perms).1,
        files := RealVfsFile.construct P w.allocated (P.SanitizePath path_) perms :: w.files,
        allocated := w.allocated + 1 } := rfl

theorem Inv.step_open {w : System} (hi : Inv w) (P : HostPaths) (path_ : String)
    (perms : Mode) : Inv (w.openFile P path_ perms) := by
  have hdead : w.allocated ∉ w.live := fun h => Nat.lt_irrefl _ (hi.live_lt _ h)
  have hfile := hi.file_of_dead hdead
  have hnl : ¬ w.base.listed w.allocated := fun h => hdead ((hi.listed_iff _).mp h)
  have hnc : w.allocated ∉ w.base.closed_references := fun h => hnl (Or.inr h)
  rw [System.openFile_eq]
  refine ⟨hi.wf.after_open P _ path_ perms hfile hnc, ?_, ?_, ?_⟩
  · simp only [System.live, List.map_cons, RealVfsFile.construct]
    exact List.nodup_cons.mpr ⟨hdead, hi.live_nodup⟩
  · intro r hr
    simp only [System.live, List.map_cons, RealVfsFile.construct, List.mem_cons] at hr
    rcases hr with h | h
    · rw [h]; exact Nat.lt_succ_self _
    · exact Nat.lt_succ_of_lt (hi.live_lt r h)
  · intro r
    have hl := hi.listed_iff r
    simp only [RealVfsFilesystem.listed] at hl
    simp only [RealVfsFilesystem.OpenFile, RealVfsFilesystem.InsertReferenceIntoList,
      Function.update_same, Option.isSome_none, Bool.false_eq_true, if_false,
      RealVfsFilesystem.listed, System.live, List.map_cons, RealVfsFile.construct,
      List.mem_cons]
    rw [← or_assoc, or_comm (a := r ∈ _) (b := r = _), or_assoc, hl]
    rfl

theorem Inv.step_access {w : System} (hi : Inv w) (FileOpen : HostOpen) (f : RealVfsFile)
    (hf : f ∈ w.files) : Inv (w.access FileOpen f) := by
  have hlive : f.reference ∈ w.live := List.mem_map_of_mem RealVfsFile.reference hf
  refine ⟨hi.wf.refresh FileOpen f.path f.perms f.reference, hi.live_nodup, hi.live_lt, ?_⟩
  intro r
  simp only [System.access]
  rw [hi.wf.refresh_listed, hi.listed_iff]
  constructor
  · rintro (h | h)
    · exact h
    · rw [h]; exact hlive
  · exact Or.inl

theorem Inv.step_destroy {w : System} (hi : Inv w) (f : RealVfsFile) (hf : f ∈ w.files) :
    Inv (w.destroy f) := by
  have hmap : (w.destroy f).live = w.live.erase f.reference :=
    map_reference_erase w.files f hi.live_nodup hf
  refine ⟨hi.wf.drop f.reference, ?_, ?_, ?_⟩
  · rw [hmap]; exact hi.live_nodup.erase _
  · intro r hr
    rw [hmap] at hr
    exact hi.live_lt r (List.mem_of_mem_erase hr)
  · intro r
    rw [hmap, hi.live_nodup.mem_erase_iff]
    simp only [System.destroy]
    rw [hi.wf.drop_listed, hi.listed_iff]
    exact And.comm

/-- Every reachable state satisfies the invariant. -/
theorem Reachable.inv {P : HostPaths} {w : System} (h : Reachable P w) : Inv w := by
  induction h with
  | init => exact Inv.at_init
  | openFile w path_ perms _ ih => exact ih.step_open P path_ perms
  | access w FileOpen f _ hf ih => exact ih.step_access FileOpen f hf
  | destroy w f _ hf ih => exact ih.step_destroy f hf

/-! ## Sample hosts and states -/

theorem sampleTwo_reachable : Reachable samplePaths sampleTwo :=
  Reachable.access _ _ _
    (Reachable.openFile _ _ _ (Reachable.openFile _ _ _ Reachable.init)) (by decide)

/-- The four data accessors leave the cache in the state `RefreshReference`
produces, which is the step `System.access` of the reachable states. -/
theorem accessors_refresh (FileOpen : HostOpen) (io : HostIO) (w : System) (f : RealVfsFile)
    (new_size length offset : Nat) :
    (f.GetSize FileOpen io w.base).1 = (w.access FileOpen f).base ∧
    (f.Resize FileOpen io w.base new_size).1 = (w.access FileOpen f).base ∧
    (f.Read FileOpen io w.base length offset).1 = (w.access FileOpen f).base ∧
    (f.Write FileOpen io w.base length offset).1 = (w.access FileOpen f).base := by
  refine ⟨?_, ?_, ?_, ?_⟩
  · simp only [RealVfsFile.GetSize, System.access]; split <;> rfl
  · simp only [RealVfsFile.Resize, System.access]; split <;> rfl
  · simp only [RealVfsFile.Read, System.access]
    split
    · rfl
    · split <;> rfl
  · simp only [RealVfsFile.Write, System.access]
    split
    · rfl
    · split <;> rfl

/-! ## The invariants of the handle cache -/

/-- C1, cap invariant: in every state reached from the empty cache by `OpenFile`,
data accesses (`RefreshReference`) and destructions (`DropReference`), whatever
the host answers to the native opens, `num_open_files` is at most
`MaxOpenFiles` (512). -/
theorem cap_invariant (P : HostPaths) (w : System) (h : Reachable P w) :
    w.base.num_open_files ≤ MaxOpenFiles ∧ MaxOpenFiles = 512 :=
  ⟨h.inv.wf.cap, rfl⟩

theorem cap_invariant_witness :
    Reachable samplePaths sampleTwo ∧
      (sampleTwo.base.num_open_files ≤ MaxOpenFiles ∧ MaxOpenFiles = 512) :=
  ⟨sampleTwo_reachable, cap_invariant samplePaths sampleTwo sampleTwo_reachable⟩

/-- C2, counter invariant: in every reachable state `num_open_files` is the
number of elements of `open_references`. -/
theorem counter_invariant (P : HostPaths) (w : System) (h : Reachable P w) :
    w.base.num_open_files = w.base.open_references.length :=
  h.inv.wf.counter

theorem counter_invariant_witness :
    Reachable samplePaths sampleTwo ∧
      sampleTwo.base.num_open_files = sampleTwo.base.open_references.length :=
  ⟨sampleTwo_reachable, counter_invariant samplePaths sampleTwo sampleTwo_reachable⟩

/-- C3, membership invariant: in every reachable state each living file object's
reference occurs exactly once in the two lists taken together, in
`open_references` iff it owns a host handle and in `closed_references` iff it
owns none; a reference owned by no living file object (in particular one
that was dropped) occurs in neither list. -/
theorem membership_invariant (P : HostPaths) (w : System) (h : Reachable P w) :
    (∀ f, f ∈ w.files →
      w.base.open_references.count f.reference +
          w.base.closed_references.count f.reference = 1 ∧
      (f.reference ∈ w.base.open_references ↔ (w.base.file f.reference).isSome = true) ∧
      (f.reference ∈ w.base.closed_references ↔ w.base.file f.reference = none)) ∧
    (∀ r, r ∉ w.live → r ∉ w.base.open_references ∧ r ∉ w.base.closed_references) := by
  have hi := h.inv
  constructor
  · intro f hf
    have hlive : f.reference ∈ w.live := List.mem_map_of_mem RealVfsFile.reference hf
    have hl := (hi.listed_iff f.reference).mpr hlive
    have hoi := hi.wf.open_iff f.reference
    refine ⟨?_, hoi, ?_⟩
    · rcases hl with ho | hc
      · have hnc := hi.wf.not_mem_closed (hoi.mp ho)
        rw [List.count_eq_one_of_mem hi.wf.nodup_open ho, List.count_eq_zero_of_not_mem hnc]
      · have hno := hi.wf.not_mem_open (hi.wf.closed_file _ hc)
        rw [List.count_eq_one_of_mem hi.wf.nodup_closed hc, List.count_eq_zero_of_not_mem hno]
    · constructor
      · exact hi.wf.closed_file _
      · intro hnone
        rcases hl with ho | hc
        · exact absurd ho (hi.wf.not_mem_open hnone)
        · exact hc
  · intro r hr
    have hnl : ¬ w.base.listed r := fun hl => hr ((hi.listed_iff r).mp hl)
    exact ⟨fun ho => hnl (Or.inl ho), fun hc => hnl (Or.inr hc)⟩

theorem membership_invariant_witness :
    Reachable samplePaths sampleTwo ∧
      ((∀ f, f ∈ sampleTwo.files →
        sampleTwo.base.open_references.count f.reference +
            sampleTwo.base.closed_references.count f.reference = 1 ∧
        (f.reference ∈ sampleTwo.base.open_references ↔
          (sampleTwo.base.file f.reference).isSome = true) ∧
        (f.reference ∈ sampleTwo.base.closed_references ↔
          sampleTwo.base.file f.reference = none)) ∧
      (∀ r, r ∉ sampleTwo.live →
        r ∉ sampleTwo.base.open_references ∧ r ∉ sampleTwo.base.closed_references)) :=
  ⟨sampleTwo_reachable, membership_invariant samplePaths sampleTwo sampleTwo_reachable⟩

/-! ## Filling the cache: files opened first, then accessed in the order of creation -/

theorem openMany_state (P : HostPaths) (paths : Nat → String) (perms : Nat → Mode) (n : Nat) :
    openMany P paths perms System.init n =
      { base := { open_references := [], closed_references := (List.range' 0 n).reverse,
                  num_open_files := 0, file := fun _ => none },
        files := ((List.range' 0 n).map fun i =>
          RealVfsFile.construct P i (P.SanitizePath (paths i)) (perms i)).reverse,
        allocated := n } := by
  induction n with
  | zero => rfl
  | succ n ih =>
    simp only [openMany, ih, System.openFile_eq, RealVfsFilesystem.OpenFile,
      RealVfsFilesystem.InsertReferenceIntoList, Function.update_same, Option.isSome_none,
      Bool.false_eq_true, if_false]
    rw [update_none_self _ _ rfl, List.range'_concat]
    simp

theorem reverse_range_erase_head (k m : Nat) :
    (List.range' k (m + 1)).reverse.erase k = (List.range' (k + 1) m).reverse := by
  rw [List.range'_succ, List.reverse_cons, List.erase_append_right]
  · simp
  · simp [List.mem_range'_1]

theorem reverse_range_getLast (k m : Nat) :
    (List.range' k (m + 1)).reverse.getLast? = some k := by
  rw [List.getLast?_reverse, List.range'_succ]
  rfl

theorem reverse_range_dropLast (k m : Nat) :
    (List.range' k (m + 1)).reverse.dropLast = (List.range' (k + 1) m).reverse := by
  rw [List.range'_succ, List.reverse_cons, List.dropLast_concat]

theorem reverse_range_cons (k m : Nat) :
    (k + m) :: (List.range' k m).reverse = (List.range' k (m + 1)).reverse := by
  rw [List.range'_concat, List.reverse_append]
  simp

theorem accessMany_state (P : HostPaths) (paths : Nat → String) (perms : Nat → Mode)
    (FileOpen : Nat → HostOpen)
    (hok : ∀ k, (nativeOpen (FileOpen k) (handle P paths perms k)).isSome = true)
    (n k : Nat) (hk : k ≤ MaxOpenFiles) (hkn : k ≤ n) :
    (accessMany FileOpen (handle P paths perms)
        (openMany P paths perms System.init n) k).base =
      { open_references := (List.range' 0 k).reverse,
        closed_references := (List.range' k (n - k)).reverse,
        num_open_files := k,
        file := fun i =>
          if i < k then nativeOpen (FileOpen i) (handle P paths perms i) else none } := by
  induction k with
  | zero =>
    simp [accessMany, openMany_state]
  | succ k ih =>
    have hlt : k < MaxOpenFiles := hk
    have ih2 := ih (Nat.le_of_lt hlt) (Nat.le_of_succ_le hkn)
    obtain ⟨m, hm⟩ : ∃ m, n - k = m + 1 := ⟨n - k - 1, by omega⟩
    obtain ⟨h, hh⟩ := Option.isSome_iff_exists.mp (hok k)
    have hh2 : FileOpen k (handle P paths perms k).path
        (ModeFlagsToFileAccessMode (handle P paths perms k).perms) FileType.BinaryFile =
        some h := hh
    simp only [accessMany, System.access]
    rw [ih2, RealVfsFilesystem.RefreshReference_closed_below _ _ _ _ _
      (by simp [handle, RealVfsFile.construct]) hlt, hh2]
    simp only [handle, RealVfsFile.construct]
    congr 1
    · have := reverse_range_cons 0 k
      simpa using this
    · rw [hm, reverse_range_erase_head]
      congr 2
      omega
    · exact sizeInc_eq k (Nat.le_of_lt hlt)
    · funext i
      by_cases hik : i = k
      · subst hik
        simp [← hh, nativeOpen, handle, RealVfsFile.construct]
      · rw [Function.update_noteq hik]
        have hlt2 : ∀ a b : Nat, a ≠ b → ((a < b + 1) ↔ (a < b)) := by
          intro a b hab; omega
        simp only [hlt2 i k hik]

theorem handle_mem_openMany (P : HostPaths) (paths : Nat → String) (perms : Nat → Mode)
    (n i : Nat) (hi : i < n) :
    handle P paths perms i ∈ (openMany P paths perms System.init n).files := by
  rw [openMany_state]
  simp only [List.mem_reverse, List.mem_map, List.mem_range'_1]
  exact ⟨i, ⟨Nat.zero_le i, by omega⟩, rfl⟩

/-! ## Eviction -/

/-- C5, `EvictSingleReference`: if `num_open_files < 512` or the open list is
empty the cache is unchanged. Otherwise, when the open list has no repetition
and its references own handles (the membership invariant) and the counter is a
`size_t` value, the open list has a last element `e` and exactly `e` is
affected: it loses its handle, leaves the open list (the rest keeps its order)
and becomes the first element of the closed list (the rest follows in its
order), and `num_open_files` decreases by exactly one. -/
theorem evict_single_reference (s : RealVfsFilesystem) :
    MaxOpenFiles = 512 ∧
    ((s.num_open_files < MaxOpenFiles ∨ s.open_references = []) →
      s.EvictSingleReference = s) ∧
    (¬ (s.num_open_files < MaxOpenFiles ∨ s.open_references = []) →
      s.num_open_files < SizeMod →
      s.open_references.Nodup →
      (∀ r, r ∈ s.open_references → (s.file r).isSome = true) →
      ∃ e, s.open_references.getLast? = some e ∧
        s.open_references = s.EvictSingleReference.open_references ++ [e] ∧
        s.EvictSingleReference.closed_references = e :: s.closed_references ∧
        s.EvictSingleReference.num_open_files + 1 = s.num_open_files ∧
        s.EvictSingleReference.file e = none ∧
        (∀ x, x ≠ e → s.EvictSingleReference.file x = s.file x) ∧
        s.EvictSingleReference =
          { open_references := s.open_references.dropLast,
            closed_references := e :: s.closed_references,
            num_open_files := s.num_open_files - 1,
            file := Function.update s.file e none }) := by
  refine ⟨rfl, s.EvictSingleReference_noop, ?_⟩
  intro hnot hsz hn hfile
  have hfull : MaxOpenFiles ≤ s.num_open_files := by
    by_contra h
    exact hnot (Or.inl (Nat.lt_of_not_le h))
  have hne : s.open_references ≠ [] := fun h => hnot (Or.inr h)
  have hpos : 0 < s.num_open_files := by unfold MaxOpenFiles at hfull; omega
  cases hlast : s.open_references.getLast? with
  | none => exact absurd (List.getLast?_eq_none_iff.mp hlast) hne
  | some e =>
    have hefile := hfile e (mem_of_getLast_eq hlast)
    have heq := s.EvictSingleReference_evict e hfull hlast hefile hn
    rw [sizeDec_eq_of_lt _ hpos hsz] at heq
    refine ⟨e, rfl, ?_, ?_, ?_, ?_, ?_, heq⟩
    · rw [heq]; exact (List.dropLast_append_getLast? e hlast).symm
    · rw [heq]
    · rw [heq]; exact Nat.sub_add_cancel hpos
    · rw [heq]; exact Function.update_same _ _ _
    · intro x hx
      rw [heq]; exact Function.update_noteq hx _ _

theorem fullCache_open :
    fullCache.open_references = (List.range' 0 MaxOpenFiles).reverse := by
  rw [fullCache]

theorem fullCache_num : fullCache.num_open_files = MaxOpenFiles := by
  rw [fullCache]

theorem fullCache_file (i : RefId) (h : i < MaxOpenFiles) :
    (fullCache.file i).isSome = true := by
  rw [fullCache]
  simp only [h, if_true, Option.isSome_some]

theorem fullCache_not_below :
    ¬ (fullCache.num_open_files < MaxOpenFiles ∨ fullCache.open_references = []) := by
  rw [fullCache_open, fullCache_num]
  intro h
  rcases h with h | h
  · exact Nat.lt_irrefl _ h
  · have hl := congrArg List.length h
    rw [List.length_reverse, List.length_range'] at hl
    exact absurd hl (by decide)

theorem fullCache_lt : fullCache.num_open_files < SizeMod := by
  rw [fullCache_num]
  decide

theorem fullCache_nodup : fullCache.open_references.Nodup := by
  rw [fullCache_open]
  exact List.nodup_reverse.mpr (List.nodup_range' 0 MaxOpenFiles)

theorem fullCache_open_file (r : RefId) (hr : r ∈ fullCache.open_references) :
    (fullCache.file r).isSome = true := by
  rw [fullCache_open, List.mem_reverse, List.mem_range'_1, Nat.zero_add] at hr
  exact fullCache_file r hr.2

theorem evict_single_reference_witness :
    ¬ (fullCache.num_open_files < MaxOpenFiles ∨ fullCache.open_references = []) ∧
    fullCache.num_open_files < SizeMod ∧
    fullCache.open_references.Nodup ∧
    (∀ r, r ∈ fullCache.open_references → (fullCache.file r).isSome = true) ∧
    ∃ e, fullCache.open_references.getLast? = some e ∧
      fullCache.open_references = fullCache.EvictSingleReference.open_references ++ [e] ∧
      fullCache.EvictSingleReference.closed_references = e :: fullCache.closed_references ∧
      fullCache.EvictSingleReference.num_open_files + 1 = fullCache.num_open_files ∧
      fullCache.EvictSingleReference.file e = none ∧
      (∀ x, x ≠ e → fullCache.EvictSingleReference.file x = fullCache.file x) ∧
      fullCache.EvictSingleReference =
        { open_references := fullCache.open_references.dropLast,
          closed_references := e :: fullCache.closed_references,
          num_open_files := fullCache.num_open_files - 1,
          file := Function.update fullCache.file e none } :=
  ⟨fullCache_not_below, fullCache_lt, fullCache_nodup, fullCache_open_file,
    (evict_single_reference fullCache).2.2 fullCache_not_below fullCache_lt fullCache_nodup
      fullCache_open_file⟩

/-! ## Recency -/

theorem filter_cons_drop (p : RefId → Bool) (a : RefId) (l : List RefId) (h : p a = false) :
    (a :: l).filter p = l.filter p := by
  simp [List.filter_cons, h]

theorem filter_erase_drop (p : RefId → Bool) (a : RefId) (l : List RefId) (h : p a = false) :
    (l.erase a).filter p = l.filter p := by
  induction l with
  | nil => simp
  | cons b t ih =>
    by_cases hb : b = a
    · subst hb
      rw [List.erase_cons_head, filter_cons_drop p b t h]
    · rw [List.erase_cons_tail (by simpa using hb)]
      simp only [List.filter_cons, ih]

theorem keeps_self (r : RefId) (ev : Option RefId) : keeps r ev r = false := by
  simp [keeps]

theorem keeps_evicted (r e : RefId) : keeps r (some e) e = false := by
  simp [keeps]

theorem beforeOpen_eq (s : RealVfsFilesystem) (r : RefId) (hfile : s.file r = none) :
    beforeOpen s r =
      RealVfsFilesystem.EvictSingleReference
        { s with closed_references := s.closed_references.erase r } := by
  simp [beforeOpen, RealVfsFilesystem.RemoveReferenceFromList, hfile]

/-- C6, recency after a refresh: in a reachable state, after `RefreshReference`
on the reference `r` of a living file object, `r` is the first element of
the open list if it owns a handle and the first element of the closed list
otherwise. If `r` owned no handle and the native open succeeds, `r` owns the
new handle and `num_open_files` is one more than just before the open (one
more than before the call if the cache was below the cap, the same as before
the call if one reference was evicted). In each list the order of the
references other than `r` and at most one evicted reference, the former
back of the open list, is unchanged. -/
theorem recency_after_refresh (P : HostPaths) (w : System) (hw : Reachable P w)
    (f : RealVfsFile) (_hf : f ∈ w.files) (FileOpen : HostOpen) :
    let s := w.base
    let s2 := (w.access FileOpen f).base
    let r := f.reference
    ((s2.file r).isSome = true → s2.open_references.head? = some r) ∧
    (s2.file r = none → s2.closed_references.head? = some r) ∧
    (s.file r = none → ∀ h, nativeOpen FileOpen f = some h →
      s2.file r = some h ∧
      s2.num_open_files = (beforeOpen s r).num_open_files + 1 ∧
      (s.num_open_files < MaxOpenFiles → s2.num_open_files = s.num_open_files + 1) ∧
      (MaxOpenFiles ≤ s.num_open_files → s2.num_open_files = s.num_open_files)) ∧
    (∃ ev : Option RefId,
      (∀ e, ev = some e → s.open_references.getLast? = some e ∧ e ≠ r ∧ s2.file e = none) ∧
      s2.open_references.filter (keeps r ev) = s.open_references.filter (keeps r ev) ∧
      s2.closed_references.filter (keeps r ev) = s.closed_references.filter (keeps r ev)) := by
  intro s s2 r
  have hwf : s.WF := hw.inv.wf
  have hs2 : s2 = s.RefreshReference FileOpen f.path f.perms r := rfl
  cases hfile : s.file r with
  | some h0 =>
    have hsome : (s.file r).isSome = true := by rw [hfile]; rfl
    rw [RealVfsFilesystem.RefreshReference_of_open FileOpen s f.path f.perms r hsome] at hs2
    rw [hs2]
    refine ⟨fun _ => rfl, ?_, ?_, none, ?_, ?_, rfl⟩
    · intro h; simp only [hfile] at h; cases h
    · intro h; simp at h
    · intro e he; simp at he
    · simp only
      rw [filter_cons_drop _ _ _ (keeps_self r none), filter_erase_drop _ _ _ (keeps_self r none)]
  | none =>
    by_cases hlt : s.num_open_files < MaxOpenFiles
    · rw [RealVfsFilesystem.RefreshReference_closed_below FileOpen s f.path f.perms r hfile hlt]
        at hs2
      have hbo : (beforeOpen s r).num_open_files = s.num_open_files := by
        rw [beforeOpen_eq s r hfile, RealVfsFilesystem.EvictSingleReference_noop
          { s with closed_references := s.closed_references.erase r } (Or.inl hlt)]
      cases hO : FileOpen f.path (ModeFlagsToFileAccessMode f.perms) FileType.BinaryFile with
      | some h =>
        rw [hO] at hs2
        rw [hs2, hbo]
        have hinc := sizeInc_eq _ (Nat.le_of_lt hlt)
        refine ⟨fun _ => rfl, ?_, ?_, none, ?_, ?_, ?_⟩
        · intro hn; simp at hn
        · intro _ h1 hh1
          have : some h = some h1 := hO.symm.trans hh1
          refine ⟨?_, hinc, fun _ => hinc, fun hge => absurd hlt (Nat.not_lt.mpr hge)⟩
          simp [← this]
        · intro e he; simp at he
        · simp only
          rw [filter_cons_drop _ _ _ (keeps_self r none)]
        · simp only
          rw [filter_erase_drop _ _ _ (keeps_self r none)]
      | none =>
        rw [hO] at hs2
        rw [hs2]
        refine ⟨?_, fun _ => rfl, ?_, none, ?_, rfl, ?_⟩
        · intro hn; simp only [hfile] at hn; simp at hn
        · intro _ h1 hh1
          have : (none : Option IOFile) = some h1 := hO.symm.trans hh1
          simp at this
        · intro e he; simp at he
        · simp only
          rw [filter_cons_drop _ _ _ (keeps_self r none),
            filter_erase_drop _ _ _ (keeps_self r none)]
    · have hfull : MaxOpenFiles ≤ s.num_open_files := Nat.le_of_not_lt hlt
      obtain ⟨e, hlast⟩ := hwf.exists_last_of_full hfull
      have hmem : e ∈ s.open_references := mem_of_getLast_eq hlast
      have hefile : (s.file e).isSome = true := (hwf.open_iff e).mp hmem
      have hne : e ≠ r := by
        intro h; rw [h, hfile] at hefile; simp at hefile
      have hdl : s.open_references.dropLast = s.open_references.erase e :=
        (erase_getLast_eq_dropLast hwf.nodup_open hlast).symm
      have hpos : 0 < s.num_open_files := by unfold MaxOpenFiles at hfull; omega
      have hdec := sizeDec_eq _ hpos hwf.cap
      have hbo : (beforeOpen s r).num_open_files = s.num_open_files - 1 := by
        rw [beforeOpen_eq s r hfile, RealVfsFilesystem.EvictSingleReference_evict
          { s with closed_references := s.closed_references.erase r } e hfull hlast hefile
          hwf.nodup_open]
        exact hdec
      rw [RealVfsFilesystem.RefreshReference_closed_full FileOpen s f.path f.perms r e
        hwf.nodup_open hfile hfull hlast hefile] at hs2
      cases hO : FileOpen f.path (ModeFlagsToFileAccessMode f.perms) FileType.BinaryFile with
      | some h =>
        rw [hO] at hs2
        rw [hs2, hbo]
        have hinc : sizeInc (sizeDec s.num_open_files) = s.num_open_files - 1 + 1 := by
          rw [hdec]; exact sizeInc_eq _ (Nat.le_trans (Nat.sub_le _ _) hwf.cap)
        refine ⟨fun _ => rfl, ?_, ?_, some e, ?_, ?_, ?_⟩
        · intro hn; simp at hn
        · intro _ h1 hh1
          have : some h = some h1 := hO.symm.trans hh1
          refine ⟨?_, hinc, fun hl => absurd hl hlt, fun _ => ?_⟩
          · simp [← this]
          · simp only; rw [hinc]; exact Nat.sub_add_cancel hpos
        · intro e2 he2
          have : e = e2 := Option.some.inj he2
          subst this
          refine ⟨hlast, hne, ?_⟩
          simp only [Function.update_noteq hne, Function.update_same]
        · simp only
          rw [filter_cons_drop _ _ _ (keeps_self r (some e)), hdl,
            filter_erase_drop _ _ _ (keeps_evicted r e)]
        · simp only
          rw [filter_cons_drop _ _ _ (keeps_evicted r e),
            filter_erase_drop _ _ _ (keeps_self r (some e))]
      | none =>
        rw [hO] at hs2
        rw [hs2]
        refine ⟨?_, fun _ => rfl, ?_, some e, ?_, ?_, ?_⟩
        · intro hn
          simp only [Function.update_noteq hne.symm, hfile] at hn
          simp at hn
        · intro _ h1 hh1
          have : (none : Option IOFile) = some h1 := hO.symm.trans hh1
          simp at this
        · intro e2 he2
          have : e = e2 := Option.some.inj he2
          subst this
          refine ⟨hlast, hne, ?_⟩
          simp only [Function.update_same]
        · simp only
          rw [hdl, filter_erase_drop _ _ _ (keeps_evicted r e)]
        · simp only
          rw [filter_cons_drop _ _ _ (keeps_self r (some e)),
            filter_cons_drop _ _ _ (keeps_evicted r e),
            filter_erase_drop _ _ _ (keeps_self r (some e))]

theorem sampleTwo_mem : sampleFile 1 "b" Mode.Write ∈ sampleTwo.files := by decide

theorem recency_after_refresh_witness :
    Reachable samplePaths sampleTwo ∧ sampleFile 1 "b" Mode.Write ∈ sampleTwo.files ∧
    (let s := sampleTwo.base
     let s2 := (sampleTwo.access openAlways (sampleFile 1 "b" Mode.Write)).base
     let r := (sampleFile 1 "b" Mode.Write).reference
     ((s2.file r).isSome = true → s2.open_references.head? = some r) ∧
     (s2.file r = none → s2.closed_references.head? = some r) ∧
     (s.file r = none → ∀ h, nativeOpen openAlways (sampleFile 1 "b" Mode.Write) = some h →
       s2.file r = some h ∧
       s2.num_open_files = (beforeOpen s r).num_open_files + 1 ∧
       (s.num_open_files < MaxOpenFiles → s2.num_open_files = s.num_open_files + 1) ∧
       (MaxOpenFiles ≤ s.num_open_files → s2.num_open_files = s.num_open_files)) ∧
     (∃ ev : Option RefId,
       (∀ e, ev = some e → s.open_references.getLast? = some e ∧ e ≠ r ∧ s2.file e = none) ∧
       s2.open_references.filter (keeps r ev) = s.open_references.filter (keeps r ev) ∧
       s2.closed_references.filter (keeps r ev) = s.closed_references.filter (keeps r ev))) :=
  ⟨sampleTwo_reachable, sampleTwo_mem,
    recency_after_refresh samplePaths sampleTwo sampleTwo_reachable
      (sampleFile 1 "b" Mode.Write) sampleTwo_mem openAlways⟩

/-! ## Failing native opens -/

/-- A refresh of a handle-less reference whose native open fails. -/
theorem RealVfsFilesystem.refresh_failed (FileOpen : HostOpen) (s : RealVfsFilesystem)
    (path : String) (perms : Mode) (r : RefId) (hfile : s.file r = none)
    (hfail : FileOpen path (ModeFlagsToFileAccessMode perms) FileType.BinaryFile = none) :
    (s.RefreshReference FileOpen path perms r).file r = none ∧
    (s.RefreshReference FileOpen path perms r).closed_references =
      r :: (beforeOpen s r).closed_references ∧
    (s.RefreshReference FileOpen path perms r).open_references =
      (beforeOpen s r).open_references ∧
    (s.RefreshReference FileOpen path perms r).num_open_files =
      (beforeOpen s r).num_open_files := by
  rw [RealVfsFilesystem.RefreshReference_of_closed FileOpen s path perms r hfile, hfail,
    beforeOpen_eq s r hfile]
  exact ⟨Function.update_same _ _ _, rfl, rfl, rfl⟩

/-- Eviction never raises the counter of a well-formed cache. -/
theorem RealVfsFilesystem.WF.evict_num_le {s : RealVfsFilesystem} (hw : s.WF) :
    s.EvictSingleReference.num_open_files ≤ s.num_open_files := by
  by_cases hlt : s.num_open_files < MaxOpenFiles
  · rw [RealVfsFilesystem.EvictSingleReference_noop s (Or.inl hlt)]
  · have hfull : MaxOpenFiles ≤ s.num_open_files := Nat.le_of_not_lt hlt
    obtain ⟨e, hlast⟩ := hw.exists_last_of_full hfull
    have hefile : (s.file e).isSome = true := (hw.open_iff e).mp (mem_of_getLast_eq hlast)
    have hpos : 0 < s.num_open_files := by unfold MaxOpenFiles at hfull; omega
    rw [RealVfsFilesystem.EvictSingleReference_evict s e hfull hlast hefile hw.nodup_open]
    simp only
    rw [sizeDec_eq _ hpos hw.cap]
    exact Nat.sub_le _ _

/-- C7, graceful degradation: in a reachable state, for a living file object
whose reference owns no handle and whose native open fails during the
refresh, `GetSize`, `Read` and `Write` return 0 and `Resize` returns `false`
(each is a plain value, nothing is raised); afterwards the reference still
owns no handle, it is in the closed list (at its front), and `num_open_files`
is not larger than before. -/
theorem graceful_degradation (P : HostPaths) (w : System) (hw : Reachable P w)
    (f : RealVfsFile) (_hf : f ∈ w.files) (FileOpen : HostOpen) (io : HostIO)
    (hclosed : w.base.file f.reference = none) (hfail : nativeOpen FileOpen f = none)
    (new_size length offset : Nat) :
    let s2 := w.base.RefreshReference FileOpen f.path f.perms f.reference
    f.GetSize FileOpen io w.base = (s2, 0) ∧
    f.Read FileOpen io w.base length offset = (s2, 0) ∧
    f.Write FileOpen io w.base length offset = (s2, 0) ∧
    f.Resize FileOpen io w.base new_size = (s2, false) ∧
    s2.file f.reference = none ∧
    f.reference ∈ s2.closed_references ∧
    s2.closed_references.head? = some f.reference ∧
    s2.num_open_files ≤ w.base.num_open_files := by
  intro s2
  obtain ⟨h1, h2, -, h4⟩ :=
    RealVfsFilesystem.refresh_failed FileOpen w.base f.path f.perms f.reference hclosed hfail
  have hs2 : s2 = w.base.RefreshReference FileOpen f.path f.perms f.reference := rfl
  rw [← hs2] at h1 h2 h4
  refine ⟨?_, ?_, ?_, ?_, h1, ?_, ?_, ?_⟩
  · simp only [RealVfsFile.GetSize, ← hs2, h1]
  · simp only [RealVfsFile.Read, ← hs2, h1]
  · simp only [RealVfsFile.Write, ← hs2, h1]
  · simp only [RealVfsFile.Resize, ← hs2, h1]
  · rw [h2]; exact List.mem_cons_self _ _
  · rw [h2]; rfl
  · rw [h4, beforeOpen_eq _ _ hclosed]
    exact (hw.inv.wf.detach_closed f.reference).evict_num_le

theorem sampleTwo_closed : sampleTwo.base.file (sampleFile 1 "b" Mode.Write).reference = none :=
  rfl

theorem graceful_degradation_witness :
    Reachable samplePaths sampleTwo ∧ sampleFile 1 "b" Mode.Write ∈ sampleTwo.files ∧
    sampleTwo.base.file (sampleFile 1 "b" Mode.Write).reference = none ∧
    nativeOpen openNever (sampleFile 1 "b" Mode.Write) = none ∧
    (let s2 := sampleTwo.base.RefreshReference openNever (sampleFile 1 "b" Mode.Write).path
        (sampleFile 1 "b" Mode.Write).perms (sampleFile 1 "b" Mode.Write).reference
     (sampleFile 1 "b" Mode.Write).GetSize openNever sampleIO sampleTwo.base = (s2, 0) ∧
     (sampleFile 1 "b" Mode.Write).Read openNever sampleIO sampleTwo.base 4 0 = (s2, 0) ∧
     (sampleFile 1 "b" Mode.Write).Write openNever sampleIO sampleTwo.base 4 0 = (s2, 0) ∧
     (sampleFile 1 "b" Mode.Write).Resize openNever sampleIO sampleTwo.base 8 = (s2, false) ∧
     s2.file (sampleFile 1 "b" Mode.Write).reference = none ∧
     (sampleFile 1 "b" Mode.Write).reference ∈ s2.closed_references ∧
     s2.closed_references.head? = some (sampleFile 1 "b" Mode.Write).reference ∧
     s2.num_open_files ≤ sampleTwo.base.num_open_files) :=
  ⟨sampleTwo_reachable, sampleTwo_mem, sampleTwo_closed, rfl,
    graceful_degradation samplePaths sampleTwo sampleTwo_reachable
      (sampleFile 1 "b" Mode.Write) sampleTwo_mem openNever sampleIO sampleTwo_closed rfl 8 4 0⟩

/-! ## Registration -/

/-- C9, register on open: for every cache state, path and mode (and every
identity of the new reference), `OpenFile` returns a file object (never
null), gives no reference a handle (no native open), leaves
`num_open_files` and the open list unchanged, and makes the new handle-less
reference the first element of the closed list, the former closed list
following unchanged. -/
theorem open_file_registers (P : HostPaths) (s : RealVfsFilesystem) (reference : RefId)
    (path_ : String) (perms : Mode) :
    let res := RealVfsFilesystem.OpenFile P s reference path_ perms
    res.2 = some (RealVfsFile.construct P reference (P.SanitizePath path_) perms) ∧
    res.2.isSome = true ∧
    res.1.num_open_files = s.num_open_files ∧
    res.1.open_references = s.open_references ∧
    res.1.closed_references = reference :: s.closed_references ∧
    res.1.file reference = none ∧
    (∀ x, x ≠ reference → res.1.file x = s.file x) := by
  simp only [RealVfsFilesystem.OpenFile, RealVfsFilesystem.InsertReferenceIntoList,
    Function.update_same, Option.isSome_none, Bool.false_eq_true, if_false, Option.isSome_some,
    true_and]
  intro x hx
  exact Function.update_noteq hx _ _

theorem open_file_registers_sample :
    (RealVfsFilesystem.OpenFile samplePaths sampleTwo.base 2 "missing" Mode.Read).1.closed_references
      = [2, 1] := by
  decide

/-! ## Creating and releasing file objects -/

theorem Reachable.openMany {P : HostPaths} {w : System} (hw : Reachable P w)
    (paths : Nat → String) (perms : Nat → Mode) (n : Nat) :
    Reachable P (FileSys.openMany P paths perms w n) := by
  induction n with
  | zero => exact hw
  | succ n ih => exact Reachable.openFile _ _ _ ih

theorem Reachable.step {P : HostPaths} {w : System} (hw : Reachable P w) (c : Cmd)
    (hc : c.file ∈ w.files) : Reachable P (w.step c) := by
  cases c with
  | access f FileOpen => exact Reachable.access _ _ _ hw hc
  | destroy f => exact Reachable.destroy _ _ hw hc

theorem Reachable.run {P : HostPaths} {w : System} (hw : Reachable P w) (a0 : Nat)
    (cs : List Cmd) (hv : validFrom a0 w cs) : Reachable P (w.run cs) := by
  induction cs generalizing w with
  | nil => exact hw
  | cons c cs ih => exact ih (hw.step c hv.1.1) hv.2

namespace RealVfsFilesystem

/-- Eviction gives no reference a handle and changes no other field `file`
than by emptying it. -/
theorem EvictSingleReference_file (s : RealVfsFilesystem) (x : RefId) :
    s.EvictSingleReference.file x = s.file x ∨ s.EvictSingleReference.file x = none := by
  unfold EvictSingleReference
  split
  · exact Or.inl rfl
  · split
    · exact Or.inl rfl
    · rename_i e _
      by_cases hx : x = e
      · right
        subst hx
        cases hf : s.file x <;>
          simp [InsertReferenceIntoList, closeFile, RemoveReferenceFromList, hf]
      · left
        cases hf : s.file e <;>
          simp [InsertReferenceIntoList, closeFile, RemoveReferenceFromList, hf,
            Function.update_noteq hx]

/-- A refresh of `r` gives no other reference a handle. -/
theorem RefreshReference_file_mono (FileOpen : HostOpen) (s : RealVfsFilesystem)
    (path : String) (perms : Mode) (r x : RefId) (hx : x ≠ r)
    (h : ((s.RefreshReference FileOpen path perms r).file x).isSome = true) :
    (s.file x).isSome = true := by
  cases hfile : s.file r with
  | some h0 =>
    have hs : (s.file r).isSome = true := by rw [hfile]; rfl
    rw [RefreshReference_of_open FileOpen s path perms r hs] at h
    exact h
  | none =>
    rw [RefreshReference_of_closed FileOpen s path perms r hfile] at h
    have hev := EvictSingleReference_file
      { s with closed_references := s.closed_references.erase r } x
    cases hO : FileOpen path (ModeFlagsToFileAccessMode perms) FileType.BinaryFile with
    | some h1 =>
      rw [hO] at h
      simp only [Function.update_noteq hx] at h
      rcases hev with hev | hev
      · rw [hev] at h; exact h
      · rw [hev] at h; simp at h
    | none =>
      rw [hO] at h
      simp only [Function.update_noteq hx] at h
      rcases hev with hev | hev
      · rw [hev] at h; exact h
      · rw [hev] at h; simp at h

/-- Below the cap a refresh of `r` leaves the field `file` of every other
reference alone. -/
theorem RefreshReference_file_below (FileOpen : HostOpen) (s : RealVfsFilesystem)
    (path : String) (perms : Mode) (r x : RefId) (hx : x ≠ r)
    (hlt : s.num_open_files < MaxOpenFiles ∨ (s.file r).isSome = true) :
    (s.RefreshReference FileOpen path perms r).file x = s.file x := by
  cases hfile : s.file r with
  | some h0 =>
    have hs : (s.file r).isSome = true := by rw [hfile]; rfl
    rw [RefreshReference_of_open FileOpen s path perms r hs]
  | none =>
    have hlt2 : s.num_open_files < MaxOpenFiles := by
      rcases hlt with h | h
      · exact h
      · rw [hfile] at h; simp at h
    rw [RefreshReference_closed_below FileOpen s path perms r hfile hlt2]
    cases hO : FileOpen path (ModeFlagsToFileAccessMode perms) FileType.BinaryFile with
    | some h1 => exact Function.update_noteq hx _ _
    | none => rfl

/-- A drop of `r` leaves the field `file` of every other reference alone. -/
theorem DropReference_file (s : RealVfsFilesystem) (r x : RefId) (hx : x ≠ r) :
    (s.DropReference r).file x = s.file x := by
  cases hfile : s.file r with
  | some h0 =>
    have hs : (s.file r).isSome = true := by rw [hfile]; rfl
    rw [DropReference_of_open s r hs]
    exact Function.update_noteq hx _ _
  | none => rw [DropReference_of_closed s r hfile]

end RealVfsFilesystem

theorem System.openFile_base (P : HostPaths) (w : System) (path_ : String) (perms : Mode) :
    (w.openFile P path_ perms).base =
      { w.base with closed_references := w.allocated :: w.base.closed_references,
                    file := Function.update w.base.file w.allocated none } := by
  simp [System.openFile_eq, RealVfsFilesystem.OpenFile,
    RealVfsFilesystem.InsertReferenceIntoList]

/-- The cache and the clients after `K` further calls of `OpenFile`. -/
theorem openMany_spec (P : HostPaths) (paths : Nat → String) (perms : Nat → Mode)
    (w : System) (K : Nat) :
    (openMany P paths perms w K).allocated = w.allocated + K ∧
    (openMany P paths perms w K).base.open_references = w.base.open_references ∧
    (openMany P paths perms w K).base.num_open_files = w.base.num_open_files ∧
    (∀ x, x < w.allocated → (openMany P paths perms w K).base.file x = w.base.file x) ∧
    (∀ f, f ∈ (openMany P paths perms w K).files → f.reference < w.allocated →
      f ∈ w.files) ∧
    ((openMany P paths perms w K).base.closed_references.filter (isNew w.allocated)).length =
      (w.base.closed_references.filter (isNew w.allocated)).length + K := by
  induction K with
  | zero =>
    exact ⟨rfl, rfl, rfl, fun _ _ => rfl, fun _ h _ => h, rfl⟩
  | succ K ih =>
    obtain ⟨h1, h2, h3, h4, h5, h6⟩ := ih
    simp only [openMany]
    refine ⟨?_, ?_, ?_, ?_, ?_, ?_⟩
    · rw [System.openFile_eq]; simp only [h1]; omega
    · rw [System.openFile_base]; exact h2
    · rw [System.openFile_base]; exact h3
    · intro x hx
      rw [System.openFile_base]
      have hne : x ≠ (openMany P paths perms w K).allocated := by
        rw [h1]; exact Nat.ne_of_lt (Nat.lt_of_lt_of_le hx (Nat.le_add_right _ _))
      simp only [Function.update_noteq hne]
      exact h4 x hx
    · intro f hf hlt
      rw [System.openFile_eq] at hf
      rcases List.mem_cons.mp hf with h | h
      · exfalso
        rw [h] at hlt
        have hlt2 : (openMany P paths perms w K).allocated < w.allocated := hlt
        rw [h1] at hlt2
        exact Nat.lt_irrefl _ (Nat.lt_of_le_of_lt (Nat.le_add_right _ _) hlt2)
      · exact h5 f h hlt
    · rw [System.openFile_base]
      simp only
      have hnew : isNew w.allocated (openMany P paths perms w K).allocated = true := by
        simp [isNew, h1]
      rw [List.filter_cons_of_pos hnew, List.length_cons, h6, Nat.add_assoc]

/-- While only new file objects are used, no reference created before gets a
handle, and the older file objects are the ones that were there. -/
theorem run_old_mono (a0 : Nat) (w0 : System) (cs : List Cmd) (w : System)
    (hv : validFrom a0 w cs)
    (hfile : ∀ x, x < a0 → (w.base.file x).isSome = true → (w0.base.file x).isSome = true)
    (hfiles : ∀ f, f ∈ w.files → f.reference < a0 → f ∈ w0.files) :
    (∀ x, x < a0 → ((w.run cs).base.file x).isSome = true →
      (w0.base.file x).isSome = true) ∧
    (∀ f, f ∈ (w.run cs).files → f.reference < a0 → f ∈ w0.files) := by
  induction cs generalizing w with
  | nil => exact ⟨hfile, hfiles⟩
  | cons c cs ih =>
    obtain ⟨⟨_, hnew⟩, hv2⟩ := hv
    apply ih (w.step c) hv2
    · intro x hx hsome
      have hne : x ≠ c.file.reference := Nat.ne_of_lt (Nat.lt_of_lt_of_le hx hnew)
      cases c with
      | access f FileOpen =>
        exact hfile x hx
          (RealVfsFilesystem.RefreshReference_file_mono FileOpen w.base f.path f.perms
            f.reference x hne hsome)
      | destroy f =>
        have : (w.base.DropReference f.reference).file x = w.base.file x :=
          RealVfsFilesystem.DropReference_file w.base f.reference x hne
        exact hfile x hx (this ▸ hsome)
    · intro f hf hlt
      cases c with
      | access g FileOpen => exact hfiles f hf hlt
      | destroy g => exact hfiles f (List.mem_of_mem_erase hf) hlt

theorem filter_erase_length (p : RefId → Bool) (r : RefId) (l : List RefId) (hr : r ∈ l)
    (hp : p r = true) : ((l.erase r).filter p).length + 1 = (l.filter p).length := by
  induction l with
  | nil => simp at hr
  | cons b t ih =>
    by_cases hb : b = r
    · subst hb
      rw [List.erase_cons_head, List.filter_cons_of_pos hp, List.length_cons]
    · have hrt : r ∈ t := by
        rcases List.mem_cons.mp hr with h | h
        · exact absurd h.symm hb
        · exact h
      rw [List.erase_cons_tail (by simpa using hb)]
      cases hpb : p b
      · rw [List.filter_cons_of_neg (by simp [hpb]), List.filter_cons_of_neg (by simp [hpb])]
        exact ih hrt
      · rw [List.filter_cons_of_pos hpb, List.filter_cons_of_pos hpb, List.length_cons,
          List.length_cons, ih hrt]

theorem filter_erase_length_le (p : RefId → Bool) (r : RefId) (l : List RefId) :
    ((l.erase r).filter p).length ≤ (l.filter p).length :=
  ((List.erase_sublist r l).filter p).length_le

/-- One command on a new file object, when the handles of the old references
and the new file objects together fit under the cap: nothing is evicted. -/
theorem step_no_eviction {P : HostPaths} {w : System} (hw : Reachable P w) (a0 bound : Nat)
    (hcap : bound ≤ MaxOpenFiles) (c : Cmd) (hc : c.file ∈ w.files)
    (hnew : a0 ≤ c.file.reference) (hp : pressure a0 w.base ≤ bound) :
    pressure a0 (w.step c).base ≤ bound ∧
    ∀ x, x ≠ c.file.reference → (w.step c).base.file x = w.base.file x := by
  have hi := hw.inv
  have hwf := hi.wf
  have hisnew : isNew a0 c.file.reference = true := by simp [isNew, hnew]
  cases c with
  | access f FileOpen =>
    have hlive : f.reference ∈ w.live := List.mem_map_of_mem RealVfsFile.reference hc
    cases hfile : w.base.file f.reference with
    | some h0 =>
      have hs : (w.base.file f.reference).isSome = true := by rw [hfile]; rfl
      have hmem : f.reference ∈ w.base.open_references := (hwf.open_iff _).mpr hs
      constructor
      · simp only [System.step, System.access, pressure]
        rw [RealVfsFilesystem.RefreshReference_of_open FileOpen w.base f.path f.perms
          f.reference hs]
        simp only [List.length_cons, List.length_erase_of_mem hmem]
        have hpos : 0 < w.base.open_references.length := List.length_pos_of_mem hmem
        unfold pressure at hp
        omega
      · intro x hx
        exact RealVfsFilesystem.RefreshReference_file_below FileOpen w.base f.path f.perms
          f.reference x hx (Or.inr hs)
    | none =>
      have hclosed : f.reference ∈ w.base.closed_references := by
        rcases (hi.listed_iff _).mpr hlive with h | h
        · exact absurd h (hwf.not_mem_open hfile)
        · exact h
      have hcount := filter_erase_length (isNew a0) f.reference w.base.closed_references
        hclosed hisnew
      have hlt : w.base.num_open_files < MaxOpenFiles := by
        rw [hwf.counter]
        unfold pressure at hp
        omega
      constructor
      · simp only [System.step, System.access, pressure]
        rw [RealVfsFilesystem.RefreshReference_closed_below FileOpen w.base f.path f.perms
          f.reference hfile hlt]
        unfold pressure at hp
        cases hO : FileOpen f.path (ModeFlagsToFileAccessMode f.perms) FileType.BinaryFile with
        | some h1 =>
          simp only [List.length_cons]
          omega
        | none =>
          simp only
          have hisnew2 : isNew a0 f.reference = true := hisnew
          rw [List.filter_cons_of_pos hisnew2, List.length_cons]
          omega
      · intro x hx
        exact RealVfsFilesystem.RefreshReference_file_below FileOpen w.base f.path f.perms
          f.reference x hx (Or.inl hlt)
  | destroy f =>
    constructor
    · simp only [System.step, System.destroy, pressure]
      unfold pressure at hp
      cases hfile : w.base.file f.reference with
      | some h0 =>
        have hs : (w.base.file f.reference).isSome = true := by rw [hfile]; rfl
        rw [RealVfsFilesystem.DropReference_of_open w.base f.reference hs]
        have := (List.erase_sublist f.reference w.base.open_references).length_le
        simp only
        omega
      | none =>
        rw [RealVfsFilesystem.DropReference_of_closed w.base f.reference hfile]
        have := filter_erase_length_le (isNew a0) f.reference w.base.closed_references
        simp only
        omega
    · intro x hx
      exact RealVfsFilesystem.DropReference_file w.base f.reference x hx

/-- While only new file objects are used and everything fits under the cap, the
references created before keep their handles. -/
theorem run_old_same {P : HostPaths} (a0 bound : Nat) (hcap : bound ≤ MaxOpenFiles)
    (cs : List Cmd) (w : System) (hw : Reachable P w) (hv : validFrom a0 w cs)
    (hp : pressure a0 w.base ≤ bound) :
    ∀ x, x < a0 → (w.run cs).base.file x = w.base.file x := by
  induction cs generalizing w with
  | nil => exact fun _ _ => rfl
  | cons c cs ih =>
    obtain ⟨⟨hc, hnew⟩, hv2⟩ := hv
    obtain ⟨hp2, hsame⟩ := step_no_eviction hw a0 bound hcap c hc hnew hp
    intro x hx
    have hne : x ≠ c.file.reference := Nat.ne_of_lt (Nat.lt_of_lt_of_le hx hnew)
    have := ih (w.step c) (hw.step c hc) hv2 hp2 x hx
    rw [← hsame x hne]
    exact this

/-- C8 as amended, reference count accounting: from a reachable state, `K` file
objects are created, then the new file objects are accessed and destroyed in
any order (each command on a file object alive at that time) until none of
them is left. Then `num_open_files` is the number of references of the old
open list that still own a handle: it is at most its value before the `K`
file objects were created, and equal to it when that value plus `K` is at most
`MaxOpenFiles`. -/
theorem reference_count_accounting (P : HostPaths) (w : System) (hw : Reachable P w)
    (paths : Nat → String) (perms : Nat → Mode) (K : Nat) (cs : List Cmd)
    (hv : validFrom w.allocated (openMany P paths perms w K) cs)
    (hrel : ∀ f, f ∈ ((openMany P paths perms w K).run cs).files →
      f.reference < w.allocated) :
    let w3 := (openMany P paths perms w K).run cs
    w3.base.num_open_files =
      (w.base.open_references.filter fun r => (w3.base.file r).isSome).length ∧
    w3.base.num_open_files ≤ w.base.num_open_files ∧
    (w.base.num_open_files + K ≤ MaxOpenFiles →
      w3.base.num_open_files = w.base.num_open_files) := by
  intro w3
  obtain ⟨-, h2, h3, h4, h5, h6⟩ := openMany_spec P paths perms w K
  have hw1 : Reachable P (openMany P paths perms w K) := hw.openMany paths perms K
  have hw3 : Reachable P w3 := hw1.run w.allocated cs hv
  have hi := hw.inv
  have hi3 := hw3.inv
  obtain ⟨hmono, -⟩ := run_old_mono w.allocated w cs (openMany P paths perms w K) hv
    (fun x hx hs => by rw [h4 x hx] at hs; exact hs) h5
  have hold : ∀ x, x ∈ w3.base.open_references → x < w.allocated := by
    intro x hx
    have hlive : x ∈ w3.live := (hi3.listed_iff x).mp (Or.inl hx)
    obtain ⟨f, hf, hfx⟩ := List.mem_map.mp hlive
    rw [← hfx]
    exact hrel f hf
  have hperm : w3.base.open_references.Perm
      (w.base.open_references.filter fun r => (w3.base.file r).isSome) := by
    apply (List.perm_ext_iff_of_nodup hi3.wf.nodup_open (hi.wf.nodup_open.filter _)).mpr
    intro x
    rw [List.mem_filter]
    constructor
    · intro hx
      have hs3 := (hi3.wf.open_iff x).mp hx
      exact ⟨(hi.wf.open_iff x).mpr (hmono x (hold x hx) hs3), hs3⟩
    · intro hx
      exact (hi3.wf.open_iff x).mpr hx.2
  have hnum : w3.base.num_open_files =
      (w.base.open_references.filter fun r => (w3.base.file r).isSome).length := by
    rw [hi3.wf.counter]; exact hperm.length_eq
  refine ⟨hnum, ?_, ?_⟩
  · rw [hnum, hi.wf.counter]
    exact List.length_filter_le _ _
  · intro hfit
    have hnil : w.base.closed_references.filter (isNew w.allocated) = [] := by
      apply List.filter_eq_nil_iff.mpr
      intro x hx
      have hlt := hi.live_lt x ((hi.listed_iff x).mp (Or.inr hx))
      simp only [isNew, decide_eq_true_eq]
      exact Nat.not_le.mpr hlt
    have hp : pressure w.allocated (openMany P paths perms w K).base ≤
        w.base.num_open_files + K := by
      unfold pressure
      rw [h2, h6, hnil, hi.wf.counter]
      simp
    have hsame := run_old_same w.allocated _ hfit cs _ hw1 hv hp
    have hall : (w.base.open_references.filter fun r => (w3.base.file r).isSome) =
        w.base.open_references := by
      apply List.filter_eq_self.mpr
      intro x hx
      have hlt := hi.live_lt x ((hi.listed_iff x).mp (Or.inl hx))
      have h3x : w3.base.file x = w.base.file x := (hsame x hlt).trans (h4 x hlt)
      rw [h3x]
      exact (hi.wf.open_iff x).mp hx
    rw [hnum, hall, hi.wf.counter]

theorem accessMany_frame (FileOpen : Nat → HostOpen) (hs : Nat → RealVfsFile) (w : System)
    (k : Nat) :
    (accessMany FileOpen hs w k).files = w.files ∧
    (accessMany FileOpen hs w k).allocated = w.allocated := by
  induction k with
  | zero => exact ⟨rfl, rfl⟩
  | succ k ih => exact ih

theorem Reachable.accessMany {P : HostPaths} {w : System} (hw : Reachable P w)
    (FileOpen : Nat → HostOpen) (hs : Nat → RealVfsFile) (k : Nat)
    (hmem : ∀ i, i < k → hs i ∈ w.files) :
    Reachable P (FileSys.accessMany FileOpen hs w k) := by
  induction k with
  | zero => exact hw
  | succ k ih =>
    have hk := ih (fun i hi => hmem i (Nat.lt_succ_of_lt hi))
    refine Reachable.access _ _ _ hk ?_
    rw [(accessMany_frame FileOpen hs w k).1]
    exact hmem k (Nat.lt_succ_self k)

/-- A cache filled to the cap, one more file object created, accessed and
destroyed: one of the old references has lost its handle for good. -/
theorem full_then_one (P : HostPaths) (paths : Nat → String) (perms : Nat → Mode)
    (FileOpen : Nat → HostOpen)
    (hok : ∀ k i, (nativeOpen (FileOpen k) (handle P paths perms i)).isSome = true)
    (m : Nat) (hN : MaxOpenFiles = m + 1) (F : HostOpen) (p0 : String) (q0 : Mode)
    (hF : (nativeOpen F (RealVfsFile.construct P (m + 1) (P.SanitizePath p0) q0)).isSome
      = true) :
    Reachable P (accessMany FileOpen (handle P paths perms)
      (openMany P paths perms System.init (m + 1)) (m + 1)) ∧
    (accessMany FileOpen (handle P paths perms)
      (openMany P paths perms System.init (m + 1)) (m + 1)).allocated = m + 1 ∧
    (accessMany FileOpen (handle P paths perms)
      (openMany P paths perms System.init (m + 1)) (m + 1)).base.num_open_files = m + 1 ∧
    ((((accessMany FileOpen (handle P paths perms)
      (openMany P paths perms System.init (m + 1)) (m + 1)).openFile P p0 q0).access F
        (RealVfsFile.construct P (m + 1) (P.SanitizePath p0) q0)).destroy
        (RealVfsFile.construct P (m + 1) (P.SanitizePath p0) q0)).base.num_open_files = m := by
  have hcap : m + 1 ≤ MaxOpenFiles := Nat.le_of_eq hN.symm
  have hst := accessMany_state P paths perms FileOpen (fun k => hok k k) (m + 1) (m + 1)
    hcap (Nat.le_refl _)
  have hal : (accessMany FileOpen (handle P paths perms)
      (openMany P paths perms System.init (m + 1)) (m + 1)).allocated = m + 1 := by
    rw [(accessMany_frame _ _ _ _).2, openMany_state]
  have hreach : Reachable P (accessMany FileOpen (handle P paths perms)
      (openMany P paths perms System.init (m + 1)) (m + 1)) :=
    (Reachable.init.openMany paths perms (m + 1)).accessMany FileOpen _ (m + 1)
      (fun i hi => handle_mem_openMany P paths perms (m + 1) i hi)
  refine ⟨hreach, hal, ?_, ?_⟩
  · rw [hst]
  · obtain ⟨h, hh⟩ := Option.isSome_iff_exists.mp hF
    have hh2 : F (P.SanitizePath p0) (ModeFlagsToFileAccessMode q0) FileType.BinaryFile =
        some h := hh
    simp only [System.destroy, System.access, System.openFile_base, hal, hst,
      RealVfsFile.construct]
    rw [RealVfsFilesystem.RefreshReference_closed_full _ _ _ _ _ 0 ?_ ?_ ?_ ?_ ?_, hh2]
    · rw [RealVfsFilesystem.DropReference_of_open _ _ (by simp)]
      simp only
      rw [sizeDec_eq _ (Nat.succ_pos m) hcap,
        sizeInc_eq _ (Nat.le_trans (Nat.sub_le _ _) hcap)]
      have h2 : m + 1 - 1 + 1 = m + 1 := by omega
      rw [h2, sizeDec_eq _ (Nat.succ_pos m) hcap]
      rfl
    · exact List.nodup_reverse.mpr (List.nodup_range' 0 (m + 1))
    · simp only [Function.update_same]
    · exact Nat.le_of_eq hN
    · exact reverse_range_getLast 0 m
    · have h0 : (0 : Nat) ≠ m + 1 := (Nat.succ_ne_zero m).symm
      simp only [Function.update_noteq h0]
      rw [if_pos (Nat.succ_pos m)]
      exact hok 0 0

theorem sampleCmds_valid :
    validFrom sampleTwo.allocated
      (openMany samplePaths samplePathOf sampleModeOf sampleTwo 1) sampleCmds :=
  ⟨⟨by decide, by decide⟩, ⟨by decide, by decide⟩, trivial⟩

theorem sampleCmds_released :
    ∀ f, f ∈ ((openMany samplePaths samplePathOf sampleModeOf sampleTwo 1).run sampleCmds).files →
      f.reference < sampleTwo.allocated := by
  decide

theorem reference_count_accounting_witness :
    Reachable samplePaths sampleTwo ∧
    validFrom sampleTwo.allocated
      (openMany samplePaths samplePathOf sampleModeOf sampleTwo 1) sampleCmds ∧
    (∀ f, f ∈ ((openMany samplePaths samplePathOf sampleModeOf sampleTwo 1).run
        sampleCmds).files → f.reference < sampleTwo.allocated) ∧
    (let w3 := (openMany samplePaths samplePathOf sampleModeOf sampleTwo 1).run sampleCmds
     w3.base.num_open_files =
       (sampleTwo.base.open_references.filter fun r => (w3.base.file r).isSome).length ∧
     w3.base.num_open_files ≤ sampleTwo.base.num_open_files ∧
     (sampleTwo.base.num_open_files + 1 ≤ MaxOpenFiles →
       w3.base.num_open_files = sampleTwo.base.num_open_files)) :=
  ⟨sampleTwo_reachable, sampleCmds_valid, sampleCmds_released,
    reference_count_accounting samplePaths sampleTwo sampleTwo_reachable samplePathOf
      sampleModeOf 1 sampleCmds sampleCmds_valid sampleCmds_released⟩

/-- C8 as stated fails: on a full cache (512 handles) one file object is
created, read once and released; the read evicts an old reference, so
`num_open_files` is 511 afterwards, not 512. -/
theorem reference_count_counterexample :
    Reachable samplePaths fullSystem ∧
    validFrom fullSystem.allocated
      (openMany samplePaths (fun _ => "extra") (fun _ => Mode.Read) fullSystem 1)
      overflowCmds ∧
    fullSystem.base.num_open_files = 512 ∧
    ((openMany samplePaths (fun _ => "extra") (fun _ => Mode.Read) fullSystem 1).run
      overflowCmds).base.num_open_files = 511 ∧
    ((openMany samplePaths (fun _ => "extra") (fun _ => Mode.Read) fullSystem 1).run
      overflowCmds).files = fullSystem.files ∧
    (∀ f, f ∈ ((openMany samplePaths (fun _ => "extra") (fun _ => Mode.Read) fullSystem 1).run
      overflowCmds).files → f.reference < fullSystem.allocated) := by
  obtain ⟨h1, h2, h3, h4⟩ := full_then_one samplePaths samplePathOf sampleModeOf alwaysHost
    (fun _ _ => rfl) 511 rfl openAlways "extra" Mode.Read rfl
  have hf : overflowFile ∈
      (openMany samplePaths (fun _ => "extra") (fun _ => Mode.Read) fullSystem 1).files := by
    show overflowFile ∈ (fullSystem.openFile samplePaths "extra" Mode.Read).files
    rw [System.openFile_eq]
    have hal : fullSystem.allocated = MaxOpenFiles := h2
    rw [hal]
    exact List.mem_cons_self _ _
  have hfiles : ((openMany samplePaths (fun _ => "extra") (fun _ => Mode.Read) fullSystem 1).run
      overflowCmds).files = fullSystem.files := by
    simp only [overflowCmds, System.run, System.step, System.destroy, System.access, openMany]
    rw [System.openFile_eq]
    have hal : fullSystem.allocated = MaxOpenFiles := h2
    rw [hal]
    exact List.erase_cons_head _ _
  refine ⟨h1, ⟨⟨hf, ?_⟩, ⟨hf, ?_⟩, trivial⟩, h3, h4, hfiles, ?_⟩
  · exact Nat.le_of_eq h2
  · exact Nat.le_of_eq h2
  · intro f hmem
    rw [hfiles] at hmem
    exact h1.inv.live_lt f.reference (List.mem_map_of_mem RealVfsFile.reference hmem)

/-! ## Transparency of the cache for data accesses -/

theorem ReachableFaithful.reachable {P : HostPaths} {w : System}
    (h : ReachableFaithful P w) : Reachable P w := by
  induction h with
  | start => exact Reachable.init
  | opened w path_ perms _ ih => exact Reachable.openFile w path_ perms ih
  | accessed w FileOpen f _ _ hf ih => exact Reachable.access w FileOpen f ih hf
  | destroyed w f _ hf ih => exact Reachable.destroy w f ih hf

namespace RealVfsFilesystem

/-- A refresh of `r` changes the field `file` of another reference at most by
emptying it. -/
theorem RefreshReference_file_other (FileOpen : HostOpen) (s : RealVfsFilesystem)
    (path : String) (perms : Mode) (r x : RefId) (hx : x ≠ r) :
    (s.RefreshReference FileOpen path perms r).file x = s.file x ∨
    (s.RefreshReference FileOpen path perms r).file x = none := by
  cases hfile : s.file r with
  | some h0 =>
    have hs : (s.file r).isSome = true := by rw [hfile]; rfl
    rw [RefreshReference_of_open FileOpen s path perms r hs]
    exact Or.inl rfl
  | none =>
    rw [RefreshReference_of_closed FileOpen s path perms r hfile]
    have hev := EvictSingleReference_file
      { s with closed_references := s.closed_references.erase r } x
    cases hO : FileOpen path (ModeFlagsToFileAccessMode perms) FileType.BinaryFile with
    | some h1 => simp only [Function.update_noteq hx]; exact hev
    | none => simp only [Function.update_noteq hx]; exact hev

/-- The field `file` of the refreshed reference: the handle it had, or else the
answer of the host. -/
theorem RefreshReference_file_self (FileOpen : HostOpen) (s : RealVfsFilesystem)
    (path : String) (perms : Mode) (r : RefId) :
    (s.RefreshReference FileOpen path perms r).file r =
      match s.file r with
      | some h => some h
      | none => FileOpen path (ModeFlagsToFileAccessMode perms) FileType.BinaryFile := by
  cases hfile : s.file r with
  | some h0 =>
    have hs : (s.file r).isSome = true := by rw [hfile]; rfl
    rw [RefreshReference_of_open FileOpen s path perms r hs]
    exact hfile
  | none =>
    rw [RefreshReference_of_closed FileOpen s path perms r hfile]
    cases hO : FileOpen path (ModeFlagsToFileAccessMode perms) FileType.BinaryFile with
    | some h1 => simp only [Function.update_same]
    | none => simp only [Function.update_same]

/-- A drop changes a field `file` at most by emptying it. -/
theorem DropReference_file_or (s : RealVfsFilesystem) (r x : RefId) :
    (s.DropReference r).file x = s.file x ∨ (s.DropReference r).file x = none := by
  by_cases hx : x = r
  · subst hx
    cases hfile : s.file x with
    | some h0 =>
      have hs : (s.file x).isSome = true := by rw [hfile]; rfl
      rw [DropReference_of_open s x hs]
      exact Or.inr (Function.update_same _ _ _)
    | none =>
      rw [DropReference_of_closed s x hfile]
      exact Or.inl hfile
  · exact Or.inl (DropReference_file s r x hx)

end RealVfsFilesystem

theorem Bound.bound_init : Bound System.init := by
  intro f hf
  simp [System.init] at hf

theorem Bound.bound_open {P : HostPaths} {w : System} (hb : Bound w) (hi : Inv w)
    (path_ : String) (perms : Mode) : Bound (w.openFile P path_ perms) := by
  intro f hf h hh
  rw [System.openFile_base] at hh
  rw [System.openFile_eq] at hf
  rcases List.mem_cons.mp hf with hnew | hold
  · rw [hnew] at hh
    simp [RealVfsFile.construct] at hh
  · have hlt := hi.live_lt f.reference (List.mem_map_of_mem RealVfsFile.reference hold)
    simp only [Function.update_noteq (Nat.ne_of_lt hlt)] at hh
    exact hb f hold h hh

theorem Bound.bound_access {w : System} (hb : Bound w) (hi : Inv w) (FileOpen : HostOpen)
    (hfaith : faithful FileOpen) (g : RealVfsFile) (hg : g ∈ w.files) :
    Bound (w.access FileOpen g) := by
  intro f hf h hh
  have hf2 : f ∈ w.files := hf
  simp only [System.access] at hh
  by_cases hfg : f.reference = g.reference
  · have hfeq : f = g := List.inj_on_of_nodup_map hi.live_nodup hf2 hg hfg
    subst hfeq
    rw [RealVfsFilesystem.RefreshReference_file_self] at hh
    cases hfile : w.base.file f.reference with
    | some h0 =>
      rw [hfile] at hh
      exact hb f hf2 h (hfile.trans hh)
    | none =>
      rw [hfile] at hh
      exact hfaith _ _ _ h hh
  · rcases RealVfsFilesystem.RefreshReference_file_other FileOpen w.base g.path g.perms
      g.reference f.reference hfg with hsame | hnone
    · rw [hsame] at hh
      exact hb f hf2 h hh
    · rw [hnone] at hh
      cases hh

theorem Bound.bound_destroy {w : System} (hb : Bound w) (g : RealVfsFile) :
    Bound (w.destroy g) := by
  intro f hf h hh
  have hf2 : f ∈ w.files := List.mem_of_mem_erase hf
  simp only [System.destroy] at hh
  rcases RealVfsFilesystem.DropReference_file_or w.base g.reference f.reference with
    hsame | hnone
  · rw [hsame] at hh
    exact hb f hf2 h hh
  · rw [hnone] at hh
    cases hh

theorem ReachableFaithful.bound {P : HostPaths} {w : System} (h : ReachableFaithful P w) :
    Bound w := by
  induction h with
  | start => exact Bound.bound_init
  | opened w path_ perms hw ih => exact ih.bound_open hw.reachable.inv path_ perms
  | accessed w FileOpen f hw hfaith hf ih =>
    exact ih.bound_access hw.reachable.inv FileOpen hfaith f hf
  | destroyed w f _ _ ih => exact ih.bound_destroy f

theorem openAlways_faithful : faithful openAlways := by
  intro path access type h hh
  exact (Option.some.inj hh).symm

theorem firstHandles_update (P : HostPaths) (paths : Nat → String) (perms : Nat → Mode)
    (FileOpen : Nat → HostOpen) (k : Nat) (h : IOFile)
    (hh : nativeOpen (FileOpen k) (handle P paths perms k) = some h) :
    Function.update (firstHandles P paths perms FileOpen k) k (some h) =
      firstHandles P paths perms FileOpen (k + 1) := by
  funext i
  by_cases hik : i = k
  · subst hik
    simp [firstHandles, hh]
  · rw [Function.update_noteq hik]
    have hlt2 : ∀ a b : Nat, a ≠ b → ((a < b + 1) ↔ (a < b)) := by
      intro a b hab; omega
    simp only [firstHandles, hlt2 i k hik]

theorem firstHandles_none (P : HostPaths) (paths : Nat → String) (perms : Nat → Mode)
    (FileOpen : Nat → HostOpen) (k a : Nat) (hka : k ≤ a) :
    firstHandles P paths perms FileOpen k a = none := by
  simp only [firstHandles]
  rw [if_neg (Nat.not_lt.mpr hka)]

theorem LruFilling.open_next {P : HostPaths} {paths : Nat → String} {perms : Nat → Mode}
    {FileOpen : Nat → HostOpen} {w : System} {k : Nat}
    (hf : LruFilling P paths perms FileOpen w k) (path_ : String) (q : Mode) :
    LruFilling P paths perms FileOpen (w.openFile P path_ q) k := by
  obtain ⟨h1, h2, h3, h4, h5, h6, h7⟩ := hf
  have hal : (w.openFile P path_ q).allocated = w.allocated + 1 := rfl
  have hnot : w.allocated ∉ w.base.closed_references := by
    intro hmem
    exact Nat.lt_irrefl _ ((h7 _).mp hmem).2
  refine ⟨h1, ?_, ?_, ?_, ?_, ?_, ?_⟩
  · rw [hal]; exact Nat.le_succ_of_le h2
  · rw [System.openFile_base]; exact h3
  · rw [System.openFile_base]; exact h4
  · rw [System.openFile_base]
    simp only
    rw [h5, update_none_self _ _ (firstHandles_none P paths perms FileOpen k _ h2)]
  · rw [System.openFile_base]
    exact List.nodup_cons.mpr ⟨hnot, h6⟩
  · intro x
    rw [System.openFile_base, hal]
    simp only [List.mem_cons, h7]
    constructor
    · rintro (hx | hx)
      · rw [hx]; exact ⟨h2, Nat.lt_succ_self _⟩
      · exact ⟨hx.1, Nat.lt_succ_of_lt hx.2⟩
    · intro hx
      by_cases hxa : x = w.allocated
      · exact Or.inl hxa
      · exact Or.inr ⟨hx.1, Nat.lt_of_le_of_ne (Nat.le_of_lt_succ hx.2) hxa⟩

theorem LruFilling.access_below {P : HostPaths} {paths : Nat → String} {perms : Nat → Mode}
    {FileOpen : Nat → HostOpen} {w : System} {k : Nat}
    (hok : ∀ k i, (nativeOpen (FileOpen k) (handle P paths perms i)).isSome = true)
    (hf : LruFilling P paths perms FileOpen w k) (hlt : k < MaxOpenFiles)
    (hka : k < w.allocated) :
    LruFilling P paths perms FileOpen (w.access (FileOpen k) (handle P paths perms k))
      (k + 1) := by
  obtain ⟨_, _, h3, h4, h5, h6, h7⟩ := hf
  obtain ⟨h, hh⟩ := Option.isSome_iff_exists.mp (hok k k)
  have hh2 : FileOpen k (handle P paths perms k).path
      (ModeFlagsToFileAccessMode (handle P paths perms k).perms) FileType.BinaryFile =
      some h := hh
  have hfile : w.base.file (handle P paths perms k).reference = none := by
    rw [h5]; exact firstHandles_none P paths perms FileOpen k k (Nat.le_refl k)
  have hnum : w.base.num_open_files < MaxOpenFiles := by rw [h4]; exact hlt
  have hbase : (w.access (FileOpen k) (handle P paths perms k)).base =
      { open_references := k :: w.base.open_references,
        closed_references := w.base.closed_references.erase k,
        num_open_files := sizeInc w.base.num_open_files,
        file := Function.update w.base.file k (some h) } := by
    simp only [System.access]
    rw [RealVfsFilesystem.RefreshReference_closed_below _ _ _ _ _ hfile hnum, hh2]
    rfl
  have hal : (w.access (FileOpen k) (handle P paths perms k)).allocated = w.allocated := rfl
  refine ⟨hlt, ?_, ?_, ?_, ?_, ?_, ?_⟩
  · rw [hal]; exact hka
  · rw [hbase]
    simp only [h3]
    have := reverse_range_cons 0 k
    simpa using this
  · rw [hbase]
    simp only [h4]
    exact sizeInc_eq k (Nat.le_of_lt hlt)
  · rw [hbase]
    simp only [h5]
    exact firstHandles_update P paths perms FileOpen k h hh
  · rw [hbase]; exact h6.erase k
  · intro x
    rw [hbase, hal]
    simp only [h6.mem_erase_iff, h7]
    constructor
    · rintro ⟨hne, hkx, hxa⟩
      exact ⟨Nat.succ_le_of_lt (Nat.lt_of_le_of_ne hkx (Ne.symm hne)), hxa⟩
    · rintro ⟨hkx, hxa⟩
      exact ⟨Nat.ne_of_gt hkx, Nat.le_of_succ_le hkx, hxa⟩

theorem LruFilling.access_full {P : HostPaths} {paths : Nat → String} {perms : Nat → Mode}
    {FileOpen : Nat → HostOpen} {w : System}
    (hok : ∀ k i, (nativeOpen (FileOpen k) (handle P paths perms i)).isSome = true)
    (hf : LruFilling P paths perms FileOpen w MaxOpenFiles)
    (hka : MaxOpenFiles < w.allocated) :
    LruFull P paths perms FileOpen
      (w.access (FileOpen MaxOpenFiles) (handle P paths perms MaxOpenFiles)) := by
  unfold LruFull
  unfold LruFilling at hf
  obtain ⟨_, _, h3, h4, h5, -, -⟩ := hf
  generalize hN : MaxOpenFiles = N at *
  obtain ⟨m, rfl⟩ : ∃ m, N = m + 1 := ⟨511, hN.symm⟩
  have hcap : m + 1 ≤ MaxOpenFiles := Nat.le_of_eq hN.symm
  obtain ⟨h, hh⟩ := Option.isSome_iff_exists.mp (hok (m + 1) (m + 1))
  have hh2 : FileOpen (m + 1) (handle P paths perms (m + 1)).path
      (ModeFlagsToFileAccessMode (handle P paths perms (m + 1)).perms)
      FileType.BinaryFile = some h := hh
  have hfile : w.base.file (handle P paths perms (m + 1)).reference = none := by
    rw [h5]; exact firstHandles_none P paths perms FileOpen (m + 1) (m + 1) (Nat.le_refl _)
  have hefile : (w.base.file 0).isSome = true := by
    rw [h5]
    simp only [firstHandles]
    rw [if_pos (Nat.succ_pos m)]
    exact hok 0 0
  have hbase : (w.access (FileOpen (m + 1)) (handle P paths perms (m + 1))).base =
      { open_references := (m + 1) :: w.base.open_references.dropLast,
        closed_references := 0 :: w.base.closed_references.erase (m + 1),
        num_open_files := sizeInc (sizeDec w.base.num_open_files),
        file := Function.update (Function.update w.base.file 0 none) (m + 1) (some h) } := by
    simp only [System.access]
    rw [RealVfsFilesystem.RefreshReference_closed_full _ _ _ _ _ 0 ?_ hfile ?_ ?_ hefile, hh2]
    · rfl
    · rw [h3]; exact List.nodup_reverse.mpr (List.nodup_range' 0 (m + 1))
    · rw [h4]; exact Nat.le_of_eq hN
    · rw [h3]; exact reverse_range_getLast 0 m
  refine ⟨Nat.succ_le_of_lt hka, ?_, ?_, ⟨h, ?_⟩, ?_⟩
  · rw [hbase]
    simp only [h3, reverse_range_dropLast]
    have := reverse_range_cons 1 m
    rw [Nat.add_comm 1 m] at this
    exact this
  · rw [hbase]
    simp only [h4]
    rw [sizeDec_eq _ (Nat.succ_pos m) hcap, sizeInc_eq _ (Nat.le_trans (Nat.sub_le _ _) hcap)]
    omega
  · rw [hbase]
    simp only [h5]
  · rw [hbase]
    exact List.mem_cons_self _ _

theorem LruFull.open_after {P : HostPaths} {paths : Nat → String} {perms : Nat → Mode}
    {FileOpen : Nat → HostOpen} {w : System}
    (hf : LruFull P paths perms FileOpen w) (path_ : String) (q : Mode) :
    LruFull P paths perms FileOpen (w.openFile P path_ q) := by
  obtain ⟨h1, h2, h3, ⟨h, h4⟩, h5⟩ := hf
  have hal : (w.openFile P path_ q).allocated = w.allocated + 1 := rfl
  have hnone : w.base.file w.allocated = none := by
    have hne1 : w.allocated ≠ MaxOpenFiles := by omega
    have hne0 : w.allocated ≠ 0 := by omega
    rw [h4, Function.update_noteq hne1, Function.update_noteq hne0]
    exact firstHandles_none P paths perms FileOpen _ _ (by omega)
  refine ⟨?_, ?_, ?_, ⟨h, ?_⟩, ?_⟩
  · rw [hal]; exact Nat.le_succ_of_le h1
  · rw [System.openFile_base]; exact h2
  · rw [System.openFile_base]; exact h3
  · rw [System.openFile_base]
    simp only
    rw [update_none_self _ _ hnone]
    exact h4
  · rw [System.openFile_base]
    exact List.mem_cons_of_mem _ h5

/-- Along a valid schedule with at most `MaxOpenFiles + 1` accesses in all the
cache fills up and then goes one past the cap. -/
theorem runSchedule_inv (P : HostPaths) (paths : Nat → String) (perms : Nat → Mode)
    (FileOpen : Nat → HostOpen)
    (hok : ∀ k i, (nativeOpen (FileOpen k) (handle P paths perms i)).isSome = true)
    (sched : List LruStep) (w : System) (k : Nat)
    (hinv : LruInv P paths perms FileOpen w k)
    (hv : validSchedule w.allocated k sched)
    (hcount : k + sched.count LruStep.accessNext ≤ MaxOpenFiles + 1) :
    LruInv P paths perms FileOpen (runSchedule P paths perms FileOpen w k sched)
      (k + sched.count LruStep.accessNext) ∧
    (runSchedule P paths perms FileOpen w k sched).allocated =
      w.allocated + sched.count LruStep.openNext := by
  induction sched generalizing w k with
  | nil => exact ⟨hinv, rfl⟩
  | cons c rest ih =>
    cases c with
    | openNext =>
      have hc1 : (LruStep.openNext :: rest).count LruStep.accessNext =
          rest.count LruStep.accessNext := by
        rw [List.count_cons_of_ne (by decide)]
      have hc2 : (LruStep.openNext :: rest).count LruStep.openNext =
          rest.count LruStep.openNext + 1 := List.count_cons_self _ _
      rw [hc1] at hcount ⊢
      rw [hc2]
      have hinv2 : LruInv P paths perms FileOpen
          (w.openFile P (paths w.allocated) (perms w.allocated)) k := by
        obtain ⟨halive, hstate⟩ := hinv
        refine ⟨?_, ?_⟩
        · intro i hi
          rw [System.openFile_eq]
          rcases Nat.lt_or_ge i w.allocated with hlt | hge
          · exact List.mem_cons_of_mem _ (halive i hlt)
          · have hia : i = w.allocated :=
              Nat.le_antisymm (Nat.le_of_lt_succ hi) hge
            rw [hia]
            exact List.mem_cons_self _ _
        · rcases hstate with hfill | ⟨hk, hfull⟩
          · exact Or.inl (hfill.open_next _ _)
          · exact Or.inr ⟨hk, hfull.open_after _ _⟩
      obtain ⟨r1, r2⟩ := ih _ k hinv2 hv hcount
      refine ⟨r1, ?_⟩
      rw [show runSchedule P paths perms FileOpen w k (LruStep.openNext :: rest) =
        runSchedule P paths perms FileOpen
          (w.openFile P (paths w.allocated) (perms w.allocated)) k rest from rfl, r2]
      show w.allocated + 1 + _ = _
      omega
    | accessNext =>
      have hc1 : (LruStep.accessNext :: rest).count LruStep.accessNext =
          rest.count LruStep.accessNext + 1 := List.count_cons_self _ _
      have hc2 : (LruStep.accessNext :: rest).count LruStep.openNext =
          rest.count LruStep.openNext := by
        rw [List.count_cons_of_ne (by decide)]
      rw [hc1] at hcount ⊢
      rw [hc2]
      obtain ⟨hka, hv2⟩ := hv
      have hk : k ≤ MaxOpenFiles := by omega
      have hinv2 : LruInv P paths perms FileOpen
          (w.access (FileOpen k) (handle P paths perms k)) (k + 1) := by
        obtain ⟨halive, hstate⟩ := hinv
        refine ⟨halive, ?_⟩
        rcases hstate with hfill | ⟨hk2, _⟩
        · rcases Nat.lt_or_ge k MaxOpenFiles with hlt | hge
          · exact Or.inl (hfill.access_below hok hlt hka)
          · have hkeq : k = MaxOpenFiles := Nat.le_antisymm hk hge
            subst hkeq
            exact Or.inr ⟨rfl, hfill.access_full hok hka⟩
        · omega
      obtain ⟨r1, r2⟩ := ih _ (k + 1) hinv2 hv2 (by omega)
      have e : k + 1 + rest.count LruStep.accessNext =
          k + (rest.count LruStep.accessNext + 1) := by omega
      rw [← e]
      exact ⟨r1, r2⟩

theorem LruInv.at_start (P : HostPaths) (paths : Nat → String) (perms : Nat → Mode)
    (FileOpen : Nat → HostOpen) : LruInv P paths perms FileOpen System.init 0 := by
  refine ⟨fun i hi => absurd hi (Nat.not_lt_zero i), Or.inl ?_⟩
  refine ⟨Nat.zero_le _, Nat.le_refl _, rfl, rfl, ?_, List.nodup_nil, ?_⟩
  · funext i
    simp [firstHandles, System.init, RealVfsFilesystem.empty]
  · intro x
    simp [System.init, RealVfsFilesystem.empty]

/-- The handles that are left after the eviction of the first reference. -/
theorem LruFull.file_some {P : HostPaths} {paths : Nat → String} {perms : Nat → Mode}
    {FileOpen : Nat → HostOpen}
    (hok : ∀ k i, (nativeOpen (FileOpen k) (handle P paths perms i)).isSome = true)
    (N : Nat) (h : IOFile) (i : Nat) (hi1 : 1 ≤ i) (hi2 : i ≤ N) :
    (Function.update (Function.update (firstHandles P paths perms FileOpen N) 0 none) N
      (some h) i).isSome = true := by
  by_cases hi : i = N
  · rw [hi, Function.update_same]; rfl
  · have hi0 : i ≠ 0 := by omega
    have hlt : i < N := by omega
    rw [Function.update_noteq hi, Function.update_noteq hi0]
    simp only [firstHandles, hlt, if_true]
    exact hok i i

/-- An access to the first file object after it was evicted. -/
theorem LruFull.access_first {P : HostPaths} {paths : Nat → String} {perms : Nat → Mode}
    {FileOpen : Nat → HostOpen} {w : System}
    (hok : ∀ k i, (nativeOpen (FileOpen k) (handle P paths perms i)).isSome = true)
    (hf : LruFull P paths perms FileOpen w) (F : HostOpen)
    (hF : (nativeOpen F (handle P paths perms 0)).isSome = true) :
    ((w.access F (handle P paths perms 0)).base.file 0).isSome = true ∧
    (w.access F (handle P paths perms 0)).base.file 1 = none ∧
    1 ∈ (w.access F (handle P paths perms 0)).base.closed_references ∧
    ∀ i, 2 ≤ i → i ≤ MaxOpenFiles →
      ((w.access F (handle P paths perms 0)).base.file i).isSome = true := by
  unfold LruFull at hf
  obtain ⟨_, h2, h3, ⟨h, h4⟩, _⟩ := hf
  generalize hN : MaxOpenFiles = N at *
  obtain ⟨m, rfl⟩ : ∃ m, N = m + 1 := ⟨511, hN.symm⟩
  have hcap : m + 1 ≤ MaxOpenFiles := Nat.le_of_eq hN.symm
  obtain ⟨g, hg⟩ := Option.isSome_iff_exists.mp hF
  have hg2 : F (handle P paths perms 0).path
      (ModeFlagsToFileAccessMode (handle P paths perms 0).perms) FileType.BinaryFile =
      some g := hg
  have h0m : (0 : Nat) ≠ m + 1 := (Nat.succ_ne_zero m).symm
  have hfile : w.base.file (handle P paths perms 0).reference = none := by
    have href : (handle P paths perms 0).reference = 0 := rfl
    rw [h4, href, Function.update_noteq h0m, Function.update_same]
  have hefile : (w.base.file 1).isSome = true := by
    rw [h4]
    exact LruFull.file_some hok (m + 1) h 1 (Nat.le_refl 1) (Nat.succ_le_succ (Nat.zero_le m))
  have hbase : (w.access F (handle P paths perms 0)).base =
      { open_references := 0 :: w.base.open_references.dropLast,
        closed_references := 1 :: w.base.closed_references.erase 0,
        num_open_files := sizeInc (sizeDec w.base.num_open_files),
        file := Function.update (Function.update w.base.file 1 none) 0 (some g) } := by
    simp only [System.access]
    rw [RealVfsFilesystem.RefreshReference_closed_full _ _ _ _ _ 1 ?_ hfile ?_ ?_ hefile, hg2]
    · rfl
    · rw [h2]; exact List.nodup_reverse.mpr (List.nodup_range' 1 (m + 1))
    · rw [h3]; exact Nat.le_of_eq hN
    · rw [h2]; exact reverse_range_getLast 1 m
  have h10 : (1 : Nat) ≠ 0 := Nat.one_ne_zero
  refine ⟨?_, ?_, ?_, ?_⟩
  · rw [hbase]; simp only [Function.update_same]; rfl
  · rw [hbase]; simp only [Function.update_noteq h10, Function.update_same]
  · rw [hbase]; exact List.mem_cons_self _ _
  · intro i hi1 hi2
    have hi0 : i ≠ 0 := by omega
    have hi1' : i ≠ 1 := by omega
    rw [hbase]
    simp only [Function.update_noteq hi0, Function.update_noteq hi1', h4]
    exact LruFull.file_some hok (m + 1) h i (by omega) hi2

/-- C4, least recently used: on a new filesystem `MaxOpenFiles + 1` (513) files
are opened, giving the file objects `handle 0`, ..., `handle MaxOpenFiles`, and
each is accessed once, in the order of creation, every native open succeeding;
opens and accesses may interleave in any way, as long as a file is opened
before it is accessed. Then the reference of the first file owns no handle and
is in the closed list, and the other `MaxOpenFiles` references own handles. A
following access to the first file object gives its reference a handle again
and closes the second one, and only this one. -/
theorem lru_correctness (P : HostPaths) (paths : Nat → String) (perms : Nat → Mode)
    (FileOpen : Nat → HostOpen)
    (hok : ∀ k i, (nativeOpen (FileOpen k) (handle P paths perms i)).isSome = true)
    (sched : List LruStep) (hv : validSchedule 0 0 sched)
    (hopens : sched.count LruStep.openNext = MaxOpenFiles + 1)
    (haccesses : sched.count LruStep.accessNext = MaxOpenFiles + 1) :
    let w1 := runSchedule P paths perms FileOpen System.init 0 sched
    let w2 := w1.access (FileOpen (MaxOpenFiles + 1)) (handle P paths perms 0)
    MaxOpenFiles = 512 ∧
    (w1.allocated = MaxOpenFiles + 1 ∧
      ∀ i, i ≤ MaxOpenFiles → handle P paths perms i ∈ w1.files) ∧
    (w1.base.file 0 = none ∧ 0 ∈ w1.base.closed_references ∧
      ∀ i, 1 ≤ i → i ≤ MaxOpenFiles → (w1.base.file i).isSome = true) ∧
    ((w2.base.file 0).isSome = true ∧ w2.base.file 1 = none ∧
      1 ∈ w2.base.closed_references ∧
      ∀ i, 2 ≤ i → i ≤ MaxOpenFiles → (w2.base.file i).isSome = true) := by
  intro w1 w2
  obtain ⟨hinv, hal⟩ := runSchedule_inv P paths perms FileOpen hok sched System.init 0
    (LruInv.at_start P paths perms FileOpen) hv (by rw [haccesses]; omega)
  rw [haccesses] at hinv
  rw [hopens] at hal
  have hal1 : w1.allocated = MaxOpenFiles + 1 := by
    rw [show w1.allocated = System.init.allocated + (MaxOpenFiles + 1) from hal]
    exact Nat.zero_add _
  obtain ⟨halive, hstate⟩ := hinv
  have hfull : LruFull P paths perms FileOpen w1 := by
    rcases hstate with hfill | ⟨_, hfull⟩
    · exact absurd hfill.1 (by omega)
    · exact hfull
  refine ⟨rfl, ⟨hal1, ?_⟩, ?_, LruFull.access_first hok hfull _ (hok _ 0)⟩
  · intro i hi
    exact halive i (by rw [hal1]; exact Nat.lt_succ_of_le hi)
  · obtain ⟨_, _, _, ⟨h, h4⟩, h5⟩ := hfull
    refine ⟨?_, h5, ?_⟩
    · rw [h4]
      have h0 : (0 : Nat) ≠ MaxOpenFiles := by decide
      rw [Function.update_noteq h0, Function.update_same]
    · intro i hi1 hi2
      rw [h4]
      exact LruFull.file_some hok MaxOpenFiles h i hi1 hi2

theorem validSchedule_opens (n a k : Nat) (rest : List LruStep)
    (h : validSchedule (a + n) k rest) :
    validSchedule a k (List.replicate n LruStep.openNext ++ rest) := by
  induction n generalizing a with
  | zero => exact h
  | succ n ih =>
    show validSchedule (a + 1) k (List.replicate n LruStep.openNext ++ rest)
    apply ih
    have e : a + 1 + n = a + (n + 1) := by omega
    rw [e]
    exact h

theorem validSchedule_accesses (n a k : Nat) (h : k + n ≤ a) :
    validSchedule a k (List.replicate n LruStep.accessNext) := by
  induction n generalizing k with
  | zero => exact trivial
  | succ n ih =>
    show k < a ∧ validSchedule a (k + 1) (List.replicate n LruStep.accessNext)
    exact ⟨by omega, ih (k + 1) (by omega)⟩

theorem twoPhase_valid (n : Nat) : validSchedule 0 0 (twoPhase n) := by
  unfold twoPhase
  apply validSchedule_opens
  exact validSchedule_accesses n (0 + n) 0 (Nat.le_refl _)

theorem twoPhase_opens (n : Nat) : (twoPhase n).count LruStep.openNext = n := by
  unfold twoPhase
  simp [List.count_append, List.count_replicate]

theorem twoPhase_accesses (n : Nat) : (twoPhase n).count LruStep.accessNext = n := by
  unfold twoPhase
  simp [List.count_append, List.count_replicate]

theorem alwaysHost_ok (k i : Nat) :
    (nativeOpen (alwaysHost k) (handle samplePaths samplePathOf sampleModeOf i)).isSome = true :=
  rfl

theorem lru_correctness_witness :
    (∀ k i, (nativeOpen (alwaysHost k)
      (handle samplePaths samplePathOf sampleModeOf i)).isSome = true) ∧
    validSchedule 0 0 (twoPhase (MaxOpenFiles + 1)) ∧
    (twoPhase (MaxOpenFiles + 1)).count LruStep.openNext = MaxOpenFiles + 1 ∧
    (twoPhase (MaxOpenFiles + 1)).count LruStep.accessNext = MaxOpenFiles + 1 ∧
    (let w1 := runSchedule samplePaths samplePathOf sampleModeOf alwaysHost System.init 0
        (twoPhase (MaxOpenFiles + 1))
     let w2 := w1.access (alwaysHost (MaxOpenFiles + 1))
        (handle samplePaths samplePathOf sampleModeOf 0)
     MaxOpenFiles = 512 ∧
     (w1.allocated = MaxOpenFiles + 1 ∧
       ∀ i, i ≤ MaxOpenFiles → handle samplePaths samplePathOf sampleModeOf i ∈ w1.files) ∧
     (w1.base.file 0 = none ∧ 0 ∈ w1.base.closed_references ∧
       ∀ i, 1 ≤ i → i ≤ MaxOpenFiles → (w1.base.file i).isSome = true) ∧
     ((w2.base.file 0).isSome = true ∧ w2.base.file 1 = none ∧
       1 ∈ w2.base.closed_references ∧
       ∀ i, 2 ≤ i → i ≤ MaxOpenFiles → (w2.base.file i).isSome = true)) :=
  ⟨alwaysHost_ok, twoPhase_valid (MaxOpenFiles + 1), twoPhase_opens (MaxOpenFiles + 1),
    twoPhase_accesses (MaxOpenFiles + 1),
    lru_correctness samplePaths samplePathOf sampleModeOf alwaysHost alwaysHost_ok
      (twoPhase (MaxOpenFiles + 1)) (twoPhase_valid (MaxOpenFiles + 1))
      (twoPhase_opens (MaxOpenFiles + 1)) (twoPhase_accesses (MaxOpenFiles + 1))⟩

/-! ## The access mode of the native open -/

/-- C11, access-mode mapping: `ModeFlagsToFileAccessMode` returns the host access
`Read` for `Mode::Read` and `ReadWrite` for each of the other named modes
(`Write`, `ReadWrite`, `Append`, `ReadAppend`, `WriteAppend`, `All`); it returns
`Read` for no other mode. A refresh of a handle-less reference asks the host
for the file object's path with this access, so on a host that hands out the
handle it is asked for, the native handle is read-only exactly when the mode
of the file object is `Read`. -/
theorem access_mode_mapping :
    ModeFlagsToFileAccessMode Mode.Read = FileAccessMode.Read ∧
    (ModeFlagsToFileAccessMode Mode.Write = FileAccessMode.ReadWrite ∧
      ModeFlagsToFileAccessMode Mode.ReadWrite = FileAccessMode.ReadWrite ∧
      ModeFlagsToFileAccessMode Mode.Append = FileAccessMode.ReadWrite ∧
      ModeFlagsToFileAccessMode Mode.ReadAppend = FileAccessMode.ReadWrite ∧
      ModeFlagsToFileAccessMode Mode.WriteAppend = FileAccessMode.ReadWrite ∧
      ModeFlagsToFileAccessMode Mode.All = FileAccessMode.ReadWrite) ∧
    (∀ mode, ModeFlagsToFileAccessMode mode = FileAccessMode.Read ↔ mode = Mode.Read) ∧
    (∀ (FileOpen : HostOpen) (s : RealVfsFilesystem) (path : String) (perms : Mode)
        (r : RefId), s.file r = none →
      (s.RefreshReference FileOpen path perms r).file r =
        FileOpen path (ModeFlagsToFileAccessMode perms) FileType.BinaryFile) ∧
    (∀ (FileOpen : HostOpen) (s : RealVfsFilesystem) (path : String) (perms : Mode)
        (r : RefId) (h : IOFile), faithful FileOpen → s.file r = none →
      (s.RefreshReference FileOpen path perms r).file r = some h →
      (h.access = FileAccessMode.Read ↔ perms = Mode.Read)) := by
  have hiff : ∀ mode, ModeFlagsToFileAccessMode mode = FileAccessMode.Read ↔
      mode = Mode.Read := by
    intro mode
    unfold ModeFlagsToFileAccessMode
    constructor
    · intro h
      by_contra hne
      rw [if_neg hne] at h
      split at h <;> cases h
    · intro h
      rw [if_pos h]
  have hself : ∀ (FileOpen : HostOpen) (s : RealVfsFilesystem) (path : String)
      (perms : Mode) (r : RefId), s.file r = none →
      (s.RefreshReference FileOpen path perms r).file r =
        FileOpen path (ModeFlagsToFileAccessMode perms) FileType.BinaryFile := by
    intro FileOpen s path perms r hfile
    rw [RealVfsFilesystem.RefreshReference_file_self, hfile]
  refine ⟨by decide, by decide, hiff, hself, ?_⟩
  intro FileOpen s path perms r h hfaith hfile hh
  rw [hself FileOpen s path perms r hfile] at hh
  have := hfaith _ _ _ h hh
  rw [this]
  exact hiff perms

theorem access_mode_mapping_witness :
    faithful openAlways ∧ sampleOpened.base.file 0 = none ∧
    (sampleOpened.base.RefreshReference openAlways "a" Mode.Read 0).file 0 =
      some ⟨"a", FileAccessMode.Read, FileType.BinaryFile⟩ ∧
    ((⟨"a", FileAccessMode.Read, FileType.BinaryFile⟩ : IOFile).access = FileAccessMode.Read ↔
      Mode.Read = Mode.Read) :=
  ⟨openAlways_faithful, rfl, rfl,
    access_mode_mapping.2.2.2.2 openAlways sampleOpened.base "a" Mode.Read 0
      ⟨"a", FileAccessMode.Read, FileType.BinaryFile⟩ openAlways_faithful rfl rfl⟩

/-! ## Refresh at the cap -/

/-- The cache is full after as many accesses as the cap allows, whatever the
number of files opened. -/
theorem filled_state (P : HostPaths) (paths : Nat → String) (perms : Nat → Mode)
    (FileOpen : Nat → HostOpen)
    (hok : ∀ k i, (nativeOpen (FileOpen k) (handle P paths perms i)).isSome = true)
    (m n : Nat) (hN : MaxOpenFiles = m + 1) (hn : m + 1 ≤ n) :
    Reachable P (accessMany FileOpen (handle P paths perms)
      (openMany P paths perms System.init n) (m + 1)) ∧
    (∀ i, i < n → handle P paths perms i ∈ (accessMany FileOpen (handle P paths perms)
      (openMany P paths perms System.init n) (m + 1)).files) ∧
    (accessMany FileOpen (handle P paths perms)
      (openMany P paths perms System.init n) (m + 1)).base.num_open_files = m + 1 ∧
    (∀ i, i < m + 1 → ((accessMany FileOpen (handle P paths perms)
      (openMany P paths perms System.init n) (m + 1)).base.file i).isSome = true) ∧
    (∀ i, m + 1 ≤ i → (accessMany FileOpen (handle P paths perms)
      (openMany P paths perms System.init n) (m + 1)).base.file i = none) := by
  have hcap : m + 1 ≤ MaxOpenFiles := Nat.le_of_eq hN.symm
  have hst := accessMany_state P paths perms FileOpen (fun k => hok k k) n (m + 1) hcap hn
  have hreach : Reachable P (accessMany FileOpen (handle P paths perms)
      (openMany P paths perms System.init n) (m + 1)) :=
    (Reachable.init.openMany paths perms n).accessMany FileOpen _ (m + 1)
      (fun i hi => handle_mem_openMany P paths perms n i (Nat.lt_of_lt_of_le hi hn))
  refine ⟨hreach, ?_, ?_, ?_, ?_⟩
  · intro i hi
    rw [(accessMany_frame _ _ _ _).1]
    exact handle_mem_openMany P paths perms n i hi
  · rw [hst]
  · intro i hi
    rw [hst]
    simp only [hi, if_true]
    exact hok i i
  · intro i hi
    rw [hst]
    simp only [Nat.not_lt.mpr hi, if_false]

/-- C17, refresh of a reference that owns a handle: in every reachable state
(also with `num_open_files` at the cap 512) `RefreshReference` on such a
reference evicts nothing and asks the host for nothing (the result is the
same for every host), leaves `num_open_files`, the closed list and the field
`file` of every reference as they are, and changes the open list only by
moving the reference to its front. -/
theorem refresh_open_move_to_front (P : HostPaths) (w : System) (hw : Reachable P w)
    (FileOpen : HostOpen) (path : String) (perms : Mode) (r : RefId)
    (hfile : (w.base.file r).isSome = true) :
    let s := w.base
    let s2 := s.RefreshReference FileOpen path perms r
    MaxOpenFiles = 512 ∧
    s2.num_open_files = s.num_open_files ∧
    s2.closed_references = s.closed_references ∧
    s2.file = s.file ∧
    r ∈ s.open_references ∧
    s2.open_references = r :: s.open_references.erase r ∧
    s2.open_references.Perm s.open_references ∧
    s2.open_references.filter (fun x => x != r) = s.open_references.filter (fun x => x != r) ∧
    (∀ FileOpen2 : HostOpen, s.RefreshReference FileOpen2 path perms r = s2) := by
  intro s s2
  have hwf : s.WF := hw.inv.wf
  have hmem : r ∈ s.open_references := (hwf.open_iff r).mpr hfile
  have hs2 : s2 = { s with open_references := r :: s.open_references.erase r } :=
    RealVfsFilesystem.RefreshReference_of_open FileOpen s path perms r hfile
  refine ⟨rfl, ?_, ?_, ?_, hmem, ?_, ?_, ?_, ?_⟩
  · rw [hs2]
  · rw [hs2]
  · rw [hs2]
  · rw [hs2]
  · rw [hs2]; exact (List.perm_cons_erase hmem).symm
  · rw [hs2]
    simp only
    rw [filter_cons_drop _ _ _ (by simp), filter_erase_drop _ _ _ (by simp)]
  · intro FileOpen2
    rw [hs2]
    exact RealVfsFilesystem.RefreshReference_of_open FileOpen2 s path perms r hfile

theorem fullSystem_facts :
    Reachable samplePaths fullSystem ∧
    fullSystem.base.num_open_files = MaxOpenFiles ∧
    (fullSystem.base.file 0).isSome = true := by
  obtain ⟨h1, -, h3, h4, -⟩ := filled_state samplePaths samplePathOf sampleModeOf alwaysHost
    alwaysHost_ok 511 (511 + 1) rfl (Nat.le_refl _)
  have hfs : fullSystem = accessMany alwaysHost (handle samplePaths samplePathOf sampleModeOf)
      (openMany samplePaths samplePathOf sampleModeOf System.init (511 + 1)) (511 + 1) := rfl
  rw [hfs]
  exact ⟨h1, h3, h4 (0 : RefId) (Nat.succ_pos 511)⟩

theorem refresh_open_move_to_front_witness :
    Reachable samplePaths fullSystem ∧
    fullSystem.base.num_open_files = MaxOpenFiles ∧
    (fullSystem.base.file 0).isSome = true ∧
    (let s := fullSystem.base
     let s2 := s.RefreshReference openNever "0" Mode.Read 0
     MaxOpenFiles = 512 ∧
     s2.num_open_files = s.num_open_files ∧
     s2.closed_references = s.closed_references ∧
     s2.file = s.file ∧
     0 ∈ s.open_references ∧
     s2.open_references = 0 :: s.open_references.erase 0 ∧
     s2.open_references.Perm s.open_references ∧
     s2.open_references.filter (fun x => x != 0) = s.open_references.filter (fun x => x != 0) ∧
     (∀ FileOpen2 : HostOpen, s.RefreshReference FileOpen2 "0" Mode.Read 0 = s2)) :=
  ⟨fullSystem_facts.1, fullSystem_facts.2.1, fullSystem_facts.2.2,
    refresh_open_move_to_front samplePaths fullSystem fullSystem_facts.1 openNever "0"
      Mode.Read 0 fullSystem_facts.2.2⟩

/-- C18, eviction is not rolled back on a failed open: in a reachable state with
`num_open_files` at the cap (512), for a living file object whose reference
owns no handle and whose native open fails, `RefreshReference` still closes
the least recently used open reference (the back of the open list): afterwards
`num_open_files` is 511, the open list has lost its back, the closed list
begins with the refreshed reference followed by the evicted one, and neither
of the two owns a handle. -/
theorem eviction_not_rolled_back (P : HostPaths) (w : System) (hw : Reachable P w)
    (f : RealVfsFile) (_hf : f ∈ w.files) (FileOpen : HostOpen)
    (hfull : w.base.num_open_files = MaxOpenFiles)
    (hclosed : w.base.file f.reference = none) (hfail : nativeOpen FileOpen f = none) :
    ∃ e, w.base.open_references.getLast? = some e ∧
      (w.base.file e).isSome = true ∧
      (w.access FileOpen f).base.num_open_files = 511 ∧
      (w.access FileOpen f).base.open_references = w.base.open_references.dropLast ∧
      (w.access FileOpen f).base.closed_references =
        f.reference :: e :: w.base.closed_references.erase f.reference ∧
      (w.access FileOpen f).base.file f.reference = none ∧
      (w.access FileOpen f).base.file e = none := by
  have hwf := hw.inv.wf
  have hge : MaxOpenFiles ≤ w.base.num_open_files := Nat.le_of_eq hfull.symm
  obtain ⟨e, hlast⟩ := hwf.exists_last_of_full hge
  have hefile : (w.base.file e).isSome = true :=
    (hwf.open_iff e).mp (mem_of_getLast_eq hlast)
  have hne : f.reference ≠ e := by
    intro h; rw [h] at hclosed; rw [hclosed] at hefile; simp at hefile
  have hfail2 : FileOpen f.path (ModeFlagsToFileAccessMode f.perms) FileType.BinaryFile =
      none := hfail
  have hbase : (w.access FileOpen f).base =
      { open_references := w.base.open_references.dropLast,
        closed_references := f.reference :: e :: w.base.closed_references.erase f.reference,
        num_open_files := sizeDec w.base.num_open_files,
        file := Function.update w.base.file e none } := by
    simp only [System.access]
    rw [RealVfsFilesystem.RefreshReference_closed_full FileOpen w.base f.path f.perms
      f.reference e hwf.nodup_open hclosed hge hlast hefile, hfail2]
  refine ⟨e, hlast, hefile, ?_, ?_, ?_, ?_, ?_⟩
  · rw [hbase]
    simp only [hfull]
    decide
  · rw [hbase]
  · rw [hbase]
  · rw [hbase]
    simp only [Function.update_noteq hne]
    exact hclosed
  · rw [hbase]
    exact Function.update_same _ _ _

theorem fullAndOne_facts :
    Reachable samplePaths fullAndOne ∧
    handle samplePaths samplePathOf sampleModeOf MaxOpenFiles ∈ fullAndOne.files ∧
    fullAndOne.base.num_open_files = MaxOpenFiles ∧
    fullAndOne.base.file (handle samplePaths samplePathOf sampleModeOf MaxOpenFiles).reference =
      none := by
  obtain ⟨h1, h2, h3, -, h5⟩ := filled_state samplePaths samplePathOf sampleModeOf alwaysHost
    alwaysHost_ok 511 (511 + 1 + 1) rfl (Nat.le_succ _)
  have hfs : fullAndOne =
      accessMany alwaysHost (handle samplePaths samplePathOf sampleModeOf)
        (openMany samplePaths samplePathOf sampleModeOf System.init (511 + 1 + 1))
        (511 + 1) := rfl
  have hmax : MaxOpenFiles = 511 + 1 := rfl
  have href : (handle samplePaths samplePathOf sampleModeOf (511 + 1)).reference =
      (511 + 1 : Nat) := rfl
  rw [hfs, hmax, href]
  exact ⟨h1, h2 (511 + 1) (Nat.lt_succ_self _), h3, h5 (511 + 1) (Nat.le_refl _)⟩

theorem eviction_not_rolled_back_witness :
    Reachable samplePaths fullAndOne ∧
    handle samplePaths samplePathOf sampleModeOf MaxOpenFiles ∈ fullAndOne.files ∧
    fullAndOne.base.num_open_files = MaxOpenFiles ∧
    fullAndOne.base.file (handle samplePaths samplePathOf sampleModeOf MaxOpenFiles).reference =
      none ∧
    nativeOpen openNever (handle samplePaths samplePathOf sampleModeOf MaxOpenFiles) = none ∧
    ∃ e, fullAndOne.base.open_references.getLast? = some e ∧
      (fullAndOne.base.file e).isSome = true ∧
      (fullAndOne.access openNever
        (handle samplePaths samplePathOf sampleModeOf MaxOpenFiles)).base.num_open_files = 511 ∧
      (fullAndOne.access openNever
        (handle samplePaths samplePathOf sampleModeOf MaxOpenFiles)).base.open_references =
          fullAndOne.base.open_references.dropLast ∧
      (fullAndOne.access openNever
        (handle samplePaths samplePathOf sampleModeOf MaxOpenFiles)).base.closed_references =
          (handle samplePaths samplePathOf sampleModeOf MaxOpenFiles).reference :: e ::
            fullAndOne.base.closed_references.erase
              (handle samplePaths samplePathOf sampleModeOf MaxOpenFiles).reference ∧
      (fullAndOne.access openNever
        (handle samplePaths samplePathOf sampleModeOf MaxOpenFiles)).base.file
          (handle samplePaths samplePathOf sampleModeOf MaxOpenFiles).reference = none ∧
      (fullAndOne.access openNever
        (handle samplePaths samplePathOf sampleModeOf MaxOpenFiles)).base.file e = none :=
  ⟨fullAndOne_facts.1, fullAndOne_facts.2.1, fullAndOne_facts.2.2.1, fullAndOne_facts.2.2.2,
    rfl,
    eviction_not_rolled_back samplePaths fullAndOne fullAndOne_facts.1
      (handle samplePaths samplePathOf sampleModeOf MaxOpenFiles) fullAndOne_facts.2.1
      openNever fullAndOne_facts.2.2.1 fullAndOne_facts.2.2.2 rfl⟩

/-! ## Directory enumeration in append mode -/

/-- C12, append-mode enumeration: for a directory object whose mode is exactly
`Append`, whatever the host directory holds, `GetFiles` and
`GetSubdirectories` return an empty list and `GetEntries` an empty mapping;
the handle cache, its clients and the host are as before (no reference is
registered). -/
theorem append_mode_enumeration {σ : Type} (P : HostPaths) (H : HostFs σ) (st : σ)
    (w : System) (d : RealVfsDirectory) (hmode : d.perms = Mode.Append) :
    d.GetFiles P H st w = (w, []) ∧
    d.GetSubdirectories P H st w.base = (w.base, st, []) ∧
    d.GetEntries H st = [] := by
  simp [RealVfsDirectory.GetFiles, RealVfsDirectory.GetSubdirectories,
    RealVfsDirectory.GetEntries, RealVfsDirectory.IterateEntries_RealVfsFile,
    RealVfsDirectory.IterateEntries_RealVfsDirectory, hmode]

theorem append_mode_enumeration_witness :
    (sampleDir Mode.Append).perms = Mode.Append ∧
    (sampleDir Mode.Append).GetFiles samplePaths simpleFs sampleHost sampleTwo =
      (sampleTwo, []) ∧
    (sampleDir Mode.Append).GetSubdirectories samplePaths simpleFs sampleHost sampleTwo.base =
      (sampleTwo.base, sampleHost, []) ∧
    (sampleDir Mode.Append).GetEntries simpleFs sampleHost = [] :=
  ⟨rfl, append_mode_enumeration samplePaths simpleFs sampleHost sampleTwo
    (sampleDir Mode.Append) rfl⟩

/-- The same directory read in the mode `Read`: the enumerations are not empty,
and `GetFiles` registers a reference. -/
theorem read_mode_enumeration_sample :
    ((sampleDir Mode.Read).GetFiles samplePaths simpleFs sampleHost sampleTwo).2 =
      [some (sampleFile 2 "d/a" Mode.Read)] ∧
    ((sampleDir Mode.Read).GetFiles samplePaths simpleFs sampleHost
      sampleTwo).1.base.closed_references = [2, 1] ∧
    ((sampleDir Mode.Read).GetSubdirectories samplePaths simpleFs sampleHost
      sampleTwo.base).2.2.length = 1 ∧
    (sampleDir Mode.Read).GetEntries simpleFs sampleHost =
      [("d/a", VfsEntryType.File), ("d/sub", VfsEntryType.Directory)] := by
  refine ⟨by decide, by decide, by decide, by decide⟩

/-! ## The accessors of a file object -/

/-- C14 as amended, accessors: `GetName`, `IsReadable` and `IsWritable` are
computed from the members set at construction only (they take neither the
host nor the cache); `GetName` is the last path component and has no defined
result when there is none. `GetContainingDirectory` performs no refresh and
leaves the handle cache as it is; it builds a directory object for the cached
`parent_path` and mode, which asks the host whether that directory exists and,
when it does not and the mode has the `Write` flag, calls `FS::CreateDirs` on
it and discards the result. The host afterwards is the host before when the
directory exists or the mode lacks the `Write` flag, and the host after
`FS::CreateDirs` otherwise; so it is unchanged exactly when the directory
exists, the mode lacks the `Write` flag, or `FS::CreateDirs` changes
nothing. -/
theorem accessors_effects {σ : Type} (P : HostPaths) (H : HostFs σ) (st : σ)
    (base : RealVfsFilesystem) (reference : RefId) (path : String) (perms : Mode) :
    let f := RealVfsFile.construct P reference path perms
    let dir := H.RemoveTrailingSlash (P.SanitizePath (P.GetParentPath path))
    f.GetName = (P.SplitPathComponents path).getLast? ∧
    f.IsReadable = perms.has Mode.Read ∧
    f.IsWritable = perms.has Mode.Write ∧
    (f.GetContainingDirectory P H st base).1 = base ∧
    (f.GetContainingDirectory P H st base).2.2 =
      some { path := dir, parent_path := P.GetParentPath dir,
             path_components := P.SplitPathComponents dir, perms := perms } ∧
    (f.GetContainingDirectory P H st base).2.1 =
      (if !(H.Exists st dir) && perms.has Mode.Write then (H.CreateDirs st dir).1 else st) ∧
    ((H.Exists st dir = true ∨ perms.has Mode.Write = false) →
      (f.GetContainingDirectory P H st base).2.1 = st) ∧
    (H.Exists st dir = false → perms.has Mode.Write = true →
      (f.GetContainingDirectory P H st base).2.1 = (H.CreateDirs st dir).1) ∧
    ((f.GetContainingDirectory P H st base).2.1 = st ↔
      (H.Exists st dir = true ∨ perms.has Mode.Write = false ∨
        (H.CreateDirs st dir).1 = st)) := by
  intro f dir
  have hhost : (f.GetContainingDirectory P H st base).2.1 =
      (if !(H.Exists st dir) && perms.has Mode.Write then (H.CreateDirs st dir).1
        else st) := by
    simp only [RealVfsFile.GetContainingDirectory, RealVfsFilesystem.OpenDirectory,
      RealVfsDirectory.construct]
    have hd : H.RemoveTrailingSlash (P.SanitizePath f.parent_path) = dir := rfl
    have hp : f.perms = perms := rfl
    rw [hd, hp]
    split <;> rfl
  refine ⟨rfl, rfl, rfl, rfl, ?_, hhost, ?_, ?_, ?_⟩
  · simp only [RealVfsFile.GetContainingDirectory, RealVfsFilesystem.OpenDirectory,
      RealVfsDirectory.construct]
    split <;> rfl
  · intro h
    rw [hhost]
    rcases h with h | h
    · simp [h]
    · simp [h]
  · intro h1 h2
    rw [hhost]
    simp [h1, h2]
  · rw [hhost]
    cases he : H.Exists st dir <;> cases hw : perms.has Mode.Write <;> simp

theorem accessors_effects_witness :
    simpleFs.Exists emptyHost
      (simpleFs.RemoveTrailingSlash
        (samplePaths.SanitizePath (samplePaths.GetParentPath "x"))) = false ∧
    Mode.Write.has Mode.Write = true ∧
    ((RealVfsFile.construct samplePaths 0 "x" Mode.Write).GetContainingDirectory samplePaths
      simpleFs emptyHost RealVfsFilesystem.empty).2.1 =
      (simpleFs.CreateDirs emptyHost
        (simpleFs.RemoveTrailingSlash
          (samplePaths.SanitizePath (samplePaths.GetParentPath "x")))).1 :=
  ⟨rfl, rfl,
    (accessors_effects samplePaths simpleFs emptyHost RealVfsFilesystem.empty 0 "x"
      Mode.Write).2.2.2.2.2.2.2.1 rfl rfl⟩

/-- On a host that refuses to create the directory the call leaves the host as
it is, although the directory is missing and the mode has the `Write` flag.
`GetName` is the last component of the path, and has no result for a file
object without path components. -/
theorem accessors_refused_sample :
    simpleFs.Exists refusingHost "" = false ∧ Mode.Write.has Mode.Write = true ∧
    ((sampleFile 0 "x" Mode.Write).GetContainingDirectory samplePaths simpleFs refusingHost
      RealVfsFilesystem.empty).2.1 = refusingHost ∧
    (RealVfsFile.construct samplePaths 0 "" Mode.Read).GetName = some "" ∧
    RealVfsFile.GetName
      { reference := 0, path := "", parent_path := "", path_components := [],
        perms := Mode.Read } = none := by
  exact ⟨by decide, by decide, rfl, rfl, rfl⟩

/-- C14 as stated fails: on a host without any directory, `GetContainingDirectory`
on a file object opened for `Write` creates the parent directory on the host;
the host is not the same after the call. -/
theorem accessors_counterexample :
    (sampleFile 0 "x" Mode.Write ∈
      (System.init.openFile samplePaths "x" Mode.Write).files) ∧
    emptyHost.dirs = [] ∧
    ((sampleFile 0 "x" Mode.Write).GetContainingDirectory samplePaths simpleFs emptyHost
      (System.init.openFile samplePaths "x" Mode.Write).base).2.1.dirs = [""] ∧
    ((sampleFile 0 "x" Mode.Write).GetContainingDirectory samplePaths simpleFs emptyHost
      (System.init.openFile samplePaths "x" Mode.Write).base).2.1 ≠ emptyHost := by
  refine ⟨by decide, rfl, by decide, ?_⟩
  intro h
  have hd := congrArg SimpleHost.dirs h
  revert hd
  decide

/-! ## Rename -/

/-- The cache after `OpenFile` for a reference that is linked nowhere, followed
by `DropReference` on it, is the cache before. -/
theorem RealVfsFilesystem.open_then_drop (P : HostPaths) (s : RealVfsFilesystem)
    (reference : RefId) (path_ : String) (perms : Mode) (hfile : s.file reference = none) :
    (RealVfsFilesystem.OpenFile P s reference path_ perms).1.DropReference reference = s := by
  have hu : Function.update s.file reference none = s.file := update_none_self _ _ hfile
  have ho : (RealVfsFilesystem.OpenFile P s reference path_ perms).1 =
      { s with closed_references := reference :: s.closed_references } := by
    simp [RealVfsFilesystem.OpenFile, RealVfsFilesystem.InsertReferenceIntoList, hu]
  rw [ho, RealVfsFilesystem.DropReference_of_closed
    { s with closed_references := reference :: s.closed_references } reference hfile]
  simp

theorem RealVfsFilesystem.MoveFile_failed {σ : Type} (P : HostPaths) (H : HostFs σ) (st : σ)
    (s : RealVfsFilesystem) (reference : RefId) (old_path_ new_path_ : String)
    (h : (H.RenameFile st (P.SanitizePath old_path_) (P.SanitizePath new_path_)).2 = false) :
    s.MoveFile P H st reference old_path_ new_path_ =
      ((H.RenameFile st (P.SanitizePath old_path_) (P.SanitizePath new_path_)).1, s, none) := by
  simp [RealVfsFilesystem.MoveFile, h]

theorem RealVfsFilesystem.MoveFile_done {σ : Type} (P : HostPaths) (H : HostFs σ) (st : σ)
    (s : RealVfsFilesystem) (reference : RefId) (old_path_ new_path_ : String)
    (h : (H.RenameFile st (P.SanitizePath old_path_) (P.SanitizePath new_path_)).2 = true) :
    s.MoveFile P H st reference old_path_ new_path_ =
      ((H.RenameFile st (P.SanitizePath old_path_) (P.SanitizePath new_path_)).1,
        (RealVfsFilesystem.OpenFile P s reference (P.SanitizePath new_path_) Mode.ReadWrite).1,
        some (RealVfsFile.construct P reference
          (P.SanitizePath (P.SanitizePath new_path_)) Mode.ReadWrite)) := by
  simp [RealVfsFilesystem.MoveFile, h, RealVfsFilesystem.OpenFile]

/-- C15, rename bypasses the cache: in every reachable state, for every file
object and name, `Rename` returns `true` iff `MoveFile` on `path` and
`parent_path + '/' + name` returns a file object (iff the host rename
succeeds), and whether the host rename succeeds or fails the open list, the
closed list, `num_open_files`, the field `file` of every reference and the
living file objects are after the call what they were before (the temporary
file object of `MoveFile` is registered and released again). -/
theorem rename_bypasses_cache {σ : Type} (P : HostPaths) (H : HostFs σ) (st : σ)
    (w : System) (hw : Reachable P w) (f : RealVfsFile) (name : String) :
    let mv := w.base.MoveFile P H st w.allocated f.path (f.parent_path ++ "/" ++ name)
    let host := H.RenameFile st (P.SanitizePath f.path)
      (P.SanitizePath (f.parent_path ++ "/" ++ name))
    ((System.rename P H st w f name).2.2 = true ↔ mv.2.2.isSome = true) ∧
    (mv.2.2.isSome = true ↔ host.2 = true) ∧
    (System.rename P H st w f name).1 = host.1 ∧
    (System.rename P H st w f name).2.1.base = w.base ∧
    (System.rename P H st w f name).2.1.files = w.files ∧
    (f.Rename P H st w.base w.allocated name).2.1 = w.base ∧
    (f.Rename P H st w.base w.allocated name).2.2 = (System.rename P H st w f name).2.2 := by
  dsimp only
  have hdead : w.allocated ∉ w.live := fun h => Nat.lt_irrefl _ (hw.inv.live_lt _ h)
  have hfile : w.base.file w.allocated = none := hw.inv.file_of_dead hdead
  cases hr : (H.RenameFile st (P.SanitizePath f.path)
      (P.SanitizePath (f.parent_path ++ "/" ++ name))).2 with
  | false =>
    have hmv := RealVfsFilesystem.MoveFile_failed P H st w.base w.allocated f.path
      (f.parent_path ++ "/" ++ name) hr
    simp only [System.rename, RealVfsFile.Rename, hmv]
    simp
  | true =>
    have hmv := RealVfsFilesystem.MoveFile_done P H st w.base w.allocated f.path
      (f.parent_path ++ "/" ++ name) hr
    have hdrop := RealVfsFilesystem.open_then_drop P w.base w.allocated
      (P.SanitizePath (f.parent_path ++ "/" ++ name)) Mode.ReadWrite hfile
    have href : (RealVfsFile.construct P w.allocated
        (P.SanitizePath (P.SanitizePath (f.parent_path ++ "/" ++ name)))
        Mode.ReadWrite).reference = w.allocated := rfl
    simp only [System.rename, RealVfsFile.Rename, hmv, System.destroy, href, hdrop]
    simp

theorem rename_bypasses_cache_witness :
    Reachable samplePaths sampleTwo ∧
    (let mv := sampleTwo.base.MoveFile samplePaths simpleFs sampleHost sampleTwo.allocated
        (sampleFile 0 "a" Mode.Read).path ((sampleFile 0 "a" Mode.Read).parent_path ++ "/" ++ "z")
     let host := simpleFs.RenameFile sampleHost
        (samplePaths.SanitizePath (sampleFile 0 "a" Mode.Read).path)
        (samplePaths.SanitizePath ((sampleFile 0 "a" Mode.Read).parent_path ++ "/" ++ "z"))
     ((System.rename samplePaths simpleFs sampleHost sampleTwo (sampleFile 0 "a" Mode.Read)
        "z").2.2 = true ↔ mv.2.2.isSome = true) ∧
     (mv.2.2.isSome = true ↔ host.2 = true) ∧
     (System.rename samplePaths simpleFs sampleHost sampleTwo (sampleFile 0 "a" Mode.Read)
        "z").1 = host.1 ∧
     (System.rename samplePaths simpleFs sampleHost sampleTwo (sampleFile 0 "a" Mode.Read)
        "z").2.1.base = sampleTwo.base ∧
     (System.rename samplePaths simpleFs sampleHost sampleTwo (sampleFile 0 "a" Mode.Read)
        "z").2.1.files = sampleTwo.files ∧
     ((sampleFile 0 "a" Mode.Read).Rename samplePaths simpleFs sampleHost sampleTwo.base
        sampleTwo.allocated "z").2.1 = sampleTwo.base ∧
     ((sampleFile 0 "a" Mode.Read).Rename samplePaths simpleFs sampleHost sampleTwo.base
        sampleTwo.allocated "z").2.2 =
       (System.rename samplePaths simpleFs sampleHost sampleTwo (sampleFile 0 "a" Mode.Read)
        "z").2.2) :=
  ⟨sampleTwo_reachable,
    rename_bypasses_cache samplePaths simpleFs sampleHost sampleTwo sampleTwo_reachable
      (sampleFile 0 "a" Mode.Read) "z"⟩

/-- The sample rename succeeds on the host: the content of `a` is found at `/z`
afterwards. -/
theorem rename_sample :
    (System.rename samplePaths simpleFs sampleHost sampleTwo (sampleFile 0 "a" Mode.Read)
      "z").2.2 = true ∧
    (System.rename samplePaths simpleFs sampleHost sampleTwo (sampleFile 0 "a" Mode.Read)
      "z").1.content "/z" = some [7, 8] ∧
    (System.rename samplePaths simpleFs sampleHost sampleTwo (sampleFile 0 "a" Mode.Read)
      "z").1.content "a" = none := by
  refine ⟨by decide, by decide, by decide⟩

/-! ## Requests of length zero and past the end of the file -/

theorem SimpleHost.FileOpen_faithful (st : SimpleHost) : faithful st.FileOpen := by
  intro path access type h hh
  unfold SimpleHost.FileOpen at hh
  split at hh
  · split at hh
    · exact (Option.some.inj hh).symm
    · cases hh
  · split at hh
    · exact (Option.some.inj hh).symm
    · cases hh
  · cases hh

/-- The handles of a `SimpleHost` transfer nothing for an empty span, read
nothing at or past the end of the file, and refuse a seek to a negative
offset. -/
theorem SimpleHost.io_laws (st : SimpleHost) :
    (∀ h o, st.io.ReadSpan h 0 o = 0) ∧ (∀ h o, st.io.WriteSpan h 0 o = 0) ∧
    (∀ h len o, (st.io.GetSize h : Int) ≤ o → st.io.ReadSpan h len o = 0) ∧
    (∀ h o, o < 0 → st.io.Seek h o = false) := by
  refine ⟨?_, ?_, ?_, ?_⟩
  · intro h o
    simp [SimpleHost.io]
  · intro h o
    simp [SimpleHost.io]
  · intro h len o hle
    simp only [SimpleHost.io] at hle ⊢
    have hz : ((st.content h.path).getD []).length - o.toNat = 0 := by omega
    rw [hz]
    simp
  · intro h o ho
    simp only [SimpleHost.io]
    exact decide_eq_false (by omega)

/-- The conversion of a `size_t` offset to `s64` keeps the offsets below `2^63`
and makes the others negative. -/
theorem toS64_cases (offset : Nat) (hoff : offset < SizeMod) :
    (offset < 2 ^ 63 ∧ toS64 offset = (offset : Int)) ∨
    (2 ^ 63 ≤ offset ∧ toS64 offset < 0) := by
  have hmod : offset % SizeMod = offset := Nat.mod_eq_of_lt hoff
  unfold toS64
  simp only [hmod]
  unfold SizeMod at hoff
  by_cases h : offset < 2 ^ 63
  · left
    exact ⟨h, by rw [if_pos h]⟩
  · right
    refine ⟨Nat.le_of_not_lt h, ?_⟩
    rw [if_neg h]
    have h2 : (offset : Int) < 2 ^ 64 := by exact_mod_cast hoff
    omega

/-- C13 as amended, requests of length zero and past the end: on a host whose
handles transfer no byte for an empty span, read no byte at or past the end of
the file and refuse a seek to a negative offset, a `Read` or a `Write` of
length 0 returns 0, and a `Read` whose offset (any `size_t` value) is at or
past the end of the file returns 0. An offset of `2^63` or more is negative as
an `s64`: the seek fails and `Read` and `Write` return 0. Otherwise a `Write`
returns 0 when the reference has no handle after the refresh or the seek
fails, and the byte count the host reports for the write when it succeeds,
also when the offset is past the end of the file. Each result is a plain
value; nothing is raised. -/
theorem zero_length_and_past_end (FileOpen : HostOpen) (io : HostIO)
    (base : RealVfsFilesystem) (f : RealVfsFile) (length offset : Nat)
    (hoff : offset < SizeMod)
    (hread0 : ∀ h o, io.ReadSpan h 0 o = 0) (hwrite0 : ∀ h o, io.WriteSpan h 0 o = 0)
    (hend : ∀ h len o, (io.GetSize h : Int) ≤ o → io.ReadSpan h len o = 0)
    (hseek : ∀ h o, o < 0 → io.Seek h o = false) :
    (f.Read FileOpen io base 0 offset).2 = 0 ∧
    (f.Write FileOpen io base 0 offset).2 = 0 ∧
    ((∀ h, (base.RefreshReference FileOpen f.path f.perms f.reference).file f.reference =
        some h → io.GetSize h ≤ offset) →
      (f.Read FileOpen io base length offset).2 = 0) ∧
    (2 ^ 63 ≤ offset →
      (f.Read FileOpen io base length offset).2 = 0 ∧
      (f.Write FileOpen io base length offset).2 = 0) ∧
    ((base.RefreshReference FileOpen f.path f.perms f.reference).file f.reference = none →
      (f.Write FileOpen io base length offset).2 = 0) ∧
    (∀ h, (base.RefreshReference FileOpen f.path f.perms f.reference).file f.reference =
        some h →
      (f.Write FileOpen io base length offset).2 =
        if io.Seek h (toS64 offset) then io.WriteSpan h length (toS64 offset) else 0) := by
  refine ⟨?_, ?_, ?_, ?_, ?_, ?_⟩
  · simp only [RealVfsFile.Read]
    split
    · rfl
    · split
      · rfl
      · exact hread0 _ _
  · simp only [RealVfsFile.Write]
    split
    · rfl
    · split
      · rfl
      · exact hwrite0 _ _
  · intro hpast
    simp only [RealVfsFile.Read]
    split
    · rfl
    · rename_i h hh
      rcases toS64_cases offset hoff with ⟨-, heq⟩ | ⟨-, hneg⟩
      · split
        · rfl
        · rw [heq]
          exact hend h length _ (by exact_mod_cast hpast h hh)
      · simp [hseek h _ hneg]
  · intro hbig
    have hneg : toS64 offset < 0 := by
      rcases toS64_cases offset hoff with ⟨hlt, -⟩ | ⟨-, hneg⟩
      · omega
      · exact hneg
    constructor
    · simp only [RealVfsFile.Read]
      split
      · rfl
      · rename_i h hh
        simp [hseek h _ hneg]
    · simp only [RealVfsFile.Write]
      split
      · rfl
      · rename_i h hh
        simp [hseek h _ hneg]
  · intro hnone
    simp only [RealVfsFile.Write, hnone]
  · intro h hh
    simp only [RealVfsFile.Write, hh]
    cases io.Seek h (toS64 offset) <;> simp

theorem zero_length_and_past_end_witness :
    9223372036854775808 < SizeMod ∧
    (∀ h o, sampleHost.io.ReadSpan h 0 o = 0) ∧ (∀ h o, sampleHost.io.WriteSpan h 0 o = 0) ∧
    (∀ h len o, (sampleHost.io.GetSize h : Int) ≤ o → sampleHost.io.ReadSpan h len o = 0) ∧
    (∀ h o, o < 0 → sampleHost.io.Seek h o = false) ∧
    ((sampleFile 0 "a" Mode.Read).Read sampleHost.FileOpen sampleHost.io sampleOpened.base 4
      9223372036854775808).2 = 0 ∧
    ((sampleFile 0 "a" Mode.Read).Write sampleHost.FileOpen sampleHost.io sampleOpened.base 4
      9223372036854775808).2 = 0 :=
  ⟨by decide, sampleHost.io_laws.1, sampleHost.io_laws.2.1, sampleHost.io_laws.2.2.1,
    sampleHost.io_laws.2.2.2,
    (zero_length_and_past_end sampleHost.FileOpen sampleHost.io sampleOpened.base
      (sampleFile 0 "a" Mode.Read) 4 9223372036854775808 (by decide) sampleHost.io_laws.1
      sampleHost.io_laws.2.1 sampleHost.io_laws.2.2.1 sampleHost.io_laws.2.2.2).2.2.2.1
      (by decide)⟩

/-- On the sample host the file `a` holds two bytes: a `Read` of four bytes at
the offsets 2 (the end), 9 and `2^64 - 1` returns 0, and at the offset 0 it
returns 2. -/
theorem read_past_end_sample :
    ((sampleFile 0 "a" Mode.Read).GetSize sampleHost.FileOpen sampleHost.io
      sampleOpened.base).2 = 2 ∧
    ((sampleFile 0 "a" Mode.Read).Read sampleHost.FileOpen sampleHost.io sampleOpened.base 4
      0).2 = 2 ∧
    ((sampleFile 0 "a" Mode.Read).Read sampleHost.FileOpen sampleHost.io sampleOpened.base 4
      2).2 = 0 ∧
    ((sampleFile 0 "a" Mode.Read).Read sampleHost.FileOpen sampleHost.io sampleOpened.base 4
      9).2 = 0 ∧
    ((sampleFile 0 "a" Mode.Read).Read sampleHost.FileOpen sampleHost.io sampleOpened.base 4
      18446744073709551615).2 = 0 := by
  refine ⟨by decide, by decide, by decide, by decide, by decide⟩

/-- C13 as stated fails: the file `a` holds two bytes; a `Write` of four bytes at
the offset 10, past the end of the file, through a file object opened for
reading and writing returns 4, not 0. -/
theorem zero_length_and_past_end_counterexample :
    sampleFile 0 "a" Mode.ReadWrite ∈
      (System.init.openFile samplePaths "a" Mode.ReadWrite).files ∧
    ((sampleFile 0 "a" Mode.ReadWrite).GetSize sampleHost.FileOpen sampleHost.io
      (System.init.openFile samplePaths "a" Mode.ReadWrite).base).2 = 2 ∧
    ((sampleFile 0 "a" Mode.ReadWrite).Write sampleHost.FileOpen sampleHost.io
      (System.init.openFile samplePaths "a" Mode.ReadWrite).base 4 10).2 = 4 := by
  refine ⟨by decide, by decide, by decide⟩

/-! ## Creation of a file -/

/-- The cache and the file object `CreateFile` returns when the host let it go
on to `OpenFile`. -/
theorem RealVfsFilesystem.OpenFile_result (P : HostPaths) (s : RealVfsFilesystem)
    (reference : RefId) (path : String) (perms : Mode) :
    (RealVfsFilesystem.OpenFile P s reference path perms).2 =
      some (RealVfsFile.construct P reference (P.SanitizePath path) perms) ∧
    (RealVfsFilesystem.OpenFile P s reference path perms).1.file reference = none := by
  simp [RealVfsFilesystem.OpenFile, RealVfsFilesystem.InsertReferenceIntoList]

/-- A data access through a new file object to a file without content, on a
`SimpleHost`: the size is 0 and no byte is read. -/
theorem SimpleHost.empty_file_reads (st : SimpleHost) (base : RealVfsFilesystem)
    (f : RealVfsFile) (hnew : base.file f.reference = none)
    (hempty : st.content f.path = some []) (length offset : Nat) :
    (f.GetSize st.FileOpen st.io base).2 = 0 ∧
    (f.Read st.FileOpen st.io base length offset).2 = 0 := by
  have hself := RealVfsFilesystem.RefreshReference_file_self st.FileOpen base f.path f.perms
    f.reference
  rw [hnew] at hself
  simp only at hself
  cases hO : st.FileOpen f.path (ModeFlagsToFileAccessMode f.perms) FileType.BinaryFile with
  | none =>
    rw [hO] at hself
    simp only [RealVfsFile.GetSize, RealVfsFile.Read, hself, and_self]
  | some h =>
    rw [hO] at hself
    have hh : h = ⟨f.path, ModeFlagsToFileAccessMode f.perms, FileType.BinaryFile⟩ :=
      st.FileOpen_faithful _ _ _ h hO
    have hsize : st.io.GetSize h = 0 := by
      rw [hh]
      simp [SimpleHost.io, hempty]
    have hread : ∀ o, st.io.ReadSpan h length o = 0 := by
      intro o
      rw [hh]
      simp [SimpleHost.io, hempty]
    simp only [RealVfsFile.GetSize, RealVfsFile.Read, hself, hsize, hread, true_and]
    split <;> rfl

/-- C16, truncate on create, on the host modelled from the spec: for a path that
is an existing host file, whatever its content, `CreateFile` returns null (the
host refuses to open the file for writing) or a file object, and then the
content of the file is gone: an immediate `GetSize` returns 0 and an immediate
`Read` of any length at any offset returns 0. For a path that is not an
existing file `CreateFile` returns null iff the host `NewFile` fails, on every
host. The path helper `SanitizePath` is taken to return normalised paths (it
leaves its own results alone). -/
theorem truncate_on_create (P : HostPaths)
    (hidem : ∀ p, P.SanitizePath (P.SanitizePath p) = P.SanitizePath p)
    (st : SimpleHost) (s : RealVfsFilesystem) (reference : RefId) (path_ : String)
    (perms : Mode) :
    (simpleFs.IsFile st (P.SanitizePath path_) = true →
      ((RealVfsFilesystem.CreateFile P simpleFs st s reference path_ perms).2.2 = none ∧
        (simpleFs.IOFileOpen st (P.SanitizePath path_) FileAccessMode.Write
          FileType.BinaryFile).2 = false) ∨
      (∃ f, (RealVfsFilesystem.CreateFile P simpleFs st s reference path_ perms).2.2 = some f ∧
        f.path = P.SanitizePath path_ ∧
        (RealVfsFilesystem.CreateFile P simpleFs st s reference path_ perms).1.content
          (P.SanitizePath path_) = some [] ∧
        (f.GetSize (RealVfsFilesystem.CreateFile P simpleFs st s reference path_ perms).1.FileOpen
          (RealVfsFilesystem.CreateFile P simpleFs st s reference path_ perms).1.io
          (RealVfsFilesystem.CreateFile P simpleFs st s reference path_ perms).2.1).2 = 0 ∧
        ∀ length offset,
          (f.Read (RealVfsFilesystem.CreateFile P simpleFs st s reference path_ perms).1.FileOpen
            (RealVfsFilesystem.CreateFile P simpleFs st s reference path_ perms).1.io
            (RealVfsFilesystem.CreateFile P simpleFs st s reference path_ perms).2.1
            length offset).2 = 0)) ∧
    (∀ (σ : Type) (H : HostFs σ) (hst : σ), H.IsFile hst (P.SanitizePath path_) = false →
      ((RealVfsFilesystem.CreateFile P H hst s reference path_ perms).2.2 = none ↔
        (H.NewFile hst (P.SanitizePath path_)).2 = false)) := by
  constructor
  · intro hfile
    cases hopen : (simpleFs.IOFileOpen st (P.SanitizePath path_) FileAccessMode.Write
        FileType.BinaryFile).2 with
    | false =>
      left
      refine ⟨?_, rfl⟩
      simp [RealVfsFilesystem.CreateFile, hfile, hopen]
    | true =>
      right
      have hres := RealVfsFilesystem.OpenFile_result P s reference (P.SanitizePath path_) perms
      have hcf : RealVfsFilesystem.CreateFile P simpleFs st s reference path_ perms =
          ((simpleFs.IOFileOpen st (P.SanitizePath path_) FileAccessMode.Write
            FileType.BinaryFile).1,
            (RealVfsFilesystem.OpenFile P s reference (P.SanitizePath path_) perms).1,
            (RealVfsFilesystem.OpenFile P s reference (P.SanitizePath path_) perms).2) := by
        simp [RealVfsFilesystem.CreateFile, hfile, hopen]
      have hcontent : (simpleFs.IOFileOpen st (P.SanitizePath path_) FileAccessMode.Write
          FileType.BinaryFile).1.content (P.SanitizePath path_) = some [] := by
        simp only [simpleFs] at hopen ⊢
        split
        · rename_i hyes
          rw [if_pos hyes] at hopen
          cases hopen
        · simp
      have hpath : (RealVfsFile.construct P reference (P.SanitizePath (P.SanitizePath path_))
          perms).path = P.SanitizePath path_ := hidem path_
      refine ⟨RealVfsFile.construct P reference (P.SanitizePath (P.SanitizePath path_)) perms,
        ?_, hpath, ?_, ?_, ?_⟩
      · rw [hcf]; exact hres.1
      · rw [hcf]; exact hcontent
      · rw [hcf]
        exact (SimpleHost.empty_file_reads _ _ _ hres.2 (by rw [hpath]; exact hcontent) 0 0).1
      · intro length offset
        rw [hcf]
        exact (SimpleHost.empty_file_reads _ _ _ hres.2 (by rw [hpath]; exact hcontent)
          length offset).2
  · intro σ H hst hfile
    cases hnew : (H.NewFile hst (P.SanitizePath path_)).2 with
    | false => simp [RealVfsFilesystem.CreateFile, hfile, hnew]
    | true => simp [RealVfsFilesystem.CreateFile, hfile, hnew, RealVfsFilesystem.OpenFile]

theorem truncate_on_create_witness :
    (∀ p, samplePaths.SanitizePath (samplePaths.SanitizePath p) = samplePaths.SanitizePath p) ∧
    sampleHost.content "a" = some [7, 8] ∧
    simpleFs.IsFile sampleHost (samplePaths.SanitizePath "a") = true ∧
    (((RealVfsFilesystem.CreateFile samplePaths simpleFs sampleHost RealVfsFilesystem.empty 0
          "a" Mode.Read).2.2 = none ∧
        (simpleFs.IOFileOpen sampleHost (samplePaths.SanitizePath "a") FileAccessMode.Write
          FileType.BinaryFile).2 = false) ∨
      (∃ f, (RealVfsFilesystem.CreateFile samplePaths simpleFs sampleHost
          RealVfsFilesystem.empty 0 "a" Mode.Read).2.2 = some f ∧
        f.path = samplePaths.SanitizePath "a" ∧
        (RealVfsFilesystem.CreateFile samplePaths simpleFs sampleHost RealVfsFilesystem.empty 0
          "a" Mode.Read).1.content (samplePaths.SanitizePath "a") = some [] ∧
        (f.GetSize
          (RealVfsFilesystem.CreateFile samplePaths simpleFs sampleHost RealVfsFilesystem.empty
            0 "a" Mode.Read).1.FileOpen
          (RealVfsFilesystem.CreateFile samplePaths simpleFs sampleHost RealVfsFilesystem.empty
            0 "a" Mode.Read).1.io
          (RealVfsFilesystem.CreateFile samplePaths simpleFs sampleHost RealVfsFilesystem.empty
            0 "a" Mode.Read).2.1).2 = 0 ∧
        ∀ length offset,
          (f.Read
            (RealVfsFilesystem.CreateFile samplePaths simpleFs sampleHost
              RealVfsFilesystem.empty 0 "a" Mode.Read).1.FileOpen
            (RealVfsFilesystem.CreateFile samplePaths simpleFs sampleHost
              RealVfsFilesystem.empty 0 "a" Mode.Read).1.io
            (RealVfsFilesystem.CreateFile samplePaths simpleFs sampleHost
              RealVfsFilesystem.empty 0 "a" Mode.Read).2.1
            length offset).2 = 0)) :=
  ⟨fun _ => rfl, by decide, by decide,
    (truncate_on_create samplePaths (fun _ => rfl) sampleHost RealVfsFilesystem.empty 0 "a"
      Mode.Read).1 (by decide)⟩

/-- On the sample host the file "a" holds two bytes; `CreateFile` on it returns
a file object and leaves the host file empty. -/
theorem create_sample :
    sampleHost.content "a" = some [7, 8] ∧
    ((RealVfsFilesystem.CreateFile samplePaths simpleFs sampleHost RealVfsFilesystem.empty 0
      "a" Mode.Read).2.2).isSome = true ∧
    (RealVfsFilesystem.CreateFile samplePaths simpleFs sampleHost RealVfsFilesystem.empty 0
      "a" Mode.Read).1.content "a" = some [] := by
  refine ⟨by decide, by decide, by decide⟩

end FileSys
